import Mathlib

/-!
The notebook-controller: revision manager and execution engine.

A shallow embedding of the Go sources

* `apis/v1beta1` (data model, `Revision.Sum`, `Dag.TaskMap`, `Execution.MaxConcurrentTasks`,
  `PodTemplateSpec.StrategicMergeFrom`, `ValidateDag`, the methods of `Notebook`, ...),
* `internal/revision/revision.go` (`Publisher`: `List`, `Latest`, `Elected`, `Create`,
  `ElectRevision`, `TrimRevisions`),
* `controller/execution/reconciler.go` (`Stack`, `RestartPatch`, `CommandPatch`, `Reconcile`),
* `controller/notebook/reconciler.go` (the admission of a template reference),

followed by theorems about them.

Conventions.  Go `int` values are `Int`; timestamps are `Nat` with `0` the zero time; Go
`map[string]T` values are association lists read with `List.lookup`; byte slices are lists of
naturals.  The object store behind `client.Client` is an explicit `Store` value that every
operation takes and returns (also when it fails).  Library routines whose code is not part of the
repository (JSON codec, unstructured conversion, strategic merge) are fields of a `Lib` record
that the operations take as a parameter.  The library sort behind `TrimRevisions` and `Latest` is
written as the stable `sortReverse`; where the order among revisions of equal creation time
matters, it is a parameter held to the contract `SortsNewestFirst`.
-/

namespace NotebookController

/-! ## Data model -/

/-- Byte slices (`[]byte`). -/
abbrev Bytes := List Nat

/-- Go `map[string]string`. -/
abbrev StringMap := List (String × String)

/-- Errors returned by the store, by the library routines and by the code itself. -/
inductive Err where
  /-- Go `apierrors.IsNotFound`. -/
  | notFound
  /-- Go `apierrors.IsAlreadyExists`. -/
  | alreadyExists
  /-- Run-time panic: slice index out of range. -/
  | indexOutOfRange
  /-- Run-time panic: failed type assertion. -/
  | typeAssertion
  /-- An error built by `errors.Errorf`, carrying its message. -/
  | errorf (msg : String)
  /-- An error reported by a library routine. -/
  | lib (msg : String)
deriving DecidableEq, Repr

/-- Go `types.NamespacedName`. -/
structure NamespacedName where
  Namespace : String
  Name : String
deriving DecidableEq, Repr

namespace metav1

/-- Go `metav1.OwnerReference`. -/
structure OwnerReference where
  APIVersion : String
  Kind : String
  Name : String
  UID : String
  Controller : Option Bool
  BlockOwnerDeletion : Option Bool
deriving DecidableEq, Repr

end metav1

namespace corev1

/-- Go `corev1.LocalObjectReference`. -/
structure LocalObjectReference where
  Name : String
deriving DecidableEq, Repr

/-- The fields of `corev1.Container` that the repository reads or writes. -/
structure Container where
  Name : String
  Image : String
  Command : List String
deriving DecidableEq, Repr

/-- The fields of `corev1.PodSpec` that the repository reads or writes. -/
structure PodSpec where
  RestartPolicy : String
  Containers : List Container
deriving DecidableEq, Repr

/-- Go `corev1.PodTemplateSpec` (labels and annotations of its object metadata). -/
structure PodTemplateSpec where
  Labels : StringMap
  Annotations : StringMap
  Spec : PodSpec
deriving DecidableEq, Repr

/-- Go `corev1.RestartPolicyNever`. -/
def RestartPolicyNever : String := "Never"

end corev1

/-- Go `v1beta1.ObjectMeta` (types.go). -/
structure ObjectMeta where
  Labels : StringMap
  Annotations : StringMap
deriving DecidableEq, Repr

/-- Go `v1beta1.PodTemplateSpec` (types.go). -/
structure PodTemplateSpec where
  ObjectMeta : ObjectMeta
  Spec : corev1.PodSpec
deriving DecidableEq, Repr

/-- Go `v1beta1.TemplateReference` (template.go). -/
structure TemplateReference where
  Name : String
  Namespace : String
  ResourceVersion : String
deriving DecidableEq, Repr

/-- Go `v1beta1.LocalObjectReference` (template.go). -/
structure LocalObjectReference where
  Name : String
  APIVersion : String
  Kind : String
deriving DecidableEq, Repr

/-- Go `v1beta1.TemplateOption`. -/
structure TemplateOption where
  Name : String
  Description : String
deriving DecidableEq, Repr

/-- Go `v1beta1.TemplateSpec`. -/
structure TemplateSpec where
  Dependencies : List LocalObjectReference
  Options : List TemplateOption
  Required : List corev1.LocalObjectReference
  Template : PodTemplateSpec
deriving DecidableEq, Repr

/-- Go `v1beta1.Template`. -/
structure Template where
  Name : String
  Namespace : String
  Spec : TemplateSpec
deriving DecidableEq, Repr

/-- Go `v1beta1.PodDefaultSpec`. -/
structure PodDefaultSpec where
  Template : PodTemplateSpec
  Dependencies : List LocalObjectReference
deriving DecidableEq, Repr

/-- Go `v1beta1.PodDefault`. -/
structure PodDefault where
  Name : String
  Namespace : String
  Spec : PodDefaultSpec
deriving DecidableEq, Repr

/-- Go `v1beta1.RevisionSpec`. -/
structure RevisionSpec where
  Elected : Bool
  Stopped : Bool
  Data : Bytes
deriving DecidableEq, Repr

/-- Go `v1beta1.Revision`. -/
structure Revision where
  APIVersion : String
  Kind : String
  Name : String
  Namespace : String
  UID : String
  Labels : StringMap
  Annotations : StringMap
  CreationTimestamp : Nat
  OwnerReferences : List metav1.OwnerReference
  Spec : RevisionSpec
deriving DecidableEq, Repr

/-- Go `v1beta1.DagTask`. -/
structure DagTask where
  Name : String
  Template : TemplateReference
  Command : List String
  Options : List corev1.LocalObjectReference
  Dependencies : List String
  Resources : StringMap
deriving DecidableEq, Repr

/-- The zero value `DagTask{}`. -/
def DagTask.zero : DagTask :=
  { Name := "", Template := { Name := "", Namespace := "", ResourceVersion := "" },
    Command := [], Options := [], Dependencies := [], Resources := [] }

/-- Go `v1beta1.DagSpec`. -/
structure DagSpec where
  Entrypoint : String
  Tasks : List DagTask
deriving DecidableEq, Repr

/-- Go `v1beta1.Dag`. -/
structure Dag where
  Name : String
  Namespace : String
  Spec : DagSpec
deriving DecidableEq, Repr

/-- Go `batchv1.JobCondition`, reduced to its type and status. -/
structure JobCondition where
  CondType : String
  Status : String
deriving DecidableEq, Repr

/-- Go `v1beta1.ExecutionTaskStatus`. -/
structure ExecutionTaskStatus where
  Conditions : List JobCondition
  Completed : Bool
  Succeeded : Bool
deriving DecidableEq, Repr

/-- Go `v1beta1.ExecutionStatus`. -/
structure ExecutionStatus where
  Tasks : List (String × ExecutionTaskStatus)
  Completed : Bool
  Succeeded : Bool
deriving DecidableEq, Repr

/-- Go `v1beta1.ExecutionSpec`. -/
structure ExecutionSpec where
  DagRef : corev1.LocalObjectReference
  Parallelism : Int
deriving DecidableEq, Repr

/-- Go `v1beta1.Execution`. -/
structure Execution where
  APIVersion : String
  Kind : String
  Name : String
  Namespace : String
  UID : String
  Spec : ExecutionSpec
  Status : ExecutionStatus
deriving DecidableEq, Repr

namespace batchv1

/-- Go `batchv1.JobSpec`, the fields the reconciler sets. -/
structure JobSpec where
  Template : corev1.PodTemplateSpec
  BackoffLimit : Option Int
  Completions : Option Int
deriving DecidableEq, Repr

/-- Go `batchv1.JobStatus`, the fields the reconciler reads. -/
structure JobStatus where
  Conditions : List JobCondition
  CompletionTime : Option Nat
  Succeeded : Int
  Failed : Int
deriving DecidableEq, Repr

/-- Go `batchv1.Job`. -/
structure Job where
  Name : String
  Namespace : String
  OwnerReferences : List metav1.OwnerReference
  Spec : JobSpec
  Status : JobStatus
deriving DecidableEq, Repr

end batchv1

/-- An object of arbitrary kind (`client.Object`), as handled when dependencies are copied. -/
structure Object where
  APIVersion : String
  Kind : String
  Name : String
  Namespace : String
  OwnerReferences : List metav1.OwnerReference
  CreationTimestamp : Nat
  DeletionTimestamp : Option Nat
  Finalizers : List String
  ResourceVersion : String
  SelfLink : String
  GenerateName : String
  DeletionGracePeriodSeconds : Option Int
  ManagedFields : List String
  Content : Bytes
deriving DecidableEq, Repr

/-- The object store behind `client.Client`: the objects of every kind the code touches, and
the time the store stamps on objects it creates. -/
structure Store where
  now : Nat
  Executions : List Execution
  Dags : List Dag
  Templates : List Template
  PodDefaults : List PodDefault
  Revisions : List Revision
  Jobs : List batchv1.Job
  Objects : List Object
deriving DecidableEq, Repr

instance {α : Type} [DecidableEq α] : DecidableEq (Except Err α) := fun a b =>
  match a, b with
  | .ok x, .ok y => if h : x = y then isTrue (by rw [h]) else isFalse (fun e => h (by cases e; rfl))
  | .error x, .error y =>
    if h : x = y then isTrue (by rw [h]) else isFalse (fun e => h (by cases e; rfl))
  | .ok _, .error _ => isFalse (fun e => by cases e)
  | .error _, .ok _ => isFalse (fun e => by cases e)

/-- The result of an operation on the store: the value or error returned and the store left
behind. -/
structure Res (α : Type) where
  val : Except Err α
  store : Store

instance {α : Type} [DecidableEq α] : DecidableEq (Res α) := fun a b =>
  match a, b with
  | ⟨v1, s1⟩, ⟨v2, s2⟩ =>
    if h : v1 = v2 ∧ s1 = s2 then isTrue (by rw [h.1, h.2])
    else isFalse (fun e => h (by cases e; exact ⟨rfl, rfl⟩))

/-- The interface `revision.Referrer`, as the record of the values its methods return. -/
structure Referrer where
  GetName : String
  GetNamespace : String
  TemplateRef : NamespacedName
  HistoryLimit : Int
  ResourceRequests : StringMap
  ElectedOptions : List corev1.LocalObjectReference
  UpdatePolicy : String
deriving DecidableEq, Repr

/-- Go `v1beta1.UpdatePolicyAuto`. -/
def UpdatePolicyAuto : String := "Auto"

/-- Go `v1beta1.UpdatePolicyIgnore`. -/
def UpdatePolicyIgnore : String := "Ignore"

/-- Go `v1beta1.GroupName` (register.go). -/
def GroupName : String := "jackhoman.dev"

/-! ## Revisions (`apis/v1beta1/revision.go`) -/

/-- One hexadecimal digit, as `hex.EncodeToString` writes it. -/
def hexDigit (n : Nat) : Char :=
  match n % 16 with
  | 0 => '0' | 1 => '1' | 2 => '2' | 3 => '3' | 4 => '4' | 5 => '5' | 6 => '6' | 7 => '7'
  | 8 => '8' | 9 => '9' | 10 => 'a' | 11 => 'b' | 12 => 'c' | 13 => 'd' | 14 => 'e' | _ => 'f'

/-- The two hexadecimal digits of a byte. -/
def hexByte (b : Nat) : List Char := [hexDigit (b / 16), hexDigit b]

/-- Go `hash/fnv` `New32` followed by `Write`: the 32-bit FNV-1 hash (multiply, then xor), on
machine words of 32 bits. -/
def fnv32 (data : Bytes) : Nat :=
  data.foldl (fun h b => Nat.xor ((h * 16777619) % 2 ^ 32) (b % 256)) 2166136261

/-- Go `Revision.Sum`: the FNV-1 hash of the data, big endian, in hexadecimal. -/
def Revision.Sum (r : Revision) : String :=
  let h := fnv32 r.Spec.Data
  String.mk (hexByte (h / 2 ^ 24 % 256) ++ hexByte (h / 2 ^ 16 % 256)
    ++ hexByte (h / 2 ^ 8 % 256) ++ hexByte (h % 256))

/-- Go `Revision.Hash`. -/
def Revision.Hash (r : Revision) : String := r.Sum

/-- Go `Revision.GetData`. -/
def Revision.GetData (r : Revision) : Bytes := r.Spec.Data

/-- Go `Revision.SetData`. -/
def Revision.SetData (r : Revision) (raw : Bytes) : Revision :=
  { r with Spec := { r.Spec with Data := raw } }

/-- Go `Revision.Less`: created strictly before the other. -/
def Revision.Less (r other : Revision) : Bool :=
  decide (r.CreationTimestamp < other.CreationTimestamp)

/-- Go `Revision.Elected`. -/
def Revision.Elected (r : Revision) : Bool := r.Spec.Elected

/-- Go `Revision.Elect`. -/
def Revision.Elect (r : Revision) : Revision :=
  { r with Spec := { r.Spec with Elected := true } }

/-- Go `Revision.Recall`. -/
def Revision.Recall (r : Revision) : Revision :=
  { r with Spec := { r.Spec with Elected := false } }

/-- Go `Revision.AsOwner`. -/
def Revision.AsOwner (r : Revision) : metav1.OwnerReference :=
  { APIVersion := r.APIVersion, Kind := r.Kind, Name := r.Name, UID := r.UID,
    Controller := some true, BlockOwnerDeletion := some true }

/-- The zero value `Revision{}`. -/
def Revision.zero : Revision :=
  { APIVersion := "", Kind := "", Name := "", Namespace := "", UID := "", Labels := [],
    Annotations := [], CreationTimestamp := 0, OwnerReferences := [],
    Spec := { Elected := false, Stopped := false, Data := [] } }

/-- The order `sort.Reverse(revList)` sorts by: `a` may stand before `b` when `b` is not
created after `a`. -/
def newestFirst (a b : Revision) : Prop := b.CreationTimestamp ≤ a.CreationTimestamp

instance : DecidableRel newestFirst := fun a b =>
  inferInstanceAs (Decidable (b.CreationTimestamp ≤ a.CreationTimestamp))

instance : IsTotal Revision newestFirst := ⟨fun _ _ => Nat.le_total _ _⟩

instance : IsTrans Revision newestFirst := ⟨fun _ _ _ hab hbc => Nat.le_trans hbc hab⟩

/-- Go `sort.Sort(sort.Reverse(revList))`: the list ordered newest first.  Written as a stable
insertion sort, which is what the library runs on lists of at most twelve items; on longer lists
the library may order revisions of equal creation time differently.  What is stated of the
revisions that trimming keeps is stated for every order that meets the contract of the library
(`SortsNewestFirst`, `Publisher.TrimRevisionsBy`). -/
def sortReverse (l : List Revision) : List Revision := l.insertionSort newestFirst

/-! ## The object store, revisions -/

/-- The revision is stored under this namespace and name. -/
def Revision.hasKey (r : Revision) (ns name : String) : Bool :=
  r.Namespace == ns && r.Name == name

/-- Go `client.MatchingLabels`: every selected label is carried with the selected value. -/
def matchesLabels (selector labels : StringMap) : Bool :=
  selector.all (fun kv => labels.lookup kv.1 == some kv.2)

/-- Go `client.List` on revisions with `client.InNamespace` and `client.MatchingLabels`. -/
def Store.listRevisions (st : Store) (ns : String) (selector : StringMap) : List Revision :=
  st.Revisions.filter (fun r => r.Namespace == ns && matchesLabels selector r.Labels)

/-- Go `client.Create` on a revision: refused when the name is taken in the namespace, else the
object is stored with the store's time as creation timestamp and returned as stored. -/
def Store.createRevision (st : Store) (rev : Revision) : Res Revision :=
  if st.Revisions.any (fun r => r.hasKey rev.Namespace rev.Name) then
    ⟨.error .alreadyExists, st⟩
  else
    let stored := { rev with CreationTimestamp := st.now }
    ⟨.ok stored, { st with Revisions := st.Revisions ++ [stored] }⟩

/-- Go `client.Delete` on a revision, by namespace and name. -/
def Store.deleteRevision (st : Store) (rev : Revision) : Res Unit :=
  if st.Revisions.any (fun r => r.hasKey rev.Namespace rev.Name) then
    ⟨.ok (), { st with Revisions :=
      st.Revisions.filter (fun r => !r.hasKey rev.Namespace rev.Name) }⟩
  else
    ⟨.error .notFound, st⟩

/-- The stored object after a merge patch computed by `client.MergeFrom(orig)` against
`modified`: every spec field on which the two differ takes the value of `modified`.  (Between
the snapshot and the patch the code changes nothing but spec fields.) -/
def applyMergeFrom (orig modified stored : Revision) : Revision :=
  { stored with Spec :=
    { Elected := if orig.Spec.Elected = modified.Spec.Elected then stored.Spec.Elected
        else modified.Spec.Elected,
      Stopped := if orig.Spec.Stopped = modified.Spec.Stopped then stored.Spec.Stopped
        else modified.Spec.Stopped,
      Data := if orig.Spec.Data = modified.Spec.Data then stored.Spec.Data
        else modified.Spec.Data } }

/-- Go `client.Patch(ctx, modified, client.MergeFrom(orig))` on a revision: the patch is applied to
the object stored under the name of `modified`, which is returned as stored. -/
def Store.patchRevision (st : Store) (orig modified : Revision) : Res Revision :=
  match st.Revisions.find? (fun r => r.hasKey modified.Namespace modified.Name) with
  | none => ⟨.error .notFound, st⟩
  | some stored =>
    ⟨.ok (applyMergeFrom orig modified stored),
     { st with Revisions := st.Revisions.map (fun r =>
        if r.hasKey modified.Namespace modified.Name then applyMergeFrom orig modified r
        else r) }⟩

/-! ## The revision manager (`internal/revision/revision.go`), listing and trimming -/

/-- Go `revision.LabelKeyTemplate`. -/
def LabelKeyTemplate : String := GroupName ++ "/template"

/-- Go `revision.LabelKeyName`. -/
def LabelKeyName : String := GroupName ++ "/name"

/-- Go `revision.ErrReferencedOptionNotFound`. -/
def ErrReferencedOptionNotFound : String :=
  "the referenced option was not found in the template spec"

/-- Go `revision.Publisher`: the patches it was built with (`WithPatches`). -/
structure Publisher where
  patches : List PodTemplateSpec
deriving DecidableEq, Repr

/-- Go `Publisher.revisionLabelSet`. -/
def Publisher.revisionLabelSet (_r : Publisher) (impl : Referrer) : StringMap :=
  [(LabelKeyName, impl.GetName)]

/-- Go `Publisher.List`. -/
def Publisher.List (r : Publisher) (st : Store) (impl : Referrer) : List Revision :=
  st.listRevisions impl.GetNamespace (r.revisionLabelSet impl)

/-- The body of the loop of `TrimRevisions`, over the revisions from position `HistoryLimit`
on: an elected revision is skipped, any other is deleted, and a failed delete ends the loop. -/
def trimLoop (st : Store) : List Revision → Res Unit
  | [] => ⟨.ok (), st⟩
  | rev :: rest =>
    if rev.Elected then trimLoop st rest
    else
      match st.deleteRevision rev with
      | ⟨.ok _, st1⟩ => trimLoop st1 rest
      | ⟨.error e, st1⟩ => ⟨.error e, st1⟩

/-- Go `Publisher.TrimRevisions`.  A negative history limit makes the first `revList.Revision(k)`
index out of range. -/
def Publisher.TrimRevisions (r : Publisher) (st : Store) (impl : Referrer) : Res Unit :=
  let revList := sortReverse (r.List st impl)
  if impl.HistoryLimit < 0 then ⟨.error .indexOutOfRange, st⟩
  else trimLoop st (revList.drop impl.HistoryLimit.toNat)

/-- The type of the library call `sort.Sort(sort.Reverse(revList))` on the items of a
`RevisionList`. -/
abbrev RevisionSort := List Revision → List Revision

/-- The contract of the library call `sort.Sort(sort.Reverse(revList))`, whose code is not part
of the repository: the sorted list holds the same revisions, and none of them stands before a
revision created after it.  The library sort is not stable, so the contract leaves open the
order among revisions of equal creation time. -/
def SortsNewestFirst (sort : RevisionSort) : Prop :=
  ∀ l, (sort l).Perm l ∧ (sort l).Sorted newestFirst

/-- Go `Publisher.TrimRevisions`, with the library sort it calls as a parameter.  A negative
history limit makes the first `revList.Revision(k)` index out of range. -/
def Publisher.TrimRevisionsBy (sort : RevisionSort) (r : Publisher)
    (st : Store) (impl : Referrer) : Res Unit :=
  let revList := sort (r.List st impl)
  if impl.HistoryLimit < 0 then ⟨.error .indexOutOfRange, st⟩
  else trimLoop st (revList.drop impl.HistoryLimit.toNat)

/-- Go `Publisher.Latest`. -/
def Publisher.Latest (r : Publisher) (st : Store) (impl : Referrer) : Option Revision :=
  (sortReverse (r.List st impl)).head?

/-- Go `Publisher.Elected`: the first listed revision that is elected. -/
def Publisher.Elected (r : Publisher) (st : Store) (impl : Referrer) : Option Revision :=
  (r.List st impl).find? (fun rev => rev.Elected)

/-! ## The overlay composer (`apis/v1beta1/types.go`) -/

/-- The generic form `map[string]interface{}` values take after conversion to unstructured. -/
inductive Value where
  | null
  | bool (b : Bool)
  | num (n : Int)
  | str (s : String)
  | list (xs : List Value)
  | map (kv : List (String × Value))

/-- The library routines the code calls and whose code is not in the repository:
`runtime.DefaultUnstructuredConverter`, `strategicpatch.StrategicMergeMapPatch` (for the schema
of `PodTemplateSpec`), `json.MarshalIndent` and `json.Unmarshal`. -/
structure Lib where
  ToUnstructured : PodTemplateSpec → Except Err (List (String × Value))
  FromUnstructured : List (String × Value) → Except Err PodTemplateSpec
  StrategicMergeMapPatch :
    List (String × Value) → List (String × Value) → Except Err (List (String × Value))
  MarshalIndent : PodTemplateSpec → Except Err Bytes
  Unmarshal : Bytes → Except Err corev1.PodTemplateSpec

/-- The patch with `spec.containers` deleted when it is nil: the statement
`if spec := from["spec"].(map[string]any); spec["containers"] == nil` and its body.  The type
assertion panics when `spec` is missing or is not a map. -/
def dropNilContainers (patch : List (String × Value)) : Except Err (List (String × Value)) :=
  match patch.lookup "spec" with
  | some (.map spec) =>
    match spec.lookup "containers" with
    | none | some .null =>
      .ok (patch.map (fun kv =>
        if kv.1 = "spec" then (kv.1, Value.map (spec.filter (fun e => e.1 != "containers")))
        else kv))
    | some _ => .ok patch
  | _ => .error .typeAssertion

/-- Go `PodTemplateSpec.StrategicMergeFrom`: the receiver after the merge, or the error. -/
def PodTemplateSpec.StrategicMergeFrom (L : Lib) (self other : PodTemplateSpec) :
    Except Err PodTemplateSpec :=
  match L.ToUnstructured self with
  | .error e => .error e
  | .ok into =>
    match L.ToUnstructured other with
    | .error e => .error e
    | .ok patch =>
      match dropNilContainers patch with
      | .error e => .error e
      | .ok patch1 =>
        match L.StrategicMergeMapPatch into patch1 with
        | .error e => .error e
        | .ok merged => L.FromUnstructured merged

/-- Go `Template.PodTemplateSpec`. -/
def Template.PodTemplateSpec (t : Template) : PodTemplateSpec :=
  { ObjectMeta := { Annotations := t.Spec.Template.ObjectMeta.Annotations,
                    Labels := t.Spec.Template.ObjectMeta.Labels },
    Spec := t.Spec.Template.Spec }

/-- Go `Template.Dependencies`. -/
def Template.Dependencies (t : Template) : List LocalObjectReference := t.Spec.Dependencies

/-- Go `Template.Options`. -/
def Template.Options (t : Template) : List TemplateOption := t.Spec.Options

/-- Go `Template.Required`. -/
def Template.Required (t : Template) : List corev1.LocalObjectReference := t.Spec.Required

/-- Go `PodDefault.Dependencies`. -/
def PodDefault.Dependencies (pd : PodDefault) : List LocalObjectReference := pd.Spec.Dependencies

/-- Go `PodDefault.PodTemplateSpec`. -/
def PodDefault.PodTemplateSpec (pd : PodDefault) : PodTemplateSpec := pd.Spec.Template

/-- Go `NamespacedName.String`. -/
def NamespacedName.String (n : NamespacedName) : String := n.Namespace ++ "/" ++ n.Name

/-! ## The object store, templates, overlays and dependency objects

The store holds no object with an empty name, so a `Get` with an empty name finds nothing. -/

/-- Go `client.Get` on a template. -/
def Store.getTemplate (st : Store) (key : NamespacedName) : Except Err Template :=
  if key.Name = "" then .error .notFound
  else
    match st.Templates.find? (fun t => t.Namespace == key.Namespace && t.Name == key.Name) with
    | some t => .ok t
    | none => .error .notFound

/-- Go `client.Get` on a pod default. -/
def Store.getPodDefault (st : Store) (ns name : String) : Except Err PodDefault :=
  if name = "" then .error .notFound
  else
    match st.PodDefaults.find? (fun t => t.Namespace == ns && t.Name == name) with
    | some t => .ok t
    | none => .error .notFound

/-- The object is of this kind and stored under this namespace and name. -/
def Object.hasKey (o : Object) (apiVersion kind ns name : String) : Bool :=
  o.APIVersion == apiVersion && o.Kind == kind && o.Namespace == ns && o.Name == name

/-- Go `client.Get` on an object of arbitrary kind. -/
def Store.getObject (st : Store) (apiVersion kind ns name : String) : Except Err Object :=
  if name = "" then .error .notFound
  else
    match st.Objects.find? (fun o => o.hasKey apiVersion kind ns name) with
    | some o => .ok o
    | none => .error .notFound

/-- Go `client.Create` on an object of arbitrary kind. -/
def Store.createObject (st : Store) (obj : Object) : Res Object :=
  if st.Objects.any (fun o => o.hasKey obj.APIVersion obj.Kind obj.Namespace obj.Name) then
    ⟨.error .alreadyExists, st⟩
  else
    let stored := { obj with CreationTimestamp := st.now }
    ⟨.ok stored, { st with Objects := st.Objects ++ [stored] }⟩

/-! ## The revision manager: `Create` and `ElectRevision` -/

/-- The dependency references collected in `Create` (`deps`). -/
abbrev Dependencies := List LocalObjectReference

/-- The spec and the dependencies collected so far in `Create`. -/
abbrev Resolved := PodTemplateSpec × Dependencies

/-- The part both option loops of `Create` share: fetch the pod default of that name in the
namespace of the template, merge it into the spec, collect its dependencies. -/
def applyOption (L : Lib) (st : Store) (templateNs : String) (acc : Resolved)
    (opt : corev1.LocalObjectReference) : Except Err Resolved :=
  match st.getPodDefault templateNs opt.Name with
  | .error e => .error e
  | .ok pd =>
    match acc.1.StrategicMergeFrom L pd.PodTemplateSpec with
    | .error e => .error e
    | .ok spec => .ok (spec, acc.2 ++ pd.Dependencies)

/-- The loop `for i, opt := range template.Required()` of `Create`. -/
def requiredLoop (L : Lib) (st : Store) (templateNs : String) :
    List corev1.LocalObjectReference → Resolved → Except Err Resolved
  | [], acc => .ok acc
  | opt :: rest, acc =>
    match applyOption L st templateNs acc opt with
    | .error e => .error e
    | .ok acc1 => requiredLoop L st templateNs rest acc1

/-- The loop `for i, opt := range impl.ElectedOptions()` of `Create`; `opts` is the set of
option names of the template. -/
def electedLoop (L : Lib) (st : Store) (templateNs : String)
    (opts : List corev1.LocalObjectReference) :
    List corev1.LocalObjectReference → Resolved → Except Err Resolved
  | [], acc => .ok acc
  | opt :: rest, acc =>
    if opts.contains opt then
      match applyOption L st templateNs acc opt with
      | .error e => .error e
      | .ok acc1 => electedLoop L st templateNs opts rest acc1
    else .error (.errorf (ErrReferencedOptionNotFound ++ ": " ++ opt.Name))

/-- The loop `for _, patch := range r.patches` of `Create`. -/
def patchLoop (L : Lib) : List PodTemplateSpec → PodTemplateSpec → Except Err PodTemplateSpec
  | [], spec => .ok spec
  | patch :: rest, spec =>
    match spec.StrategicMergeFrom L patch with
    | .error e => .error e
    | .ok spec1 => patchLoop L rest spec1

/-- The first part of `Create`, which only reads the store: the template, and the spec and the
dependencies after the required overlays, the elected overlays and the patches. -/
def Publisher.resolve (L : Lib) (r : Publisher) (st : Store) (impl : Referrer) :
    Except Err (Template × Resolved) :=
  match st.getTemplate impl.TemplateRef with
  | .error e => .error e
  | .ok template =>
    let opts := template.Options.map
      (fun opt => ({ Name := opt.Name } : corev1.LocalObjectReference))
    match requiredLoop L st template.Namespace template.Required
        (template.PodTemplateSpec, []) with
    | .error e => .error e
    | .ok acc1 =>
      match electedLoop L st template.Namespace opts impl.ElectedOptions acc1 with
      | .error e => .error e
      | .ok acc2 =>
        match patchLoop L r.patches acc2.1 with
        | .error e => .error e
        | .ok spec => .ok (template, (spec, acc2.2))

/-- The copy of a dependency object that `Create` stores: owned by the revision, under the
name and in the namespace of the revision, with its metadata reset. -/
def resetForCopy (obj : Object) (rev : Revision) : Object :=
  { obj with
    OwnerReferences := obj.OwnerReferences ++ [rev.AsOwner]
    Name := rev.Name
    Namespace := rev.Namespace
    CreationTimestamp := 0
    DeletionTimestamp := none
    Finalizers := []
    ResourceVersion := ""
    SelfLink := ""
    GenerateName := ""
    DeletionGracePeriodSeconds := none
    ManagedFields := [] }

/-- The loop `for _, dep := range deps` of `Create`.  The object it reads is a fresh one of the
kind of the dependency on which only the namespace is set, so the `Get` is by the empty name. -/
def copyDependencies (templateNs : String) (rev : Revision) :
    Store → List LocalObjectReference → Res Unit
  | st, [] => ⟨.ok (), st⟩
  | st, dep :: rest =>
    match st.getObject dep.APIVersion dep.Kind templateNs "" with
    | .error e => ⟨.error e, st⟩
    | .ok obj =>
      match st.createObject (resetForCopy obj rev) with
      | ⟨.ok _, st1⟩ => copyDependencies templateNs rev st1 rest
      | ⟨.error .alreadyExists, st1⟩ => copyDependencies templateNs rev st1 rest
      | ⟨.error e, st1⟩ => ⟨.error e, st1⟩

/-- The revision object `Create` builds from the serialized spec. -/
def Publisher.newRevision (r : Publisher) (impl : Referrer) (data : Bytes) : Revision :=
  let rev := Revision.zero.SetData data
  { rev with
    Labels := r.revisionLabelSet impl
    Annotations := [(LabelKeyTemplate, impl.TemplateRef.String)]
    Name := impl.GetName ++ "-" ++ rev.Hash
    Namespace := impl.GetNamespace }

/-- The second part of `Create`, from `client.Create(ctx, rev)` on: store the revision (an
already-exists error is ignored and leaves `rev` as built), copy the dependencies, trim. -/
def Publisher.publish (r : Publisher) (st : Store) (impl : Referrer) (template : Template)
    (deps : Dependencies) (rev : Revision) : Res Revision :=
  let created : Res Revision :=
    match st.createRevision rev with
    | ⟨.ok stored, st1⟩ => ⟨.ok stored, st1⟩
    | ⟨.error .alreadyExists, st1⟩ => ⟨.ok rev, st1⟩
    | ⟨.error e, st1⟩ => ⟨.error e, st1⟩
  match created with
  | ⟨.error e, st1⟩ => ⟨.error e, st1⟩
  | ⟨.ok rev1, st1⟩ =>
    match copyDependencies template.Namespace rev1 st1 deps with
    | ⟨.error e, st2⟩ => ⟨.error e, st2⟩
    | ⟨.ok _, st2⟩ =>
      match r.TrimRevisions st2 impl with
      | ⟨.error e, st3⟩ => ⟨.error e, st3⟩
      | ⟨.ok _, st3⟩ => ⟨.ok rev1, st3⟩

/-- Go `Publisher.Create`. -/
def Publisher.Create (L : Lib) (r : Publisher) (st : Store) (impl : Referrer) : Res Revision :=
  match r.resolve L st impl with
  | .error e => ⟨.error e, st⟩
  | .ok (template, spec, deps) =>
    match L.MarshalIndent spec with
    | .error e => ⟨.error e, st⟩
    | .ok data => r.publish st impl template deps (r.newRevision impl data)

/-- The revision to elect in `ElectRevision`: a new one under the policy `Auto`, else the
latest one, and a new one when there is none. -/
def Publisher.electionTarget (L : Lib) (r : Publisher) (st : Store) (impl : Referrer) :
    Res Revision :=
  let first : Res (Option Revision) :=
    if impl.UpdatePolicy = UpdatePolicyAuto then
      match r.Create L st impl with
      | ⟨.ok rev, st1⟩ => ⟨.ok (some rev), st1⟩
      | ⟨.error e, st1⟩ => ⟨.error e, st1⟩
    else ⟨.ok (r.Latest st impl), st⟩
  match first with
  | ⟨.error e, st1⟩ => ⟨.error e, st1⟩
  | ⟨.ok (some latest), st1⟩ => ⟨.ok latest, st1⟩
  | ⟨.ok none, st1⟩ => r.Create L st1 impl

/-- Go `Publisher.ElectRevision`. -/
def Publisher.ElectRevision (L : Lib) (r : Publisher) (st : Store) (impl : Referrer) :
    Res Revision :=
  let elected := r.Elected st impl
  if elected = none ∨ impl.UpdatePolicy = UpdatePolicyAuto then
    match r.electionTarget L st impl with
    | ⟨.error e, st1⟩ => ⟨.error e, st1⟩
    | ⟨.ok latest, st1⟩ =>
      let recalled : Res Unit :=
        match elected with
        | none => ⟨.ok (), st1⟩
        | some el =>
          match st1.patchRevision el el.Recall with
          | ⟨.ok _, st2⟩ => ⟨.ok (), st2⟩
          | ⟨.error e, st2⟩ => ⟨.error e, st2⟩
      match recalled with
      | ⟨.error e, st2⟩ => ⟨.error e, st2⟩
      | ⟨.ok _, st2⟩ => st2.patchRevision latest latest.Elect
  else
    match elected with
    | some el => ⟨.ok el, st⟩
    | none => ⟨.error .notFound, st⟩

/-! ## Task graphs and runs (`apis/v1beta1/dag.go`, `apis/v1beta1/execution.go`) -/

/-- The assignment `m[k] = v` on a Go map held as an association list. -/
def mapSet {β : Type} (m : List (String × β)) (k : String) (v : β) : List (String × β) :=
  if m.any (fun e => e.1 == k) then m.map (fun e => if e.1 == k then (k, v) else e)
  else m ++ [(k, v)]

/-- Go `Dag.TaskMap`. -/
def Dag.TaskMap (dag : Dag) : List (String × DagTask) :=
  dag.Spec.Tasks.foldl (fun tasks task => mapSet tasks task.Name task) []

/-- The read `tasks[name]` of a Go map: the zero task when the name is not a key. -/
def taskAt (tasks : List (String × DagTask)) (name : String) : DagTask :=
  (tasks.lookup name).getD DagTask.zero

/-- Go `Dag.Entrypoint`. -/
def Dag.Entrypoint (dag : Dag) : DagTask := taskAt dag.TaskMap dag.Spec.Entrypoint

/-- Go `Execution.MaxConcurrentTasks`. -/
def Execution.MaxConcurrentTasks (e : Execution) : Int :=
  if e.Spec.Parallelism = 0 then 20 else e.Spec.Parallelism

/-- Go `Execution.SetTaskStatus`. -/
def Execution.SetTaskStatus (e : Execution) (task : String) (status : ExecutionTaskStatus) :
    Execution :=
  { e with Status := { e.Status with Tasks := mapSet e.Status.Tasks task status } }

/-- Go `Execution.AsOwner`. -/
def Execution.AsOwner (e : Execution) : metav1.OwnerReference :=
  { APIVersion := e.APIVersion, Kind := e.Kind, Name := e.Name, UID := e.UID,
    Controller := some true, BlockOwnerDeletion := some true }

/-- Go `execution.NamespacedTask`: a task with the namespace of its run. -/
structure NamespacedTask where
  DagTask : DagTask
  Namespace : String
deriving DecidableEq, Repr

/-- The methods of `NamespacedTask` that make it a `Referrer`: `GetNamespace` is its own, the
others are those of `DagTask`. -/
def NamespacedTask.asReferrer (task : NamespacedTask) : Referrer :=
  { GetName := task.DagTask.Name
    GetNamespace := task.Namespace
    TemplateRef := { Name := task.DagTask.Template.Name,
                     Namespace := task.DagTask.Template.Namespace }
    HistoryLimit := 1
    ResourceRequests := task.DagTask.Resources
    ElectedOptions := task.DagTask.Options
    UpdatePolicy := UpdatePolicyIgnore }

/-! ## The object store, runs, task graphs and jobs -/

/-- Go `client.Get` on an execution. -/
def Store.getExecution (st : Store) (key : NamespacedName) : Except Err Execution :=
  if key.Name = "" then .error .notFound
  else
    match st.Executions.find? (fun e => e.Namespace == key.Namespace && e.Name == key.Name) with
    | some e => .ok e
    | none => .error .notFound

/-- Go `client.Get` on a dag. -/
def Store.getDag (st : Store) (key : NamespacedName) : Except Err Dag :=
  if key.Name = "" then .error .notFound
  else
    match st.Dags.find? (fun d => d.Namespace == key.Namespace && d.Name == key.Name) with
    | some d => .ok d
    | none => .error .notFound

/-- The job is stored under this namespace and name. -/
def batchv1.Job.hasKey (j : batchv1.Job) (ns name : String) : Bool :=
  j.Namespace == ns && j.Name == name

/-- Go `client.Get` on a job. -/
def Store.getJob (st : Store) (ns name : String) : Except Err batchv1.Job :=
  if name = "" then .error .notFound
  else
    match st.Jobs.find? (fun j => j.hasKey ns name) with
    | some j => .ok j
    | none => .error .notFound

/-- Go `client.Create` on a job. -/
def Store.createJob (st : Store) (job : batchv1.Job) : Res batchv1.Job :=
  if st.Jobs.any (fun j => j.hasKey job.Namespace job.Name) then ⟨.error .alreadyExists, st⟩
  else ⟨.ok job, { st with Jobs := st.Jobs ++ [job] }⟩

/-- Go `client.Status().Update` on an execution: the stored status is replaced. -/
def Store.updateExecutionStatus (st : Store) (e : Execution) : Res Unit :=
  if st.Executions.any (fun x => x.Namespace == e.Namespace && x.Name == e.Name) then
    ⟨.ok (), { st with Executions := st.Executions.map (fun x =>
      if x.Namespace == e.Namespace && x.Name == e.Name then { x with Status := e.Status }
      else x) }⟩
  else ⟨.error .notFound, st⟩

/-! ## The execution engine (`controller/execution/reconciler.go`) -/

/-- Go `execution.Stack`: the slice of tasks, the top last, and the capacity. -/
structure Stack where
  tasks : List DagTask
  maxSize : Int
deriving DecidableEq, Repr

/-- Go `NewStack`. -/
def NewStack (maxSize : Int) : Stack := { tasks := [], maxSize := maxSize }

/-- Go `Stack.Push`. -/
def Stack.Push (s : Stack) (task : DagTask) : Stack :=
  if s.maxSize > 0 ∧ (s.tasks.length : Int) < s.maxSize then
    { s with tasks := s.tasks ++ [task] }
  else s

/-- Go `Stack.Pop`: the task returned and the stack left. -/
def Stack.Pop (s : Stack) : DagTask × Stack :=
  match s.tasks.getLast? with
  | none => (DagTask.zero, s)
  | some task => (task, { s with tasks := s.tasks.dropLast })

/-- Go `Stack.Empty`. -/
def Stack.Empty (s : Stack) : Bool := s.tasks.length == 0

/-- Go `RestartPatch`. -/
def RestartPatch : PodTemplateSpec :=
  { ObjectMeta := { Labels := [], Annotations := [] },
    Spec := { RestartPolicy := corev1.RestartPolicyNever, Containers := [] } }

/-- Go `CommandPatch`. -/
def CommandPatch (command : List String) : PodTemplateSpec :=
  { ObjectMeta := { Labels := [], Annotations := [] },
    Spec := { RestartPolicy := "",
              Containers := [{ Name := "main", Image := "", Command := command }] } }

/-- Go `reconcile.Result`: the delay after which to reconcile again, in seconds (zero: none). -/
structure Result where
  RequeueAfter : Nat
deriving DecidableEq, Repr

/-- What a pass has done to jobs and seen of them, in order (not part of the code; kept to
state properties of a pass). -/
inductive Event where
  /-- This job, the job of the task of this name, was seen with a non-zero completion time, and
  the name was inserted into the completed set. -/
  | observedComplete (task : String) (job : batchv1.Job)
  /-- This job was created for this task. -/
  | created (task : DagTask) (job : batchv1.Job)
deriving DecidableEq, Repr

/-- What `Reconcile` returns, with the store it leaves and the events of the pass. -/
structure Returned where
  result : Result
  err : Option Err
  store : Store
  trace : List Event
deriving DecidableEq, Repr

/-- The variables of the traversal loop of `Reconcile`. -/
structure LoopState where
  store : Store
  execution : Execution
  stack : Stack
  completed : List String
  trace : List Event
deriving DecidableEq, Repr

/-- One iteration of the loop either goes on to the next or returns from `Reconcile`. -/
inductive Outcome where
  | next (s : LoopState)
  | done (r : Returned)
deriving DecidableEq, Repr

/-- Go `metav1.Time.IsZero` on the pointer `CompletionTime`. -/
def IsZero (t : Option Nat) : Bool :=
  match t with
  | none => true
  | some n => n == 0

/-- The error of a result, if any. -/
def errOf {α : Type} (v : Except Err α) : Option Err :=
  match v with
  | .ok _ => none
  | .error e => some e

/-- Go `client.IgnoreNotFound`. -/
def IgnoreNotFound (e : Err) : Option Err :=
  match e with
  | .notFound => none
  | e => some e

/-- Lines 128 to 132 of `Reconcile`: the patches for the pod template of a task. -/
def taskPatches (current : DagTask) : List PodTemplateSpec :=
  if current.Command.length > 0 then [RestartPatch] ++ [CommandPatch current.Command]
  else [RestartPatch]

/-- Lines 117 to 119 and 151 to 156 of `Reconcile`: the job of a task, with the pod template
given. -/
def newJob (execution : Execution) (current : DagTask) (spec : corev1.PodTemplateSpec) :
    batchv1.Job :=
  { Name := execution.Name ++ "-" ++ current.Name
    Namespace := execution.Namespace
    OwnerReferences := [execution.AsOwner]
    Spec := { Template := spec, BackoffLimit := some 0, Completions := some 1 }
    Status := { Conditions := [], CompletionTime := none, Succeeded := 0, Failed := 0 } }

/-- Lines 128 to 160 of `Reconcile`: the job of a ready task does not exist, so resolve the pod
template through a revision and create the job. -/
def createTask (L : Lib) (execution : Execution) (st : Store) (current : DagTask) :
    Res batchv1.Job :=
  let pub : Publisher := { patches := taskPatches current }
  match pub.Create L st
      (NamespacedTask.asReferrer { Namespace := execution.Namespace, DagTask := current }) with
  | ⟨.error e, st1⟩ => ⟨.error e, st1⟩
  | ⟨.ok rev, st1⟩ =>
    match L.Unmarshal rev.GetData with
    | .error e => ⟨.error e, st1⟩
    | .ok spec => st1.createJob (newJob execution current spec)

/-- Lines 162 to 176 of `Reconcile`: record the status of the task, insert it into the
completed set when its job has a completion time, and fail fast when its job has failed. -/
def recordTask (s : LoopState) (stack : Stack) (current : DagTask) (task : batchv1.Job)
    (st : Store) (trace : List Event) : Outcome :=
  let execution := s.execution.SetTaskStatus current.Name
    { Conditions := task.Status.Conditions
      Completed := !IsZero task.Status.CompletionTime
      Succeeded := decide (task.Status.Succeeded > 0) }
  let completed :=
    if IsZero task.Status.CompletionTime then s.completed
    else if s.completed.contains current.Name then s.completed
    else s.completed ++ [current.Name]
  let trace :=
    if IsZero task.Status.CompletionTime then trace
    else trace ++ [Event.observedComplete current.Name task]
  if task.Status.Failed > 0 then
    let failed : Execution :=
      { execution with Status := { execution.Status with Completed := true, Succeeded := false } }
    let res := st.updateExecutionStatus failed
    .done { result := { RequeueAfter := 0 }, err := errOf res.val, store := res.store,
            trace := trace }
  else
    .next { store := st, execution := execution, stack := stack, completed := completed,
            trace := trace }

/-- The body of the loop `for !stack.Empty()` of `Reconcile`. -/
def iterate (L : Lib) (tasks : List (String × DagTask)) (s : LoopState) : Outcome :=
  let (current, stack) := s.stack.Pop
  if !(current.Dependencies.all (fun dep => s.completed.contains dep)) then
    let stack := stack.Push current
    let stack := current.Dependencies.foldl
      (fun stack dep => if !s.completed.contains dep then stack.Push (taskAt tasks dep)
        else stack) stack
    .next { s with stack := stack }
  else
    match s.store.getJob s.execution.Namespace (s.execution.Name ++ "-" ++ current.Name) with
    | .ok task => recordTask s stack current task s.store s.trace
    | .error _ =>
      match createTask L s.execution s.store current with
      | ⟨.error e, st1⟩ =>
        .done { result := { RequeueAfter := 0 }, err := some e, store := st1, trace := s.trace }
      | ⟨.ok task, st1⟩ =>
        recordTask s stack current task st1 (s.trace ++ [Event.created current task])

/-- Lines 179 to 189 of `Reconcile`: the aggregation once the stack is empty. -/
def aggregate (s : LoopState) : Returned :=
  let completed := s.execution.Status.Tasks.foldl (fun acc kv => acc && kv.2.Completed) true
  let succeeded := s.execution.Status.Tasks.foldl (fun acc kv => acc && kv.2.Succeeded) true
  let execution : Execution :=
    { s.execution with
      Status := { s.execution.Status with Completed := completed, Succeeded := succeeded } }
  let res := s.store.updateExecutionStatus execution
  if !completed then
    { result := { RequeueAfter := 10 }, err := errOf res.val, store := res.store,
      trace := s.trace }
  else
    { result := { RequeueAfter := 0 }, err := errOf res.val, store := res.store,
      trace := s.trace }

/-- The loop `for !stack.Empty()` of `Reconcile` and what follows it, run for at most `fuel`
iterations: `none` when the loop has not ended by then. -/
def traverse (L : Lib) (tasks : List (String × DagTask)) : Nat → LoopState → Option Returned
  | 0, s => if s.stack.Empty then some (aggregate s) else none
  | fuel + 1, s =>
    if s.stack.Empty then some (aggregate s)
    else
      match iterate L tasks s with
      | .next s1 => traverse L tasks fuel s1
      | .done r => some r

/-- The variables of the loop when it is entered. -/
def initialState (st : Store) (execution : Execution) (dag : Dag) : LoopState :=
  { store := st
    execution := { execution with Status := { execution.Status with Tasks := [] } }
    stack := (NewStack execution.MaxConcurrentTasks).Push dag.Entrypoint
    completed := []
    trace := [] }

/-- Go `Reconciler.Reconcile`, the traversal loop run for at most `fuel` iterations. -/
def Reconcile (L : Lib) (fuel : Nat) (st : Store) (req : NamespacedName) : Option Returned :=
  match st.getExecution req with
  | .error e => some { result := { RequeueAfter := 0 }, err := IgnoreNotFound e, store := st,
                       trace := [] }
  | .ok execution =>
    if execution.Status.Completed then
      some { result := { RequeueAfter := 0 }, err := none, store := st, trace := [] }
    else
      match st.getDag { Name := execution.Spec.DagRef.Name,
                        Namespace := execution.Namespace } with
      | .error e => some { result := { RequeueAfter := 0 }, err := some e, store := st,
                           trace := [] }
      | .ok dag => traverse L dag.TaskMap fuel (initialState st execution dag)

/-! ## A reference instance of the library routines

The theorems below hold for every `Lib`.  To evaluate the definitions on concrete inputs this
section gives one instance: the unstructured form of a pod template, a merge that follows the
strategic merge on the fields modelled (maps merge by key, scalars are replaced, containers merge
by name, a null value clears the field), and a length-prefixed byte codec in the place of JSON. -/

namespace Ref

/-- A map of strings as a generic value. -/
def ofStrings (m : StringMap) : Value := .map (m.map (fun kv => (kv.1, Value.str kv.2)))

/-- A generic value read as a map of strings. -/
def toStrings (v : Option Value) : StringMap :=
  match v with
  | some (.map kv) => kv.filterMap (fun e =>
      match e.2 with
      | .str s => some (e.1, s)
      | _ => none)
  | _ => []

/-- A generic value read as a string. -/
def toStr (v : Option Value) : String :=
  match v with
  | some (.str s) => s
  | _ => ""

/-- A container as a generic value; empty fields are omitted. -/
def ofContainer (c : corev1.Container) : Value :=
  .map ([("name", Value.str c.Name)]
    ++ (if c.Image = "" then [] else [("image", Value.str c.Image)])
    ++ (if c.Command = [] then [] else [("command", Value.list (c.Command.map Value.str))]))

/-- A generic value read as a container. -/
def toContainer (v : Value) : corev1.Container :=
  match v with
  | .map kv =>
    { Name := toStr (kv.lookup "name")
      Image := toStr (kv.lookup "image")
      Command :=
        match kv.lookup "command" with
        | some (.list xs) => xs.map (fun x => toStr (some x))
        | _ => [] }
  | _ => { Name := "", Image := "", Command := [] }

/-- A generic value read as a list of containers. -/
def toContainers (v : Option Value) : List corev1.Container :=
  match v with
  | some (.list xs) => xs.map toContainer
  | _ => []

/-- The unstructured form of a pod template: `spec.containers` carries no `omitempty`, so an
empty container list is written as null. -/
def ToUnstructured (p : PodTemplateSpec) : List (String × Value) :=
  [("metadata", Value.map
      ((if p.ObjectMeta.Labels = [] then [] else [("labels", ofStrings p.ObjectMeta.Labels)])
        ++ (if p.ObjectMeta.Annotations = [] then []
            else [("annotations", ofStrings p.ObjectMeta.Annotations)]))),
   ("spec", Value.map
      ([("containers",
          if p.Spec.Containers = [] then Value.null
          else Value.list (p.Spec.Containers.map ofContainer))]
        ++ (if p.Spec.RestartPolicy = "" then []
            else [("restartPolicy", Value.str p.Spec.RestartPolicy)])))]

/-- The fields of a generic value under a key. -/
def fieldsAt (u : List (String × Value)) (key : String) : List (String × Value) :=
  match u.lookup key with
  | some (.map kv) => kv
  | _ => []

/-- The pod template an unstructured form stands for. -/
def FromUnstructured (u : List (String × Value)) : PodTemplateSpec :=
  { ObjectMeta := { Labels := toStrings ((fieldsAt u "metadata").lookup "labels")
                    Annotations := toStrings ((fieldsAt u "metadata").lookup "annotations") }
    Spec := { RestartPolicy := toStr ((fieldsAt u "spec").lookup "restartPolicy")
              Containers := toContainers ((fieldsAt u "spec").lookup "containers") } }

/-- Two maps of strings merged by key. -/
def mergeStrings (base patch : StringMap) : StringMap :=
  patch.foldl (fun m kv => mapSet m kv.1 kv.2) base

/-- A container merged into the container of the same name. -/
def mergeContainer (base patch : corev1.Container) : corev1.Container :=
  { Name := base.Name
    Image := if patch.Image = "" then base.Image else patch.Image
    Command := if patch.Command = [] then base.Command else patch.Command }

/-- Containers merged by name: a patch container replaces fields of the base container of its
name, or is added when there is none. -/
def mergeContainers (base patch : List corev1.Container) : List corev1.Container :=
  patch.foldl (fun cs c =>
    if cs.any (fun b => b.Name == c.Name) then
      cs.map (fun b => if b.Name == c.Name then mergeContainer b c else b)
    else cs ++ [c]) base

/-- The merge of a patch into an unstructured pod template. -/
def StrategicMergeMapPatch (into patch : List (String × Value)) : List (String × Value) :=
  let base := FromUnstructured into
  let over := FromUnstructured patch
  ToUnstructured
    { ObjectMeta := { Labels := mergeStrings base.ObjectMeta.Labels over.ObjectMeta.Labels
                      Annotations :=
                        mergeStrings base.ObjectMeta.Annotations over.ObjectMeta.Annotations }
      Spec := { RestartPolicy :=
                  if over.Spec.RestartPolicy = "" then base.Spec.RestartPolicy
                  else over.Spec.RestartPolicy
                Containers :=
                  match (fieldsAt patch "spec").lookup "containers" with
                  | none => base.Spec.Containers
                  | some .null => []
                  | some _ => mergeContainers base.Spec.Containers over.Spec.Containers } }

/-- A string as bytes: its length, then its characters. -/
def putString (s : String) : Bytes := s.length :: s.data.map Char.toNat

/-- A list as bytes: its length, then its items. -/
def putList {α : Type} (put : α → Bytes) (xs : List α) : Bytes :=
  xs.length :: xs.flatMap put

/-- A pair of strings as bytes. -/
def putPair (kv : String × String) : Bytes := putString kv.1 ++ putString kv.2

/-- A container as bytes. -/
def putContainer (c : corev1.Container) : Bytes :=
  putString c.Name ++ putString c.Image ++ putList putString c.Command

/-- The serialized form of a pod template. -/
def MarshalIndent (p : PodTemplateSpec) : Bytes :=
  putList putPair p.ObjectMeta.Labels ++ putList putPair p.ObjectMeta.Annotations
    ++ putString p.Spec.RestartPolicy ++ putList putContainer p.Spec.Containers

/-- A reader of a value from the front of a byte slice. -/
abbrev Reader (α : Type) := Bytes → Option (α × Bytes)

/-- The reader of a string. -/
def getString : Reader String := fun bs =>
  match bs with
  | [] => none
  | n :: rest =>
    if n ≤ rest.length then some (String.mk ((rest.take n).map Char.ofNat), rest.drop n)
    else none

/-- The reader of a given number of items. -/
def getMany {α : Type} (get : Reader α) : Nat → Reader (List α)
  | 0, bs => some ([], bs)
  | n + 1, bs =>
    match get bs with
    | none => none
    | some (x, rest) =>
      match getMany get n rest with
      | none => none
      | some (xs, rest1) => some (x :: xs, rest1)

/-- The reader of a list. -/
def getList {α : Type} (get : Reader α) : Reader (List α) := fun bs =>
  match bs with
  | [] => none
  | n :: rest => getMany get n rest

/-- The reader of a pair of strings. -/
def getPair : Reader (String × String) := fun bs =>
  match getString bs with
  | none => none
  | some (k, rest) =>
    match getString rest with
    | none => none
    | some (v, rest1) => some ((k, v), rest1)

/-- The reader of a container. -/
def getContainer : Reader corev1.Container := fun bs =>
  match getString bs with
  | none => none
  | some (name, r1) =>
    match getString r1 with
    | none => none
    | some (image, r2) =>
      match getList getString r2 with
      | none => none
      | some (command, r3) => some ({ Name := name, Image := image, Command := command }, r3)

/-- The pod template read back from its serialized form. -/
def Unmarshal (data : Bytes) : Except Err corev1.PodTemplateSpec :=
  match getList getPair data with
  | none => .error (.lib "unexpected end of input")
  | some (labels, r1) =>
    match getList getPair r1 with
    | none => .error (.lib "unexpected end of input")
    | some (annotations, r2) =>
      match getString r2 with
      | none => .error (.lib "unexpected end of input")
      | some (policy, r3) =>
        match getList getContainer r3 with
        | none => .error (.lib "unexpected end of input")
        | some (containers, _) =>
          .ok { Labels := labels, Annotations := annotations,
                Spec := { RestartPolicy := policy, Containers := containers } }

/-- The reference instance. -/
def lib : Lib :=
  { ToUnstructured := fun p => .ok (ToUnstructured p)
    FromUnstructured := fun u => .ok (FromUnstructured u)
    StrategicMergeMapPatch := fun into patch => .ok (StrategicMergeMapPatch into patch)
    MarshalIndent := fun p => .ok (MarshalIndent p)
    Unmarshal := Unmarshal }

end Ref

/-! ## Specification predicates and examples -/

/-- The namespace and name a revision is stored under. -/
def Revision.key (r : Revision) : String × String := (r.Namespace, r.Name)

/-- The store holds at most one revision under a namespace and name. -/
def Store.WellFormed (st : Store) : Prop := (st.Revisions.map Revision.key).Nodup

/-- The revisions the trimming loop deletes from a list: those not elected. -/
def trimmed (l : List Revision) (x : Revision) : Bool :=
  l.any (fun d => !d.Elected && x.hasKey d.Namespace d.Name)

/-- A revision of the referrer `nb` in the namespace `ns`. -/
def exampleRevision (name : String) (created : Nat) (elected : Bool) : Revision :=
  { Revision.zero with
    Name := name, Namespace := "ns", Labels := [(LabelKeyName, "nb")],
    CreationTimestamp := created, Spec := { Elected := elected, Stopped := false, Data := [] } }

/-- A referrer `nb` in the namespace `ns` with the given history limit and update policy. -/
def exampleReferrer (limit : Int) (policy : String) : Referrer :=
  { GetName := "nb", GetNamespace := "ns", TemplateRef := { Namespace := "ns", Name := "tmpl" },
    HistoryLimit := limit, ResourceRequests := [], ElectedOptions := [], UpdatePolicy := policy }

/-- A store with three revisions of `nb`, the oldest of them elected. -/
def exampleStore : Store :=
  { now := 10, Executions := [], Dags := [], Templates := [], PodDefaults := [],
    Revisions := [exampleRevision "nb-a" 1 true, exampleRevision "nb-b" 2 false,
                  exampleRevision "nb-c" 3 false],
    Jobs := [], Objects := [] }

/-- The two stores differ at most in their revisions and dependency objects. -/
def Store.Frame (st st1 : Store) : Prop :=
  st1.now = st.now ∧ st1.Executions = st.Executions ∧ st1.Dags = st.Dags ∧
    st1.Templates = st.Templates ∧ st1.PodDefaults = st.PodDefaults ∧ st1.Jobs = st.Jobs

/-- A template `tmpl` in the namespace `ns` with an empty pod template and no overlays. -/
def exampleTemplate : Template :=
  { Name := "tmpl", Namespace := "ns",
    Spec := { Dependencies := [], Options := [], Required := [],
              Template := { ObjectMeta := { Labels := [], Annotations := [] },
                            Spec := { RestartPolicy := "", Containers := [] } } } }

/-- The revision of `nb` that `Create` derives from `exampleTemplate` under the reference
library, as stored at the given time. -/
def exampleSnapshot (created : Nat) : Revision :=
  { Revision.zero with
    Name := "nb-4b95f515", Namespace := "ns", Labels := [(LabelKeyName, "nb")],
    Annotations := [(LabelKeyTemplate, "ns/tmpl")], CreationTimestamp := created,
    Spec := { Elected := false, Stopped := false, Data := [0, 0, 0, 0] } }

/-- A store in which the content of `exampleTemplate` was captured at time 1 and another
content at time 2; the time is now 10. -/
def exampleStoreReverted : Store :=
  { now := 10, Executions := [], Dags := [], Templates := [exampleTemplate], PodDefaults := [],
    Revisions := [exampleSnapshot 1, exampleRevision "nb-y" 2 false],
    Jobs := [], Objects := [] }

/-- One step of the successive merge: the overlay merged into the spec so far, unless an
earlier merge failed. -/
def mergeStep (L : Lib) (acc : Except Err PodTemplateSpec) (overlay : PodTemplateSpec) :
    Except Err PodTemplateSpec :=
  match acc with
  | .ok spec => spec.StrategicMergeFrom L overlay
  | .error e => .error e

/-- From the words of the specification: the base spec merged successively with the overlays,
in the order given. -/
def mergeSuccessively (L : Lib) (base : PodTemplateSpec) (overlays : List PodTemplateSpec) :
    Except Err PodTemplateSpec :=
  overlays.foldl (mergeStep L) (.ok base)

/-- The revision belongs to the referrer: it is in its namespace and carries its name label. -/
def Revision.isOf (x : Revision) (impl : Referrer) : Prop :=
  x.Namespace = impl.GetNamespace ∧ x.Labels.lookup LabelKeyName = some impl.GetName

/-- Every stored revision that bears, in the namespace of the referrer, a name that `Create`
derives for the referrer is one of the revisions of the referrer. -/
def Store.NamesLabelled (st : Store) (r : Publisher) (impl : Referrer) : Prop :=
  ∀ x ∈ st.Revisions, ∀ data : Bytes,
    x.key = (r.newRevision impl data).key → x.isOf impl

/-- A store whose only revision bears the name `Create` derives for `nb` from
`exampleTemplate`, but not the label of `nb`. -/
def exampleStoreUnlabelled : Store :=
  { now := 10, Executions := [], Dags := [], Templates := [exampleTemplate], PodDefaults := [],
    Revisions := [{ exampleSnapshot 1 with Labels := [] }],
    Jobs := [], Objects := [] }

/-- A template with one container, a required overlay `r` and an optional overlay `e`. -/
def exampleOverlayTemplate : Template :=
  { Name := "tmpl", Namespace := "ns",
    Spec := { Dependencies := [], Options := [{ Name := "e", Description := "elective" }],
              Required := [{ Name := "r" }],
              Template := { ObjectMeta := { Labels := [], Annotations := [] },
                            Spec := { RestartPolicy := "",
                                      Containers := [{ Name := "main", Image := "img",
                                                       Command := [] }] } } } }

/-- The overlay `r`: a label and a restart policy. -/
def exampleRequiredOverlay : PodDefault :=
  { Name := "r", Namespace := "ns",
    Spec := { Template := { ObjectMeta := { Labels := [("team", "a")], Annotations := [] },
                            Spec := { RestartPolicy := "OnFailure", Containers := [] } },
              Dependencies := [] } }

/-- The overlay `e`: the same label and another restart policy. -/
def exampleElectedOverlay : PodDefault :=
  { Name := "e", Namespace := "ns",
    Spec := { Template := { ObjectMeta := { Labels := [("team", "b")], Annotations := [] },
                            Spec := { RestartPolicy := "Always", Containers := [] } },
              Dependencies := [] } }

/-- A store with that template and its overlays, and no revision. -/
def exampleStoreOverlays : Store :=
  { now := 10, Executions := [], Dags := [], Templates := [exampleOverlayTemplate],
    PodDefaults := [exampleRequiredOverlay, exampleElectedOverlay],
    Revisions := [], Jobs := [], Objects := [] }

/-- The referrer `nb`, electing the overlay `e`. -/
def exampleElector : Referrer :=
  { exampleReferrer 1 UpdatePolicyIgnore with ElectedOptions := [{ Name := "e" }] }

/-- The revision `Create` stores for `exampleElector` with the patch `RestartPatch`, under the
reference library: the label of `e` and the restart policy of the patch. -/
def exampleOverlaidSnapshot : Revision :=
  { Revision.zero with
    Name := "nb-a09126ff", Namespace := "ns", Labels := [(LabelKeyName, "nb")],
    Annotations := [(LabelKeyTemplate, "ns/tmpl")], CreationTimestamp := 10,
    Spec := { Elected := false, Stopped := false,
              Data := [1, 4, 116, 101, 97, 109, 1, 98, 0, 5, 78, 101, 118, 101, 114, 1, 4, 109,
                       97, 105, 110, 3, 105, 109, 103, 0] } }

/-- The states the traversal loop goes through: `Steps L tasks s s1` when the loop, entered
with the variables `s`, reaches the head of an iteration with the variables `s1`. -/
inductive Steps (L : Lib) (tasks : List (String × DagTask)) : LoopState → LoopState → Prop where
  | refl (s : LoopState) : Steps L tasks s s
  | step {s s1 s2 : LoopState} (h : Steps L tasks s s1) (hne : s1.stack.Empty = false)
      (hit : iterate L tasks s1 = .next s2) : Steps L tasks s s2

/-- The jobs created in a pass, in order. -/
def createdJobs (trace : List Event) : List batchv1.Job :=
  trace.filterMap (fun ev =>
    match ev with
    | .created _ job => some job
    | .observedComplete _ _ => none)

/-- The job of the task of this name in the run, a job stored before the pass (`jobs`) or
created earlier in it, was seen with a non-zero completion time. -/
def Observed (jobs : List batchv1.Job) (run : String) (evs : List Event) (dep : String) : Prop :=
  ∃ (j : Nat) (djob : batchv1.Job), evs[j]? = some (.observedComplete dep djob) ∧
    IsZero djob.Status.CompletionTime = false ∧ djob.Name = run ++ "-" ++ dep ∧
    djob ∈ jobs ++ createdJobs (evs.take j)

/-- Every creation of a job is preceded, for every dependency the task declares, by an event
at which the job of that dependency, stored before the pass (`jobs`) or created earlier in it,
was seen with a non-zero completion time. -/
def DependenciesFirst (jobs : List batchv1.Job) (run : String) (evs : List Event) : Prop :=
  ∀ (i : Nat) (task : DagTask) (job : batchv1.Job), evs[i]? = some (.created task job) →
    ∀ dep ∈ task.Dependencies, ∃ j, j < i ∧ ∃ djob : batchv1.Job,
      evs[j]? = some (.observedComplete dep djob) ∧
      IsZero djob.Status.CompletionTime = false ∧ djob.Name = run ++ "-" ++ dep ∧
      djob ∈ jobs ++ createdJobs (evs.take j)

/-- What holds of the variables of the loop throughout a pass over the store `st` for the run
`e`: the runs and graphs stored are those of `st`, the jobs stored are those of `st` and those
the pass created, every creation came after the completion of the dependencies was seen, and
every name in the completed set was seen complete. -/
structure PassInv (st : Store) (e : Execution) (s : LoopState) : Prop where
  executions : s.store.Executions = st.Executions
  dags : s.store.Dags = st.Dags
  name : s.execution.Name = e.Name
  ns : s.execution.Namespace = e.Namespace
  jobs : s.store.Jobs = st.Jobs ++ createdJobs s.trace
  ordered : DependenciesFirst st.Jobs e.Name s.trace
  observed : ∀ dep ∈ s.completed, Observed st.Jobs e.Name s.trace dep

/-- What holds of what a pass returns. -/
def ReturnedInv (st : Store) (e : Execution) (r : Returned) : Prop :=
  r.store.Executions.map (fun x => (x.Namespace, x.Name)) =
      st.Executions.map (fun x => (x.Namespace, x.Name)) ∧
    r.store.Jobs = st.Jobs ++ createdJobs r.trace ∧
      DependenciesFirst st.Jobs e.Name r.trace

/-- What holds after an iteration of the loop. -/
def OutcomeInv (st : Store) (e : Execution) : Outcome → Prop
  | .next s => PassInv st e s
  | .done r => ReturnedInv st e r

/-- The task `t2` of the example graph: no dependency. -/
def exampleT2 : DagTask :=
  { Name := "t2"
    Template := { Name := "tmpl", Namespace := "ns", ResourceVersion := "" }
    Command := []
    Options := []
    Dependencies := []
    Resources := [] }

/-- The task `t1` of the example graph: it depends on `t2`. -/
def exampleT1 : DagTask :=
  { Name := "t1"
    Template := { Name := "tmpl", Namespace := "ns", ResourceVersion := "" }
    Command := []
    Options := []
    Dependencies := ["t2"]
    Resources := [] }

/-- The example graph: entrypoint `t1`, which depends on `t2`. -/
def exampleDag : Dag :=
  { Name := "dag"
    Namespace := "ns"
    Spec := { Entrypoint := "t1", Tasks := [exampleT1, exampleT2] } }

/-- A run of the example graph, with parallelism unset. -/
def exampleRun : Execution :=
  { APIVersion := "", Kind := "", Name := "run", Namespace := "ns", UID := "",
    Spec := { DagRef := { Name := "dag" }, Parallelism := 0 },
    Status := { Tasks := [], Completed := false, Succeeded := false } }

/-- The job of `t2` in that run, as created: not complete, not failed. -/
def examplePendingJob : batchv1.Job :=
  newJob exampleRun exampleT2
    { Labels := [], Annotations := [],
      Spec := { RestartPolicy := corev1.RestartPolicyNever, Containers := [] } }

/-- A store in which the job of `t2` exists and is not complete, and that of `t1` does not
exist: what a first pass over the example graph leaves. -/
def exampleStorePending : Store :=
  { now := 10, Executions := [exampleRun], Dags := [exampleDag], Templates := [exampleTemplate],
    PodDefaults := [], Revisions := [], Jobs := [examplePendingJob], Objects := [] }

/-- The states the traversal of the example graph cycles through while the job of `t2` is
not complete. -/
def Spinning (s : LoopState) : Prop :=
  s.store.Jobs = [examplePendingJob] ∧ s.execution.Name = "run" ∧
    s.execution.Namespace = "ns" ∧ s.completed = [] ∧ s.stack.maxSize = 20 ∧
    (s.stack.tasks = [exampleT1] ∨ s.stack.tasks = [exampleT1, exampleT2])

/-- The store an iteration of the loop leaves. -/
def Outcome.store : Outcome → Store
  | .next s => s.store
  | .done r => r.store

/-- The pod template of the jobs of the example tasks: that of `exampleTemplate` with the
never-restart patch. -/
def examplePod : corev1.PodTemplateSpec :=
  { Labels := [], Annotations := [],
    Spec := { RestartPolicy := corev1.RestartPolicyNever, Containers := [] } }

/-- The job of `t2` in the example run, complete and succeeded. -/
def exampleDoneJob : batchv1.Job :=
  { newJob exampleRun exampleT2 examplePod with
    Status := { Conditions := [], CompletionTime := some 7, Succeeded := 1, Failed := 0 } }

/-- A store in which the job of `t2` is complete and that of `t1` does not exist. -/
def exampleStoreDone : Store :=
  { exampleStorePending with Jobs := [exampleDoneJob] }

/-- What the pass over `exampleStoreDone` returns. -/
def exampleSecondPass : Returned :=
  (Reconcile Ref.lib 3 exampleStoreDone { Namespace := "ns", Name := "run" }).getD
    { result := { RequeueAfter := 0 }, err := none, store := exampleStoreDone, trace := [] }

/-- A graph of the single task `t2`. -/
def exampleSingleDag : Dag :=
  { Name := "single"
    Namespace := "ns"
    Spec := { Entrypoint := "t2", Tasks := [exampleT2] } }

/-- A run of the single-task graph. -/
def exampleSoloRun : Execution :=
  { APIVersion := "", Kind := "", Name := "solo", Namespace := "ns", UID := "",
    Spec := { DagRef := { Name := "single" }, Parallelism := 0 },
    Status := { Tasks := [], Completed := false, Succeeded := false } }

/-- The job of the single task, with the status given. -/
def exampleSoloJob (status : batchv1.JobStatus) : batchv1.Job :=
  { newJob exampleSoloRun exampleT2 examplePod with Status := status }

/-- A store with the run of the single-task graph and the jobs given. -/
def exampleStoreSolo (jobs : List batchv1.Job) : Store :=
  { now := 10, Executions := [exampleSoloRun], Dags := [exampleSingleDag],
    Templates := [exampleTemplate], PodDefaults := [], Revisions := [], Jobs := jobs,
    Objects := [] }

/-- The revision `Create` stores for the task `t2` under the reference library. -/
def exampleTaskSnapshot : Revision :=
  { Revision.zero with
    Name := "t2-353c5510", Namespace := "ns", Labels := [(LabelKeyName, "t2")],
    Annotations := [(LabelKeyTemplate, "ns/tmpl")], CreationTimestamp := 10,
    Spec := { Elected := false, Stopped := false,
              Data := [0, 0, 5, 78, 101, 118, 101, 114, 0] } }

/-! ## Admission validation of task graphs (`apis/v1beta1/dag_webhook.go`) -/

/-- The message prefix `ErrDuplicateTaskName` of `apis/v1beta1/dag_webhook.go`. -/
def ErrDuplicateTaskName : String := "duplicate task name"

/-- The loop of `ValidateDag`; `m` is the map of the names seen, and `quote` stands for the
library formatting of the verb `%q`. -/
def validateLoop (quote : String → String) : List DagTask → List (String × Bool) → Option Err
  | [], _ => none
  | task :: rest, m =>
    if (m.lookup task.Name).getD false then
      some (.errorf (ErrDuplicateTaskName ++ ": task name " ++ quote task.Name ++ " is duplicated"))
    else validateLoop quote rest (mapSet m task.Name true)

/-- Go `ValidateDag`: the error returned, if any. -/
def ValidateDag (quote : String → String) (dag : Dag) : Option Err :=
  validateLoop quote dag.Spec.Tasks []

/-- Go `Dag.ValidateCreate`: the error returned (the warnings are always nil). -/
def Dag.ValidateCreate (quote : String → String) (dag : Dag) : Option Err := ValidateDag quote dag

/-- Go `Dag.ValidateUpdate`: the error returned (the warnings are always nil). -/
def Dag.ValidateUpdate (quote : String → String) (dag : Dag) (_old : Dag) : Option Err :=
  ValidateDag quote dag

/-- Go `Dag.ValidateDelete`: the error returned (the warnings are always nil). -/
def Dag.ValidateDelete (quote : String → String) (dag : Dag) : Option Err := ValidateDag quote dag

/-! ## Further specification predicates and examples -/

/-- A call of a method of the stack. -/
inductive StackOp where
  | push (task : DagTask)
  | pop
deriving DecidableEq, Repr

/-- The stack a call leaves. -/
def StackOp.apply (s : Stack) : StackOp → Stack
  | .push task => s.Push task
  | .pop => s.Pop.2

/-- The stack a sequence of calls leaves. -/
def Stack.run (s : Stack) (ops : List StackOp) : Stack := ops.foldl StackOp.apply s

/-- The example run once completed. -/
def exampleCompletedRun : Execution :=
  { exampleRun with Status := { Tasks := [], Completed := true, Succeeded := false } }

/-- A store holding the completed run and its graph. -/
def exampleStoreCompleted : Store :=
  { exampleStorePending with Executions := [exampleCompletedRun] }

/-- Go `%q` on a string that needs no escaping: the string between double quotes. -/
def quoteSimple (s : String) : String := String.mk (Char.ofNat 34 :: s.data ++ [Char.ofNat 34])

/-- A graph that declares both names twice; `t2` is the first to come a second time. -/
def exampleDuplicateDag : Dag :=
  { Name := "dup"
    Namespace := "ns"
    Spec := { Entrypoint := "t1", Tasks := [exampleT1, exampleT2, exampleT2, exampleT1] } }

/-- The job of the single task, not complete and not failed. -/
def exampleSoloPending : batchv1.Job :=
  exampleSoloJob { Conditions := [], CompletionTime := none, Succeeded := 0, Failed := 0 }

/-- The variables of the loop after the only iteration of the pass over the single-task graph
when the job of the task is stored and not complete. -/
def exampleSoloDrained : LoopState :=
  { store := exampleStoreSolo [exampleSoloPending]
    execution :=
      { exampleSoloRun with
        Status := { Tasks := [("t2", { Conditions := [], Completed := false, Succeeded := false })],
                    Completed := false, Succeeded := false } }
    stack := { tasks := [], maxSize := 20 }
    completed := []
    trace := [] }

/-- The option catalog of a template as `Create` builds it (`opts`). -/
def Template.catalog (t : Template) : List corev1.LocalObjectReference :=
  t.Options.map (fun opt => ({ Name := opt.Name } : corev1.LocalObjectReference))

/-- The referrer `nb`, electing the overlay `e` and then `x`, which the template does not
offer. -/
def exampleStrayElector : Referrer :=
  { exampleReferrer 1 UpdatePolicyIgnore with ElectedOptions := [{ Name := "e" }, { Name := "x" }] }

/-- A store with the overlay template in which the overlay `e` it offers is not stored. -/
def exampleStoreNoElective : Store :=
  { exampleStoreOverlays with PodDefaults := [exampleRequiredOverlay] }

/-- The base pod template of the example: that of `exampleOverlayTemplate`, one container. -/
def exampleBasePod : PodTemplateSpec := exampleOverlayTemplate.PodTemplateSpec

/-- The events an iteration of the loop leaves. -/
def Outcome.trace : Outcome → List Event
  | .next s => s.trace
  | .done r => r.trace

/-- Every revision of `st1` is one of `st` or bears, in the namespace of the referrer, the name
label of the referrer. -/
def RevsFrom (st st1 : Store) (impl : Referrer) : Prop :=
  ∀ x ∈ st1.Revisions, x ∈ st.Revisions ∨
    (x.Namespace = impl.GetNamespace ∧ x.Labels = [(LabelKeyName, impl.GetName)])

/-- Nothing was created for the task `t` of the run `e` since the store was `st`: every job of
`st` is still stored, every stored job under the name of the job of `t` is one of `st`, no event
records the creation of a job for a task of that name, and every stored revision of the task is
one of `st`. -/
def Untouched (st : Store) (e : Execution) (t : String) (store : Store) (evs : List Event) :
    Prop :=
  (∀ j ∈ st.Jobs, j ∈ store.Jobs) ∧
  (∀ j ∈ store.Jobs, j.hasKey e.Namespace (e.Name ++ "-" ++ t) = true → j ∈ st.Jobs) ∧
  (∀ (task : DagTask) (j : batchv1.Job), Event.created task j ∈ evs → task.Name ≠ t) ∧
  (∀ x ∈ store.Revisions, x.Namespace = e.Namespace →
    x.Labels.lookup LabelKeyName = some t → x ∈ st.Revisions)

/-- The store `st1` holds the objects of `st`: it differs at most in the status of its runs, and
no event records the creation of a job. -/
def Unchanged (st st1 : Store) (evs : List Event) : Prop :=
  st1.now = st.now ∧ st1.Dags = st.Dags ∧ st1.Templates = st.Templates ∧
    st1.PodDefaults = st.PodDefaults ∧ st1.Revisions = st.Revisions ∧ st1.Jobs = st.Jobs ∧
    st1.Objects = st.Objects ∧
    st1.Executions.map (fun x => (x.Namespace, x.Name)) =
      st.Executions.map (fun x => (x.Namespace, x.Name)) ∧
    createdJobs evs = []

/-- The task popped at the head of an iteration is ready: all its dependencies are in the
completed set. -/
def LoopState.ready (s : LoopState) : Bool :=
  (s.stack.Pop).1.Dependencies.all (fun dep => s.completed.contains dep)

/-- What the pass over the single-task run returns when the job of the task is stored and not
complete. -/
def exampleSoloPass : Returned := aggregate exampleSoloDrained

/-- A store that lists three revisions of `nb` under the names `nb-a`, `nb-b`, `nb-c`, created at
the times 2, 1 and 3. -/
def exampleStoreShuffled : Store :=
  { now := 10, Executions := [], Dags := [], Templates := [], PodDefaults := [],
    Revisions := [exampleRevision "nb-a" 2 false, exampleRevision "nb-b" 1 false,
                  exampleRevision "nb-c" 3 false],
    Jobs := [], Objects := [] }

/-- The stack holds no more tasks than its capacity allows (none when the capacity is not
positive). -/
def Stack.WithinCapacity (s : Stack) : Prop := (s.tasks.length : Int) ≤ max s.maxSize 0

/-! ## Notebooks (`apis/v1beta1/notebook.go`, `controller/notebook/reconciler.go`) -/

/-- Go `rbacv1.Subject`. -/
structure rbacv1.Subject where
  Kind : String
  APIGroup : String
  Name : String
  Namespace : String
deriving DecidableEq, Repr

/-- Go `v1beta1.NotebookSpec`. -/
structure NotebookSpec where
  RevisionHistoryLimit : Int
  Stopped : Bool
  UpdatePolicy : Option String
  ResourceRequests : StringMap
  TemplateRef : TemplateReference
  Owner : rbacv1.Subject
  Options : List String
deriving DecidableEq, Repr

/-- Go `v1beta1.Notebook`, with the metadata the code reads; the status, which the methods
below do not read, is left out. -/
structure Notebook where
  APIVersion : String
  Kind : String
  Name : String
  Namespace : String
  UID : String
  Spec : NotebookSpec
deriving DecidableEq, Repr

/-- Go `Notebook.AsOwner`. -/
def Notebook.AsOwner (nb : Notebook) : metav1.OwnerReference :=
  { APIVersion := nb.APIVersion, Kind := nb.Kind, Name := nb.Name, UID := nb.UID,
    Controller := some true, BlockOwnerDeletion := some true }

/-- Go `Notebook.Stopped`. -/
def Notebook.Stopped (nb : Notebook) : Bool := nb.Spec.Stopped

/-- Go `Notebook.ElectedOptions`: `make([]corev1.LocalObjectReference, len(nb.Spec.Options))`
is a slice of that many zero references, and the loop appends to it. -/
def Notebook.ElectedOptions (nb : Notebook) : List corev1.LocalObjectReference :=
  nb.Spec.Options.foldl
    (fun opts item => opts ++ [({ Name := item } : corev1.LocalObjectReference)])
    (List.replicate nb.Spec.Options.length ({ Name := "" } : corev1.LocalObjectReference))

/-- Go `Notebook.HistoryLimit`. -/
def Notebook.HistoryLimit (nb : Notebook) : Int := nb.Spec.RevisionHistoryLimit

/-- Go `Notebook.ResourceRequests`. -/
def Notebook.ResourceRequests (nb : Notebook) : StringMap := nb.Spec.ResourceRequests

/-- Go `Notebook.TemplateRef`. -/
def Notebook.TemplateRef (nb : Notebook) : NamespacedName :=
  { Name := nb.Spec.TemplateRef.Name, Namespace := nb.Namespace }

/-- Go `Notebook.HasUpdatePolicy`. -/
def Notebook.HasUpdatePolicy (nb : Notebook) : Bool := nb.Spec.UpdatePolicy.isSome

/-- Go `Notebook.UpdatePolicy`. -/
def Notebook.UpdatePolicy (nb : Notebook) : String :=
  match nb.Spec.UpdatePolicy with
  | none => ""
  | some up => up

/-- The methods of `Notebook` that make it a `Referrer`; `GetName` and `GetNamespace` are those
of its metadata. -/
def Notebook.asReferrer (nb : Notebook) : Referrer :=
  { GetName := nb.Name
    GetNamespace := nb.Namespace
    TemplateRef := nb.TemplateRef
    HistoryLimit := nb.HistoryLimit
    ResourceRequests := nb.ResourceRequests
    ElectedOptions := nb.ElectedOptions
    UpdatePolicy := nb.UpdatePolicy }

/-- Lines 118 to 121 of `Reconciler.Reconcile` of the notebook controller, which runs in the
namespace `system`: the reconciliation goes on only when the template reference names the
namespace of the controller or that of the notebook. -/
def templateRefAdmitted (system : String) (nb : Notebook) : Bool :=
  !(nb.Spec.TemplateRef.Namespace != system && nb.Spec.TemplateRef.Namespace != nb.Namespace)

/-- A notebook `nb`, in the namespace given, that refers to the template `tmpl` of the
namespace `ns` and selects the options given. -/
def exampleNotebook (ns : String) (options : List String) : Notebook :=
  { APIVersion := "", Kind := "", Name := "nb", Namespace := ns, UID := "",
    Spec := { RevisionHistoryLimit := 3, Stopped := false, UpdatePolicy := some UpdatePolicyIgnore,
              ResourceRequests := [],
              TemplateRef := { Name := "tmpl", Namespace := "ns", ResourceVersion := "" },
              Owner := { Kind := "User", APIGroup := "", Name := "jo", Namespace := "" },
              Options := options } }

/-! ## Examples and predicates on what the revision manager stores -/

/-- A store with `exampleTemplate` and no revision. -/
def exampleStoreFresh : Store :=
  { exampleStoreReverted with Revisions := [] }

/-- A reference to a config map `cfg`. -/
def exampleDependency : LocalObjectReference :=
  { Name := "cfg", APIVersion := "v1", Kind := "ConfigMap" }

/-- The config map `cfg` as stored in the namespace `ns`. -/
def exampleConfigMap : Object :=
  { APIVersion := "v1", Kind := "ConfigMap", Name := "cfg", Namespace := "ns",
    OwnerReferences := [], CreationTimestamp := 1, DeletionTimestamp := none, Finalizers := [],
    ResourceVersion := "7", SelfLink := "", GenerateName := "", DeletionGracePeriodSeconds := none,
    ManagedFields := [], Content := [1] }

/-- The template `ns/tmpl` with the dependency `cfg`. -/
def exampleDependentTemplate : Template :=
  { exampleTemplate with Spec := { exampleTemplate.Spec with Dependencies := [exampleDependency] } }

/-- A store with that template and the config map it depends on, both in `ns`. -/
def exampleStoreDependent : Store :=
  { exampleStoreFresh with Templates := [exampleDependentTemplate], Objects := [exampleConfigMap] }

/-- The overlay `r` with the dependency `cfg`. -/
def exampleDependentOverlay : PodDefault :=
  { exampleRequiredOverlay with
    Spec := { exampleRequiredOverlay.Spec with Dependencies := [exampleDependency] } }

/-- A store with the overlay template, its overlays, `r` depending on `cfg`, and the config
map. -/
def exampleStoreDependentOverlay : Store :=
  { exampleStoreOverlays with
    PodDefaults := [exampleDependentOverlay, exampleElectedOverlay], Objects := [exampleConfigMap] }

/-- The template `ns/tmpl` with the label `v` of the value given on its pod template. -/
def exampleLabelled (v : String) : Template :=
  { exampleTemplate with
    Spec := { exampleTemplate.Spec with
      Template := { ObjectMeta := { Labels := [("v", v)], Annotations := [] },
                    Spec := { RestartPolicy := "", Containers := [] } } } }

/-- The revision of `nb` that `Create` derives from `exampleLabelled v` under the reference
library, as stored at the time given. -/
def exampleLabelledSnapshot (v : String) (created : Nat) : Revision :=
  { Revision.zero with
    Name := "nb-3b4874c9", Namespace := "ns", Labels := [(LabelKeyName, "nb")],
    Annotations := [(LabelKeyTemplate, "ns/tmpl")], CreationTimestamp := created,
    Spec := { Elected := false, Stopped := false,
              Data := [1, 1, 118, v.length] ++ v.data.map Char.toNat ++ [0, 0, 0] } }

/-- A store in which the template carries the label value `a2wba` and the revision captured
when it carried `azunw` is stored. -/
def exampleStoreRelabelled : Store :=
  { exampleStoreFresh with
    Templates := [exampleLabelled "a2wba"], Revisions := [exampleLabelledSnapshot "azunw" 10] }

/-- The referrer `nb` of the namespace `user`, which refers to the template `ns/tmpl`. -/
def exampleVisitor : Referrer :=
  { exampleReferrer 3 UpdatePolicyIgnore with GetNamespace := "user" }

/-- The revision `Create` builds for `exampleVisitor` from the overlay template with its
required overlay. -/
def exampleOverlaidVisit : Revision :=
  Publisher.newRevision { patches := [] } exampleVisitor
    (Ref.MarshalIndent
      { ObjectMeta := { Labels := [("team", "a")], Annotations := [] },
        Spec := { RestartPolicy := "OnFailure",
                  Containers := [{ Name := "main", Image := "img", Command := [] }] } })

/-- The revision `y` is the revision `x` up to the elected flag: the same object metadata, the
same serialized content and the same stopped flag. -/
def SameContent (x y : Revision) : Prop :=
  y = { x with Spec := { x.Spec with Elected := y.Spec.Elected } }

/-- Every revision of the second store is one of the first up to the elected flag. -/
def Shrinks (st st1 : Store) : Prop :=
  ∀ y ∈ st1.Revisions, ∃ x ∈ st.Revisions, SameContent x y

/-- Every revision of the second store is one of the first up to the elected flag, or is stored
under a name that is free in the first. -/
def KeepsContent (st st1 : Store) : Prop :=
  ∀ y ∈ st1.Revisions,
    (∃ x ∈ st.Revisions, SameContent x y) ∨ ∀ x ∈ st.Revisions, x.key ≠ y.key

/-! # Theorems -/

/-! ## Trimming revisions -/

theorem hasKey_iff (r : Revision) (ns name : String) :
    r.hasKey ns name = true ↔ r.key = (ns, name) := by
  simp [Revision.hasKey, Revision.key]

theorem hasKey_self (r : Revision) : r.hasKey r.Namespace r.Name = true := by
  simp [Revision.hasKey]

theorem hasKey_key (r d : Revision) :
    r.hasKey d.Namespace d.Name = true ↔ r.key = d.key := by
  simp [Revision.hasKey, Revision.key]

theorem eq_of_key_eq {l : List Revision} (hnd : (l.map Revision.key).Nodup) {a b : Revision}
    (ha : a ∈ l) (hb : b ∈ l) (hk : a.key = b.key) : a = b :=
  List.inj_on_of_nodup_map hnd ha hb hk

theorem deleteRevision_store (st : Store) (d : Revision) :
    (st.deleteRevision d).store =
      { st with Revisions := st.Revisions.filter (fun r => !r.hasKey d.Namespace d.Name) } := by
  unfold Store.deleteRevision
  split
  · rfl
  · rename_i h
    have : st.Revisions.filter (fun r => !r.hasKey d.Namespace d.Name) = st.Revisions := by
      rw [List.filter_eq_self]
      intro a ha
      simp only [List.any_eq_true, not_exists, not_and] at h
      simpa using h a ha
    simp [this]

theorem deleteRevision_ok (st : Store) (d : Revision)
    (h : ∃ x ∈ st.Revisions, x.key = d.key) : (st.deleteRevision d).val = .ok () := by
  obtain ⟨x, hx, hk⟩ := h
  unfold Store.deleteRevision
  rw [if_pos]
  simp only [List.any_eq_true]
  exact ⟨x, hx, (hasKey_key x d).2 hk⟩

theorem trimLoop_store_of_ok :
    ∀ (l : List Revision) (st : Store),
      (l.map Revision.key).Nodup →
      (∀ d ∈ l, ∃ x ∈ st.Revisions, x.key = d.key) →
      (trimLoop st l).val = .ok () ∧
      (trimLoop st l).store =
        { st with Revisions := st.Revisions.filter (fun x => !trimmed l x) }
  | [], st, _, _ => by simp [trimLoop, trimmed]
  | d :: rest, st, hnd, hmem => by
    have hnd' : (rest.map Revision.key).Nodup := (List.nodup_cons.1 hnd).2
    have hd : d.key ∉ rest.map Revision.key := (List.nodup_cons.1 hnd).1
    unfold trimLoop
    by_cases he : d.Elected = true
    · rw [if_pos he]
      have ih := trimLoop_store_of_ok rest st hnd' (fun d' hd' => hmem d' (List.mem_cons_of_mem _ hd'))
      refine ⟨ih.1, ?_⟩
      rw [ih.2]
      simp [trimmed, he]
    · rw [if_neg he]
      have hok := deleteRevision_ok st d (hmem d (List.mem_cons_self _ _))
      have hst := deleteRevision_store st d
      generalize hres : st.deleteRevision d = res at hok hst
      obtain ⟨v, st1⟩ := res
      simp only at hok hst
      subst hok
      simp only
      have hmem' : ∀ d' ∈ rest, ∃ x ∈ st1.Revisions, x.key = d'.key := by
        intro d' hd'
        obtain ⟨x, hx, hk⟩ := hmem d' (List.mem_cons_of_mem _ hd')
        refine ⟨x, ?_, hk⟩
        rw [hst]
        simp only [List.mem_filter, Bool.not_eq_true', Bool.not_eq_eq_eq_not, Bool.not_true]
        refine ⟨hx, ?_⟩
        rw [Bool.eq_false_iff, Ne, hasKey_key, hk]
        intro hkk
        exact hd (hkk ▸ List.mem_map_of_mem _ hd')
      have ih := trimLoop_store_of_ok rest st1 hnd' hmem'
      refine ⟨ih.1, ?_⟩
      rw [ih.2, hst]
      simp only [List.filter_filter, Store.mk.injEq, true_and, and_true]
      apply List.filter_congr
      intro x _
      simp only [trimmed, List.any_cons, he, Bool.not_false, Bool.true_and, Bool.not_or]
      exact Bool.and_comm _ _

theorem trimLoop_subset :
    ∀ (l : List Revision) (st : Store) (x : Revision),
      x ∈ (trimLoop st l).store.Revisions → x ∈ st.Revisions
  | [], st, x, h => by simpa [trimLoop] using h
  | d :: rest, st, x, h => by
    unfold trimLoop at h
    by_cases he : d.Elected = true
    · rw [if_pos he] at h
      exact trimLoop_subset rest st x h
    · rw [if_neg he] at h
      have hst := deleteRevision_store st d
      generalize hres : st.deleteRevision d = res at h hst
      obtain ⟨v, st1⟩ := res
      simp only at hst
      cases v with
      | error e =>
        simp only at h
        rw [hst] at h
        exact (List.mem_filter.1 h).1
      | ok u =>
        simp only at h
        have := trimLoop_subset rest st1 x h
        rw [hst] at this
        exact (List.mem_filter.1 this).1

theorem trimLoop_keeps :
    ∀ (l : List Revision) (st : Store) (x : Revision),
      x ∈ st.Revisions → (∀ d ∈ l, d.Elected = false → d.key ≠ x.key) →
      x ∈ (trimLoop st l).store.Revisions
  | [], st, x, h, _ => by simpa [trimLoop] using h
  | d :: rest, st, x, h, hk => by
    have hk' : ∀ d' ∈ rest, d'.Elected = false → d'.key ≠ x.key :=
      fun d' hd' => hk d' (List.mem_cons_of_mem _ hd')
    unfold trimLoop
    by_cases he : d.Elected = true
    · rw [if_pos he]
      exact trimLoop_keeps rest st x h hk'
    · rw [if_neg he]
      have hst := deleteRevision_store st d
      have hx1 : x ∈ (st.deleteRevision d).store.Revisions := by
        rw [hst]
        simp only [List.mem_filter, Bool.not_eq_true', Bool.not_eq_eq_eq_not, Bool.not_true]
        refine ⟨h, ?_⟩
        rw [Bool.eq_false_iff, Ne, hasKey_key]
        exact fun hkk => hk d (List.mem_cons_self _ _) (by simpa using he) hkk.symm
      generalize st.deleteRevision d = res at hx1
      obtain ⟨v, st1⟩ := res
      cases v with
      | error e => exact hx1
      | ok u => exact trimLoop_keeps rest st1 x hx1 hk'

theorem trimLoop_frame :
    ∀ (l : List Revision) (st : Store),
      (trimLoop st l).store = { st with Revisions := (trimLoop st l).store.Revisions }
  | [], st => by simp [trimLoop]
  | d :: rest, st => by
    unfold trimLoop
    by_cases he : d.Elected = true
    · rw [if_pos he]
      exact trimLoop_frame rest st
    · rw [if_neg he]
      have hst := deleteRevision_store st d
      generalize st.deleteRevision d = res at hst
      obtain ⟨v, st1⟩ := res
      simp only at hst
      cases v with
      | error e => simp only; rw [hst]
      | ok u =>
        simp only
        have ih := trimLoop_frame rest st1
        rw [ih, hst]

theorem mem_List (r : Publisher) (st : Store) (impl : Referrer) (x : Revision) :
    x ∈ r.List st impl ↔
      x ∈ st.Revisions ∧ x.Namespace = impl.GetNamespace ∧
        x.Labels.lookup LabelKeyName = some impl.GetName := by
  simp [Publisher.List, Store.listRevisions, Publisher.revisionLabelSet, matchesLabels]

theorem List_sublist (r : Publisher) (st : Store) (impl : Referrer) :
    (r.List st impl).Sublist st.Revisions := by
  unfold Publisher.List Store.listRevisions
  exact List.filter_sublist _

theorem sortReverse_perm (l : List Revision) : (sortReverse l).Perm l :=
  List.perm_insertionSort _ l

theorem sortReverse_sorted (l : List Revision) : (sortReverse l).Sorted newestFirst :=
  List.sorted_insertionSort _ l

theorem mem_sortReverse {l : List Revision} {x : Revision} : x ∈ sortReverse l ↔ x ∈ l :=
  (sortReverse_perm l).mem_iff

theorem nodup_of_nodup_keys {l : List Revision} (h : (l.map Revision.key).Nodup) : l.Nodup :=
  List.Nodup.of_map _ h

theorem trimmed_iff {l : List Revision} {st : Store} (hwf : st.WellFormed)
    (hl : ∀ d ∈ l, d ∈ st.Revisions) {x : Revision} (hx : x ∈ st.Revisions) :
    trimmed l x = true ↔ x ∈ l ∧ x.Elected = false := by
  simp only [trimmed, List.any_eq_true, Bool.and_eq_true, Bool.not_eq_true']
  constructor
  · rintro ⟨d, hd, he, hk⟩
    have : x = d := eq_of_key_eq hwf hx (hl d hd) ((hasKey_key x d).1 hk)
    subst this
    exact ⟨hd, he⟩
  · rintro ⟨hd, he⟩
    exact ⟨x, hd, he, hasKey_self x⟩

theorem TrimRevisions_keeps_elected_aux (r : Publisher) (st : Store) (impl : Referrer)
    (hwf : st.WellFormed) (rev : Revision) (hmem : rev ∈ st.Revisions)
    (hel : rev.Elected = true) : rev ∈ (r.TrimRevisions st impl).store.Revisions := by
  unfold Publisher.TrimRevisions
  simp only
  split
  · exact hmem
  · apply trimLoop_keeps _ _ _ hmem
    intro d hd hde hk
    have hdst : d ∈ st.Revisions :=
      (List_sublist r st impl).subset (mem_sortReverse.1 (List.mem_of_mem_drop hd))
    have : d = rev := eq_of_key_eq hwf hdst hmem hk
    subst this
    rw [hel] at hde
    exact Bool.noConfusion hde

/-- C4. `TrimRevisions` never deletes an elected revision: for every referrer, every history
limit and every (well-formed) store, every elected revision stored before the call is stored
after it, whether the call succeeds or not. -/
theorem TrimRevisions_never_deletes_elected (r : Publisher) (st : Store) (impl : Referrer)
    (rev : Revision) (hwf : st.WellFormed) (hmem : rev ∈ st.Revisions)
    (hel : rev.Elected = true) : rev ∈ (r.TrimRevisions st impl).store.Revisions :=
  TrimRevisions_keeps_elected_aux r st impl hwf rev hmem hel

theorem TrimRevisions_never_deletes_elected_witness :
    exampleStore.WellFormed ∧ exampleRevision "nb-a" 1 true ∈ exampleStore.Revisions ∧
    (exampleRevision "nb-a" 1 true).Elected = true ∧
    exampleRevision "nb-a" 1 true ∈
      (Publisher.TrimRevisions { patches := [] } exampleStore
        (exampleReferrer 1 UpdatePolicyIgnore)).store.Revisions :=
  ⟨by unfold Store.WellFormed; decide, by decide, by decide,
   TrimRevisions_never_deletes_elected { patches := [] } exampleStore
    (exampleReferrer 1 UpdatePolicyIgnore) (exampleRevision "nb-a" 1 true)
    (by unfold Store.WellFormed; decide) (by decide) (by decide)⟩

theorem sorted_take_drop_le {l : List Revision} (hs : l.Sorted newestFirst) (n : Nat) :
    ∀ a ∈ l.take n, ∀ b ∈ l.drop n, b.CreationTimestamp ≤ a.CreationTimestamp := by
  intro a ha b hb
  have h : (l.take n ++ l.drop n).Sorted newestFirst := by rw [List.take_append_drop]; exact hs
  exact (List.pairwise_append.1 h).2.2 a ha b hb

theorem keep_iff (P : Prop) [Decidable P] (e : Bool) :
    (!(decide P && !e)) = true ↔ (P → e = true) := by
  by_cases h : P <;> cases e <;> simp [h]

theorem sortReverse_sorts : SortsNewestFirst sortReverse :=
  fun l => ⟨sortReverse_perm l, sortReverse_sorted l⟩

/-- `TrimRevisions` is `TrimRevisionsBy` at the stable order. -/
theorem TrimRevisionsBy_sortReverse (r : Publisher) (st : Store) (impl : Referrer) :
    r.TrimRevisionsBy sortReverse st impl = r.TrimRevisions st impl := rfl

theorem nodup_keys_sort {sort : RevisionSort} (hsort : SortsNewestFirst sort)
    (r : Publisher) (st : Store) (impl : Referrer) (hwf : st.WellFormed) :
    ((sort (r.List st impl)).map Revision.key).Nodup := by
  have h1 : ((r.List st impl).map Revision.key).Nodup :=
    List.Nodup.sublist ((List_sublist r st impl).map _) hwf
  exact (((hsort _).1).map _).nodup_iff.2 h1

/-- What `TrimRevisions` does under a history limit that is not negative, on a well-formed
store, whatever order the library sort gives to revisions of equal creation time. -/
theorem TrimRevisionsBy_spec {sort : RevisionSort}
    (hsort : SortsNewestFirst sort) (r : Publisher) (st : Store) (impl : Referrer)
    (hwf : st.WellFormed) (hN : 0 ≤ impl.HistoryLimit) :
    (r.TrimRevisionsBy sort st impl).val = .ok () ∧
    (r.TrimRevisionsBy sort st impl).store =
      { st with Revisions := st.Revisions.filter (fun x =>
          !(decide (x ∈ (sort (r.List st impl)).drop impl.HistoryLimit.toNat)
            && !x.Elected)) } := by
  have hlt : ¬ impl.HistoryLimit < 0 := not_lt.2 hN
  unfold Publisher.TrimRevisionsBy
  simp only [hlt, if_false]
  set l := (sort (r.List st impl)).drop impl.HistoryLimit.toNat with hl
  have hsub : ∀ d ∈ l, d ∈ st.Revisions := fun d hd =>
    (List_sublist r st impl).subset (((hsort _).1.mem_iff).1 (List.mem_of_mem_drop hd))
  have hnd : (l.map Revision.key).Nodup :=
    List.Nodup.sublist ((List.drop_sublist _ _).map _) (nodup_keys_sort hsort r st impl hwf)
  have h := trimLoop_store_of_ok l st hnd (fun d hd => ⟨d, hsub d hd, rfl⟩)
  refine ⟨h.1, ?_⟩
  rw [h.2]
  simp only [Store.mk.injEq, true_and, and_true]
  apply List.filter_congr
  intro x hx
  have h1 := trimmed_iff hwf hsub hx (l := l)
  have h2 : trimmed l x = (decide (x ∈ l) && !x.Elected) := by
    rw [Bool.eq_iff_iff, h1]
    simp
  rw [h2]

theorem mem_List_after_trimBy {sort : RevisionSort}
    (hsort : SortsNewestFirst sort) (r : Publisher) (st : Store) (impl : Referrer)
    (hwf : st.WellFormed) (hN : 0 ≤ impl.HistoryLimit) (rev : Revision) :
    rev ∈ r.List (r.TrimRevisionsBy sort st impl).store impl ↔
      rev ∈ (sort (r.List st impl)).take impl.HistoryLimit.toNat ∨
      (rev ∈ (sort (r.List st impl)).drop impl.HistoryLimit.toNat ∧
        rev.Elected = true) := by
  have hspec := (TrimRevisionsBy_spec hsort r st impl hwf hN).2
  have hmemsort : ∀ x, x ∈ sort (r.List st impl) ↔ x ∈ r.List st impl :=
    fun x => (hsort _).1.mem_iff
  have hnd0 := nodup_of_nodup_keys (nodup_keys_sort hsort r st impl hwf)
  generalize sort (r.List st impl) = S at hspec hmemsort hnd0
  set N := impl.HistoryLimit.toNat with hNdef
  have hdisj := List.disjoint_take_drop hnd0 (le_refl N)
  have hmemS : ∀ x, x ∈ S ↔ x ∈ S.take N ∨ x ∈ S.drop N := by
    intro x
    conv_lhs => rw [← List.take_append_drop N S]
    exact List.mem_append
  rw [mem_List, hspec]
  simp only [List.mem_filter, keep_iff]
  constructor
  · rintro ⟨⟨hst, hkeep⟩, hns, hlab⟩
    have hin : rev ∈ S := (hmemsort rev).2 ((mem_List r st impl rev).2 ⟨hst, hns, hlab⟩)
    rcases (hmemS rev).1 hin with h | h
    · exact Or.inl h
    · exact Or.inr ⟨h, hkeep h⟩
  · intro h
    have hin : rev ∈ S := (hmemS rev).2 (h.imp id And.left)
    have hL := (mem_List r st impl rev).1 ((hmemsort rev).1 hin)
    refine ⟨⟨hL.1, ?_⟩, hL.2⟩
    intro hd
    rcases h with h | h
    · exact absurd hd (fun hd => hdisj h hd)
    · exact h.2

theorem length_List_after_trimBy {sort : RevisionSort}
    (hsort : SortsNewestFirst sort) (r : Publisher) (st : Store) (impl : Referrer)
    (hwf : st.WellFormed) (hN : 0 ≤ impl.HistoryLimit)
    (hone : ((r.List st impl).filter (fun x => x.Elected)).length ≤ 1) :
    (r.List (r.TrimRevisionsBy sort st impl).store impl).length ≤ impl.HistoryLimit.toNat + 1 ∧
    ((r.List (r.TrimRevisionsBy sort st impl).store impl).length = impl.HistoryLimit.toNat + 1 →
      ∃ rev ∈ (sort (r.List st impl)).drop impl.HistoryLimit.toNat,
        rev.Elected = true) := by
  have hspec := (TrimRevisionsBy_spec hsort r st impl hwf hN).2
  have hp0 : (sort (r.List st impl)).Perm (r.List st impl) := (hsort _).1
  generalize sort (r.List st impl) = S at hspec hp0
  set N := impl.HistoryLimit.toNat with hNdef
  set keep : Revision → Bool := fun x => !(decide (x ∈ S.drop N) && !x.Elected) with hkeep
  have hlist : r.List (r.TrimRevisionsBy sort st impl).store impl =
      (r.List st impl).filter keep := by
    rw [hspec]
    simp only [Publisher.List, Store.listRevisions, List.filter_filter]
    apply List.filter_congr
    intro x _
    exact Bool.and_comm _ _
  have hperm : ((r.List st impl).filter keep).Perm (S.filter keep) := (hp0.filter _).symm
  have hlen : ((r.List st impl).filter keep).length = (S.filter keep).length := hperm.length_eq
  have hsplit : S.filter keep = (S.take N).filter keep ++ (S.drop N).filter keep := by
    rw [← List.filter_append, List.take_append_drop]
  have hdrop : (S.drop N).filter keep = (S.drop N).filter (fun x => x.Elected) := by
    apply List.filter_congr
    intro x hx
    simp [hkeep, hx]
  have h1 : ((S.take N).filter keep).length ≤ N :=
    le_trans (List.length_filter_le _ _) (List.length_take_le _ _)
  have h2 : ((S.drop N).filter (fun x => x.Elected)).length ≤ 1 := by
    have hsub : ((S.drop N).filter (fun x => x.Elected)).Sublist
        (S.filter (fun x => x.Elected)) := (List.drop_sublist N S).filter _
    have hp : (S.filter (fun x => x.Elected)).Perm ((r.List st impl).filter (fun x => x.Elected)) :=
      hp0.filter _
    calc ((S.drop N).filter (fun x => x.Elected)).length
        ≤ (S.filter (fun x => x.Elected)).length := hsub.length_le
      _ = ((r.List st impl).filter (fun x => x.Elected)).length := hp.length_eq
      _ ≤ 1 := hone
  rw [hlist, hlen, hsplit, hdrop, List.length_append]
  refine ⟨by omega, ?_⟩
  intro heq
  have hpos : 0 < ((S.drop N).filter (fun x => x.Elected)).length := by omega
  obtain ⟨x, hx⟩ := List.exists_mem_of_length_pos hpos
  have := List.mem_filter.1 hx
  exact ⟨x, this.1, this.2⟩

/-- In a list ordered newest first, a revision with at least `n` revisions created after it
stands at a position `≥ n`. -/
theorem mem_drop_of_newer {S : List Revision} (hs : S.Sorted newestFirst) (n : Nat)
    {rev : Revision} (hrev : rev ∈ S)
    (hcount : n ≤ (S.filter (fun x => decide (rev.CreationTimestamp < x.CreationTimestamp))).length) :
    rev ∈ S.drop n := by
  by_contra hnot
  have hin : rev ∈ S.take n := by
    have : rev ∈ S.take n ++ S.drop n := by rw [List.take_append_drop]; exact hrev
    rcases List.mem_append.1 this with h | h
    · exact h
    · exact absurd h hnot
  have hsplit : S.filter (fun x => decide (rev.CreationTimestamp < x.CreationTimestamp)) =
      (S.take n).filter (fun x => decide (rev.CreationTimestamp < x.CreationTimestamp)) ++
      (S.drop n).filter (fun x => decide (rev.CreationTimestamp < x.CreationTimestamp)) := by
    rw [← List.filter_append, List.take_append_drop]
  have hdrop : (S.drop n).filter
      (fun x => decide (rev.CreationTimestamp < x.CreationTimestamp)) = [] := by
    rw [List.filter_eq_nil_iff]
    intro b hb
    have := sorted_take_drop_le hs n rev hin b hb
    simp only [decide_eq_true_eq, not_lt]
    exact this
  have htake : ((S.take n).filter
      (fun x => decide (rev.CreationTimestamp < x.CreationTimestamp))).length <
        (S.take n).length := by
    rw [List.length_filter_lt_length_iff_exists]
    exact ⟨rev, hin, by simp⟩
  have hle : (S.take n).length ≤ n := List.length_take_le _ _
  rw [hsplit, hdrop, List.append_nil] at hcount
  omega

/-- In a list ordered newest first, a revision with at most `n` revisions not created before
it, itself counted, stands at a position `< n`. -/
theorem not_mem_drop_of_few {S : List Revision} (hs : S.Sorted newestFirst) (n : Nat)
    {rev : Revision}
    (hcount : (S.filter (fun x => decide (rev.CreationTimestamp ≤ x.CreationTimestamp))).length
      ≤ n) :
    rev ∉ S.drop n := by
  intro hin
  have hsplit : S.filter (fun x => decide (rev.CreationTimestamp ≤ x.CreationTimestamp)) =
      (S.take n).filter (fun x => decide (rev.CreationTimestamp ≤ x.CreationTimestamp)) ++
      (S.drop n).filter (fun x => decide (rev.CreationTimestamp ≤ x.CreationTimestamp)) := by
    rw [← List.filter_append, List.take_append_drop]
  have htake : (S.take n).filter
      (fun x => decide (rev.CreationTimestamp ≤ x.CreationTimestamp)) = S.take n := by
    rw [List.filter_eq_self]
    intro a ha
    simpa using sorted_take_drop_le hs n a ha rev hin
  have hlen : (S.take n).length = n := by
    have : n < S.length := by
      by_contra hge
      rw [List.drop_of_length_le (not_lt.1 hge)] at hin
      exact List.not_mem_nil _ hin
    rw [List.length_take]
    omega
  have hpos : 0 < ((S.drop n).filter
      (fun x => decide (rev.CreationTimestamp ≤ x.CreationTimestamp))).length :=
    List.length_pos_of_mem (List.mem_filter.2 ⟨hin, by simp⟩)
  rw [hsplit, htake, List.length_append, hlen] at hcount
  omega

/-- C5. For a history limit `N ≥ 0`, on a well-formed store, and whatever order the library
sort gives to revisions of equal creation time, `TrimRevisions` succeeds; in the order it
sorted the referrer's revisions into, the revisions at the first `N` positions are not older
than those at later positions; a stored revision is deleted exactly when it is one of the
referrer's revisions at a position `≥ N` and is not elected, so that the referrer is left with
the `N` first ones and the elected ones at later positions. Independently of the order among
equal creation times: a revision of the referrer with at most `N` of its revisions not created
before it (itself counted) is kept, and one that is not elected and has at least `N` of them
created after it is deleted. When at most one of the referrer's revisions is elected, at most
`N + 1` remain, and `N + 1` only when an elected one lay at a position `≥ N`. -/
theorem TrimRevisions_keeps_newest_and_elected (sort : RevisionSort) (r : Publisher)
    (st : Store) (impl : Referrer) (hsort : SortsNewestFirst sort)
    (hwf : st.WellFormed) (hN : 0 ≤ impl.HistoryLimit) :
    (r.TrimRevisionsBy sort st impl).val = .ok () ∧
    (∀ a ∈ (sort (r.List st impl)).take impl.HistoryLimit.toNat,
      ∀ b ∈ (sort (r.List st impl)).drop impl.HistoryLimit.toNat,
        b.CreationTimestamp ≤ a.CreationTimestamp) ∧
    (∀ rev, rev ∈ (r.TrimRevisionsBy sort st impl).store.Revisions ↔
      rev ∈ st.Revisions ∧
        ¬ (rev ∈ (sort (r.List st impl)).drop impl.HistoryLimit.toNat ∧
            rev.Elected = false)) ∧
    (∀ rev, rev ∈ r.List (r.TrimRevisionsBy sort st impl).store impl ↔
      rev ∈ (sort (r.List st impl)).take impl.HistoryLimit.toNat ∨
      (rev ∈ (sort (r.List st impl)).drop impl.HistoryLimit.toNat ∧
        rev.Elected = true)) ∧
    (∀ rev ∈ r.List st impl,
      (((r.List st impl).filter
          (fun x => decide (rev.CreationTimestamp ≤ x.CreationTimestamp))).length
            ≤ impl.HistoryLimit.toNat →
        rev ∈ (r.TrimRevisionsBy sort st impl).store.Revisions) ∧
      (rev.Elected = false →
        impl.HistoryLimit.toNat ≤ ((r.List st impl).filter
          (fun x => decide (rev.CreationTimestamp < x.CreationTimestamp))).length →
        rev ∉ (r.TrimRevisionsBy sort st impl).store.Revisions)) ∧
    (((r.List st impl).filter (fun x => x.Elected)).length ≤ 1 →
      (r.List (r.TrimRevisionsBy sort st impl).store impl).length
        ≤ impl.HistoryLimit.toNat + 1 ∧
      ((r.List (r.TrimRevisionsBy sort st impl).store impl).length
          = impl.HistoryLimit.toNat + 1 →
        ∃ rev ∈ (sort (r.List st impl)).drop impl.HistoryLimit.toNat,
          rev.Elected = true)) := by
  have hmem : ∀ rev, rev ∈ (r.TrimRevisionsBy sort st impl).store.Revisions ↔
      rev ∈ st.Revisions ∧
        ¬ (rev ∈ (sort (r.List st impl)).drop impl.HistoryLimit.toNat ∧
            rev.Elected = false) := by
    intro rev
    rw [(TrimRevisionsBy_spec hsort r st impl hwf hN).2]
    simp only [List.mem_filter, keep_iff, not_and, Bool.not_eq_false]
  refine ⟨(TrimRevisionsBy_spec hsort r st impl hwf hN).1,
    sorted_take_drop_le (hsort _).2 _, hmem,
    mem_List_after_trimBy hsort r st impl hwf hN, ?_,
    length_List_after_trimBy hsort r st impl hwf hN⟩
  intro rev hrev
  have hst : rev ∈ st.Revisions := (List_sublist r st impl).subset hrev
  constructor
  · intro hcount
    refine (hmem rev).2 ⟨hst, fun h => ?_⟩
    refine not_mem_drop_of_few (hsort _).2 _ ?_ h.1
    rw [((hsort (r.List st impl)).1.filter _).length_eq]
    exact hcount
  · intro hel hcount hin
    refine ((hmem rev).1 hin).2 ⟨?_, hel⟩
    refine mem_drop_of_newer (hsort _).2 _ ((hsort _).1.mem_iff.2 hrev) ?_
    rw [((hsort (r.List st impl)).1.filter _).length_eq]
    exact hcount

theorem TrimRevisions_keeps_newest_and_elected_witness :
    SortsNewestFirst sortReverse ∧ exampleStore.WellFormed ∧
    (0 : Int) ≤ (exampleReferrer 1 UpdatePolicyIgnore).HistoryLimit ∧
    (Publisher.TrimRevisionsBy sortReverse { patches := [] } exampleStore
        (exampleReferrer 1 UpdatePolicyIgnore)).store.Revisions =
      [exampleRevision "nb-a" 1 true, exampleRevision "nb-c" 3 false] ∧
    (Publisher.TrimRevisionsBy sortReverse { patches := [] } exampleStore
        (exampleReferrer 1 UpdatePolicyIgnore)).val = .ok () :=
  ⟨sortReverse_sorts, by unfold Store.WellFormed; decide, by decide, by decide,
   (TrimRevisions_keeps_newest_and_elected sortReverse { patches := [] } exampleStore
    (exampleReferrer 1 UpdatePolicyIgnore) sortReverse_sorts
    (by unfold Store.WellFormed; decide) (by decide)).1⟩

/-! ## The revision manager: Create and ElectRevision -/

theorem Frame.refl (st : Store) : st.Frame st := ⟨rfl, rfl, rfl, rfl, rfl, rfl⟩

theorem Frame.trans {a b c : Store} (h1 : a.Frame b) (h2 : b.Frame c) : a.Frame c := by
  obtain ⟨h11, h12, h13, h14, h15, h16⟩ := h1
  obtain ⟨h21, h22, h23, h24, h25, h26⟩ := h2
  exact ⟨h21.trans h11, h22.trans h12, h23.trans h13, h24.trans h14, h25.trans h15,
    h26.trans h16⟩

theorem createRevision_cases (st : Store) (rev : Revision) :
    (st.createRevision rev = ⟨.error .alreadyExists, st⟩ ∧
      ∃ x ∈ st.Revisions, x.key = rev.key) ∨
    (st.createRevision rev =
        ⟨.ok { rev with CreationTimestamp := st.now },
         { st with Revisions := st.Revisions ++ [{ rev with CreationTimestamp := st.now }] }⟩ ∧
      ∀ x ∈ st.Revisions, x.key ≠ rev.key) := by
  unfold Store.createRevision
  by_cases h : st.Revisions.any (fun r => r.hasKey rev.Namespace rev.Name) = true
  · left
    rw [if_pos h]
    refine ⟨rfl, ?_⟩
    obtain ⟨x, hx, hk⟩ := List.any_eq_true.1 h
    exact ⟨x, hx, (hasKey_key x rev).1 hk⟩
  · right
    rw [if_neg h]
    refine ⟨rfl, ?_⟩
    intro x hx hk
    exact h (List.any_eq_true.2 ⟨x, hx, (hasKey_key x rev).2 hk⟩)

theorem createObject_revisions (st : Store) (obj : Object) :
    (st.createObject obj).store.Revisions = st.Revisions ∧
      st.Frame (st.createObject obj).store := by
  unfold Store.createObject
  split
  · exact ⟨rfl, Frame.refl st⟩
  · exact ⟨rfl, rfl, rfl, rfl, rfl, rfl, rfl⟩

theorem copyDependencies_revisions (ns : String) (rev : Revision) :
    ∀ (deps : Dependencies) (st : Store),
      (copyDependencies ns rev st deps).store.Revisions = st.Revisions ∧
        st.Frame (copyDependencies ns rev st deps).store
  | [], st => ⟨rfl, Frame.refl st⟩
  | dep :: rest, st => by
    unfold copyDependencies
    cases hget : st.getObject dep.APIVersion dep.Kind ns "" with
    | error e => exact ⟨rfl, Frame.refl st⟩
    | ok obj =>
      simp only
      have hc := createObject_revisions st (resetForCopy obj rev)
      generalize st.createObject (resetForCopy obj rev) = res at hc
      obtain ⟨v, st1⟩ := res
      simp only at hc
      have ih := copyDependencies_revisions ns rev rest st1
      cases v with
      | ok o => exact ⟨ih.1.trans hc.1, Frame.trans hc.2 ih.2⟩
      | error e =>
        cases e <;> first
          | exact ⟨ih.1.trans hc.1, Frame.trans hc.2 ih.2⟩
          | exact hc

theorem getObject_empty (st : Store) (a k ns : String) :
    st.getObject a k ns "" = .error .notFound := by
  simp [Store.getObject]

theorem TrimRevisions_frame (r : Publisher) (st : Store) (impl : Referrer) :
    st.Frame (r.TrimRevisions st impl).store := by
  unfold Publisher.TrimRevisions
  simp only
  split
  · exact Frame.refl st
  · rw [trimLoop_frame]
    exact ⟨rfl, rfl, rfl, rfl, rfl, rfl⟩

theorem publish_ok {r : Publisher} {st : Store} {impl : Referrer} {template : Template}
    {deps : Dependencies} {rev out : Revision} {st2 : Store}
    (h : r.publish st impl template deps rev = ⟨.ok out, st2⟩) :
    ∃ st1 : Store, st.Frame st1 ∧
      ((out = rev ∧ st1.Revisions = st.Revisions ∧ ∃ x ∈ st.Revisions, x.key = rev.key) ∨
       (out = { rev with CreationTimestamp := st.now } ∧
        st1.Revisions = st.Revisions ++ [out] ∧ ∀ x ∈ st.Revisions, x.key ≠ rev.key)) ∧
      r.TrimRevisions st1 impl = ⟨.ok (), st2⟩ := by
  unfold Publisher.publish at h
  rcases createRevision_cases st rev with ⟨hc, hex⟩ | ⟨hc, hnew⟩
  · rw [hc] at h
    simp only at h
    have hd := copyDependencies_revisions template.Namespace rev deps st
    generalize copyDependencies template.Namespace rev st deps = res at h hd
    obtain ⟨v, st1⟩ := res
    cases v with
    | error e => simp at h
    | ok u =>
      simp only at h hd
      generalize htr : r.TrimRevisions st1 impl = res2 at h
      obtain ⟨v2, st3⟩ := res2
      cases v2 with
      | error e => simp at h
      | ok u2 =>
        simp only [Res.mk.injEq, Except.ok.injEq] at h
        obtain ⟨h1, h2⟩ := h
        subst h1 h2
        exact ⟨st1, hd.2, Or.inl ⟨rfl, hd.1, hex⟩, htr⟩
  · rw [hc] at h
    simp only at h
    have hd := copyDependencies_revisions template.Namespace
      { rev with CreationTimestamp := st.now } deps
      { st with Revisions := st.Revisions ++ [{ rev with CreationTimestamp := st.now }] }
    generalize copyDependencies template.Namespace { rev with CreationTimestamp := st.now }
      { st with Revisions := st.Revisions ++ [{ rev with CreationTimestamp := st.now }] }
      deps = res at h hd
    obtain ⟨v, st1⟩ := res
    cases v with
    | error e => simp at h
    | ok u =>
      simp only at h hd
      generalize htr : r.TrimRevisions st1 impl = res2 at h
      obtain ⟨v2, st3⟩ := res2
      cases v2 with
      | error e => simp at h
      | ok u2 =>
        simp only [Res.mk.injEq, Except.ok.injEq] at h
        obtain ⟨h1, h2⟩ := h
        subst h1 h2
        refine ⟨st1, ?_, Or.inr ⟨rfl, hd.1, hnew⟩, htr⟩
        exact Frame.trans ⟨rfl, rfl, rfl, rfl, rfl, rfl⟩ hd.2

theorem Create_ok {L : Lib} {r : Publisher} {st : Store} {impl : Referrer} {out : Revision}
    {st2 : Store} (h : r.Create L st impl = ⟨.ok out, st2⟩) :
    ∃ (template : Template) (spec : PodTemplateSpec) (deps : Dependencies) (data : Bytes),
      r.resolve L st impl = .ok (template, spec, deps) ∧
      L.MarshalIndent spec = .ok data ∧
      r.publish st impl template deps (r.newRevision impl data) = ⟨.ok out, st2⟩ := by
  unfold Publisher.Create at h
  cases hres : r.resolve L st impl with
  | error e => rw [hres] at h; simp at h
  | ok v =>
    obtain ⟨template, spec, deps⟩ := v
    rw [hres] at h
    simp only at h
    cases hm : L.MarshalIndent spec with
    | error e => rw [hm] at h; simp at h
    | ok data =>
      rw [hm] at h
      exact ⟨template, spec, deps, data, rfl, hm, h⟩

theorem newRevision_fields (r : Publisher) (impl : Referrer) (data : Bytes) :
    (r.newRevision impl data).Namespace = impl.GetNamespace ∧
    (r.newRevision impl data).Name = impl.GetName ++ "-" ++ (r.newRevision impl data).Sum ∧
    (r.newRevision impl data).Labels = [(LabelKeyName, impl.GetName)] ∧
    (r.newRevision impl data).Spec.Data = data ∧
    (r.newRevision impl data).Spec.Elected = false := by
  simp [Publisher.newRevision, Revision.SetData, Revision.zero, Revision.Hash, Revision.Sum,
    Publisher.revisionLabelSet]

/-- What a successful `Create` returns and leaves: the revision built from the serialized
spec, as stored now or as built when one of its name is stored already, and the store after the
trimming. -/
theorem Create_ok_shape {L : Lib} {r : Publisher} {st : Store} {impl : Referrer}
    {out : Revision} {st2 : Store} (h : r.Create L st impl = ⟨.ok out, st2⟩) :
    ∃ (data : Bytes) (st1 : Store), st.Frame st1 ∧
      ((out = r.newRevision impl data ∧ st1.Revisions = st.Revisions ∧
          ∃ x ∈ st.Revisions, x.key = out.key) ∨
       (out = { r.newRevision impl data with CreationTimestamp := st.now } ∧
        st1.Revisions = st.Revisions ++ [out] ∧ ∀ x ∈ st.Revisions, x.key ≠ out.key)) ∧
      r.TrimRevisions st1 impl = ⟨.ok (), st2⟩ := by
  obtain ⟨template, spec, deps, data, _, _, hp⟩ := Create_ok h
  obtain ⟨st1, hf, hcase, htr⟩ := publish_ok hp
  refine ⟨data, st1, hf, ?_, htr⟩
  rcases hcase with ⟨h1, h2, h3⟩ | ⟨h1, h2, h3⟩
  · left; subst h1; exact ⟨rfl, h2, h3⟩
  · right; subst h1; exact ⟨rfl, h2, h3⟩

theorem Create_ok_fields {L : Lib} {r : Publisher} {st : Store} {impl : Referrer}
    {out : Revision} {st2 : Store} (h : r.Create L st impl = ⟨.ok out, st2⟩) :
    out.Namespace = impl.GetNamespace ∧ out.Name = impl.GetName ++ "-" ++ out.Sum ∧
    out.Labels = [(LabelKeyName, impl.GetName)] ∧ out.Spec.Elected = false := by
  obtain ⟨data, st1, _, hcase, _⟩ := Create_ok_shape h
  have hf := newRevision_fields r impl data
  rcases hcase with ⟨h1, _, _⟩ | ⟨h1, _, _⟩
  · subst h1; exact ⟨hf.1, hf.2.1, hf.2.2.1, hf.2.2.2.2⟩
  · subst h1
    refine ⟨hf.1, ?_, hf.2.2.1, hf.2.2.2.2⟩
    have := hf.2.1
    simpa [Revision.Sum] using this

theorem TrimRevisions_subset (r : Publisher) (st : Store) (impl : Referrer) (x : Revision)
    (h : x ∈ (r.TrimRevisions st impl).store.Revisions) : x ∈ st.Revisions := by
  unfold Publisher.TrimRevisions at h
  simp only at h
  split at h
  · exact h
  · exact trimLoop_subset _ _ _ h

theorem Sum_congr {a b : Revision} (h : a.Spec.Data = b.Spec.Data) : a.Sum = b.Sum := by
  simp [Revision.Sum, h]

/-- C6, the divergence. With history limit 1, the store holds an old revision of the content
and a newer revision of another content.  The first `Create` collides with the old revision,
succeeds, and its trimming deletes that very revision; the second `Create`, of the same content
and the same name, then stores a revision that the store did not hold: the second call adds a
revision object to the store. -/
theorem Create_twice_adds_revision :
    (Publisher.Create Ref.lib { patches := [] } exampleStoreReverted
        (exampleReferrer 1 UpdatePolicyIgnore)).val = .ok (exampleSnapshot 0) ∧
    (Publisher.Create Ref.lib { patches := [] }
        (Publisher.Create Ref.lib { patches := [] } exampleStoreReverted
          (exampleReferrer 1 UpdatePolicyIgnore)).store
        (exampleReferrer 1 UpdatePolicyIgnore)).val = .ok (exampleSnapshot 10) ∧
    (exampleSnapshot 0).GetData = (exampleSnapshot 10).GetData ∧
    (exampleSnapshot 0).Name = (exampleSnapshot 10).Name ∧
    exampleSnapshot 10 ∈
      (Publisher.Create Ref.lib { patches := [] }
        (Publisher.Create Ref.lib { patches := [] } exampleStoreReverted
          (exampleReferrer 1 UpdatePolicyIgnore)).store
        (exampleReferrer 1 UpdatePolicyIgnore)).store.Revisions ∧
    exampleSnapshot 10 ∉
      (Publisher.Create Ref.lib { patches := [] } exampleStoreReverted
        (exampleReferrer 1 UpdatePolicyIgnore)).store.Revisions := by
  decide

/-- The part of the content-determinism of `Create` that holds on every store. Two successful
`Create` calls for the same referrer, the second on the store the first leaves, whose resolved
specs are byte-identical return revisions of the same name, which is the name of the referrer, a
dash and the content hash; and when the revision of that name is still stored after the first
call, the second call adds no revision to the store. -/
theorem Create_twice_same_name (L1 L2 : Lib) (r1 r2 : Publisher) (st st1 st2 : Store)
    (impl : Referrer) (rev1 rev2 : Revision)
    (h1 : r1.Create L1 st impl = ⟨.ok rev1, st1⟩)
    (h2 : r2.Create L2 st1 impl = ⟨.ok rev2, st2⟩)
    (hdata : rev1.GetData = rev2.GetData) :
    rev1.Name = rev2.Name ∧ rev2.Name = impl.GetName ++ "-" ++ rev2.Sum ∧
    ((∃ x ∈ st1.Revisions, x.key = rev1.key) → ∀ x ∈ st2.Revisions, x ∈ st1.Revisions) := by
  have f1 := Create_ok_fields h1
  have f2 := Create_ok_fields h2
  have hsum : rev1.Sum = rev2.Sum := Sum_congr hdata
  have hname : rev1.Name = rev2.Name := by rw [f1.2.1, f2.2.1, hsum]
  refine ⟨hname, f2.2.1, ?_⟩
  rintro ⟨y, hy, hk⟩ x hx
  obtain ⟨data, st', _, hcase, htr⟩ := Create_ok_shape h2
  have hx' : x ∈ st'.Revisions := by
    have := TrimRevisions_subset r2 st' impl x
    rw [htr] at this
    exact this hx
  rcases hcase with ⟨_, hrev, _⟩ | ⟨_, _, hnew⟩
  · rwa [hrev] at hx'
  · exfalso
    apply hnew y hy
    rw [hk]
    simp [Revision.key, f1.1, f2.1, hname]

theorem Create_twice_same_name_witness :
    (exampleSnapshot 10).Name = (exampleSnapshot 0).Name ∧
    (exampleSnapshot 0).Name = (exampleReferrer 1 UpdatePolicyIgnore).GetName ++ "-"
      ++ (exampleSnapshot 0).Sum ∧
    ((∃ x ∈ ({ exampleStoreReverted with Revisions := [exampleSnapshot 10] } : Store).Revisions,
        x.key = (exampleSnapshot 10).key) →
      ∀ x ∈ ({ exampleStoreReverted with Revisions := [exampleSnapshot 10] } : Store).Revisions,
        x ∈ ({ exampleStoreReverted with Revisions := [exampleSnapshot 10] } : Store).Revisions) :=
  Create_twice_same_name Ref.lib Ref.lib { patches := [] } { patches := [] }
    { exampleStoreReverted with Revisions := [] }
    { exampleStoreReverted with Revisions := [exampleSnapshot 10] }
    { exampleStoreReverted with Revisions := [exampleSnapshot 10] }
    (exampleReferrer 1 UpdatePolicyIgnore) (exampleSnapshot 10) (exampleSnapshot 0)
    (by decide) (by decide) (by decide)

theorem foldl_mergeStep_error (L : Lib) (e : Err) :
    ∀ overlays : List PodTemplateSpec, overlays.foldl (mergeStep L) (.error e) = .error e
  | [] => rfl
  | _ :: rest => by simpa [List.foldl, mergeStep] using foldl_mergeStep_error L e rest

theorem mergeSuccessively_cons (L : Lib) (base o : PodTemplateSpec)
    (rest : List PodTemplateSpec) :
    mergeSuccessively L base (o :: rest) =
      match base.StrategicMergeFrom L o with
      | .ok spec => mergeSuccessively L spec rest
      | .error e => .error e := by
  unfold mergeSuccessively
  simp only [List.foldl, mergeStep]
  cases base.StrategicMergeFrom L o with
  | ok spec => rfl
  | error e => exact foldl_mergeStep_error L e rest

theorem mergeSuccessively_append (L : Lib) :
    ∀ (a b : List PodTemplateSpec) (base mid : PodTemplateSpec),
      mergeSuccessively L base a = .ok mid →
      mergeSuccessively L base (a ++ b) = mergeSuccessively L mid b
  | [], b, base, mid, h => by
    simp only [mergeSuccessively, List.foldl, Except.ok.injEq] at h
    subst h
    rfl
  | o :: rest, b, base, mid, h => by
    rw [mergeSuccessively_cons] at h
    rw [List.cons_append, mergeSuccessively_cons]
    cases hm : base.StrategicMergeFrom L o with
    | error e => rw [hm] at h; simp at h
    | ok spec =>
      rw [hm] at h
      exact mergeSuccessively_append L rest b spec mid h

theorem patchLoop_eq (L : Lib) :
    ∀ (patches : List PodTemplateSpec) (spec : PodTemplateSpec),
      patchLoop L patches spec = mergeSuccessively L spec patches
  | [], spec => rfl
  | p :: rest, spec => by
    rw [mergeSuccessively_cons]
    unfold patchLoop
    cases spec.StrategicMergeFrom L p with
    | error e => rfl
    | ok spec1 => exact patchLoop_eq L rest spec1

theorem applyOption_ok {L : Lib} {st : Store} {ns : String} {acc acc1 : Resolved}
    {opt : corev1.LocalObjectReference} (h : applyOption L st ns acc opt = .ok acc1) :
    ∃ pd, st.getPodDefault ns opt.Name = .ok pd ∧
      acc.1.StrategicMergeFrom L pd.PodTemplateSpec = .ok acc1.1 ∧
      acc1.2 = acc.2 ++ pd.Dependencies := by
  unfold applyOption at h
  cases hg : st.getPodDefault ns opt.Name with
  | error e => rw [hg] at h; simp at h
  | ok pd =>
    rw [hg] at h
    simp only at h
    cases hm : acc.1.StrategicMergeFrom L pd.PodTemplateSpec with
    | error e => rw [hm] at h; simp at h
    | ok spec =>
      rw [hm] at h
      simp only [Except.ok.injEq] at h
      subst h
      exact ⟨pd, rfl, hm, rfl⟩

theorem requiredLoop_ok (L : Lib) (st : Store) (ns : String) :
    ∀ (refs : List corev1.LocalObjectReference) (acc acc1 : Resolved),
      requiredLoop L st ns refs acc = .ok acc1 →
      ∃ pds : List PodDefault,
        List.Forall₂ (fun ref pd => st.getPodDefault ns ref.Name = .ok pd) refs pds ∧
        mergeSuccessively L acc.1 (pds.map (fun pd => pd.PodTemplateSpec)) = .ok acc1.1 ∧
        acc1.2 = acc.2 ++ pds.flatMap (fun pd => pd.Dependencies)
  | [], acc, acc1, h => by
    simp only [requiredLoop, Except.ok.injEq] at h
    subst h
    exact ⟨[], List.Forall₂.nil, rfl, by simp⟩
  | opt :: rest, acc, acc1, h => by
    unfold requiredLoop at h
    cases ha : applyOption L st ns acc opt with
    | error e => rw [ha] at h; simp at h
    | ok acc2 =>
      rw [ha] at h
      obtain ⟨pd, hg, hm, hd⟩ := applyOption_ok ha
      obtain ⟨pds, hf, hms, hds⟩ := requiredLoop_ok L st ns rest acc2 acc1 h
      refine ⟨pd :: pds, List.Forall₂.cons hg hf, ?_, ?_⟩
      · rw [List.map_cons, mergeSuccessively_cons, hm]
        exact hms
      · rw [hds, hd]
        simp

theorem electedLoop_ok (L : Lib) (st : Store) (ns : String)
    (opts : List corev1.LocalObjectReference) :
    ∀ (refs : List corev1.LocalObjectReference) (acc acc1 : Resolved),
      electedLoop L st ns opts refs acc = .ok acc1 →
      ∃ pds : List PodDefault,
        List.Forall₂ (fun ref pd => st.getPodDefault ns ref.Name = .ok pd) refs pds ∧
        mergeSuccessively L acc.1 (pds.map (fun pd => pd.PodTemplateSpec)) = .ok acc1.1 ∧
        acc1.2 = acc.2 ++ pds.flatMap (fun pd => pd.Dependencies) ∧
        ∀ ref ∈ refs, ref ∈ opts
  | [], acc, acc1, h => by
    simp only [electedLoop, Except.ok.injEq] at h
    subst h
    exact ⟨[], List.Forall₂.nil, rfl, by simp, by simp⟩
  | opt :: rest, acc, acc1, h => by
    unfold electedLoop at h
    by_cases hc : opts.contains opt = true
    · rw [if_pos hc] at h
      cases ha : applyOption L st ns acc opt with
      | error e => rw [ha] at h; simp at h
      | ok acc2 =>
        rw [ha] at h
        obtain ⟨pd, hg, hm, hd⟩ := applyOption_ok ha
        obtain ⟨pds, hf, hms, hds, hin⟩ := electedLoop_ok L st ns opts rest acc2 acc1 h
        refine ⟨pd :: pds, List.Forall₂.cons hg hf, ?_, ?_, ?_⟩
        · rw [List.map_cons, mergeSuccessively_cons, hm]
          exact hms
        · rw [hds, hd]
          simp
        · intro ref href
          rcases List.mem_cons.1 href with rfl | h'
          · simpa using hc
          · exact hin ref h'
    · rw [if_neg hc] at h
      simp at h

/-- What a successful `resolve` has computed. -/
theorem resolve_ok {L : Lib} {r : Publisher} {st : Store} {impl : Referrer}
    {template : Template} {spec : PodTemplateSpec} {deps : Dependencies}
    (h : r.resolve L st impl = .ok (template, spec, deps)) :
    st.getTemplate impl.TemplateRef = .ok template ∧
    ∃ required elected : List PodDefault,
      List.Forall₂ (fun ref pd => st.getPodDefault template.Namespace ref.Name = .ok pd)
        template.Required required ∧
      List.Forall₂ (fun ref pd => st.getPodDefault template.Namespace ref.Name = .ok pd)
        impl.ElectedOptions elected ∧
      mergeSuccessively L template.PodTemplateSpec
        (required.map (fun pd => pd.PodTemplateSpec) ++
          elected.map (fun pd => pd.PodTemplateSpec) ++ r.patches) = .ok spec ∧
      deps = required.flatMap (fun pd => pd.Dependencies) ++
        elected.flatMap (fun pd => pd.Dependencies) ∧
      ∀ ref ∈ impl.ElectedOptions, ∃ opt ∈ template.Options, opt.Name = ref.Name := by
  unfold Publisher.resolve at h
  cases hg : st.getTemplate impl.TemplateRef with
  | error e => rw [hg] at h; simp at h
  | ok t =>
    rw [hg] at h
    simp only at h
    cases hr : requiredLoop L st t.Namespace t.Required (t.PodTemplateSpec, []) with
    | error e => rw [hr] at h; simp at h
    | ok acc1 =>
      rw [hr] at h
      simp only at h
      cases he : electedLoop L st t.Namespace
          (t.Options.map (fun opt => ({ Name := opt.Name } : corev1.LocalObjectReference)))
          impl.ElectedOptions acc1 with
      | error e => rw [he] at h; simp at h
      | ok acc2 =>
        rw [he] at h
        simp only at h
        cases hp : patchLoop L r.patches acc2.1 with
        | error e => rw [hp] at h; simp at h
        | ok spec1 =>
          rw [hp] at h
          simp only [Except.ok.injEq, Prod.mk.injEq] at h
          obtain ⟨h1, h2, h3⟩ := h
          subst h1 h2 h3
          obtain ⟨req, hfr, hmr, hdr⟩ := requiredLoop_ok L st _ _ _ _ hr
          obtain ⟨el, hfe, hme, hde, hin⟩ := electedLoop_ok L st _ _ _ _ _ he
          refine ⟨rfl, req, el, hfr, hfe, ?_, ?_, ?_⟩
          · rw [List.append_assoc, mergeSuccessively_append L _ _ _ _ hmr,
              mergeSuccessively_append L _ _ _ _ hme, ← patchLoop_eq]
            exact hp
          · rw [hde, hdr]
            simp
          · intro ref href
            have := hin ref href
            simp only [List.mem_map] at this
            obtain ⟨opt, ho, hoe⟩ := this
            exact ⟨opt, ho, by rw [← hoe]⟩

theorem Create_ok_data {L : Lib} {r : Publisher} {st : Store} {impl : Referrer}
    {out : Revision} {st2 : Store} (h : r.Create L st impl = ⟨.ok out, st2⟩) :
    ∃ (template : Template) (spec : PodTemplateSpec) (deps : Dependencies),
      r.resolve L st impl = .ok (template, spec, deps) ∧
      L.MarshalIndent spec = .ok out.GetData := by
  obtain ⟨template, spec, deps, data, hres, hm, hp⟩ := Create_ok h
  refine ⟨template, spec, deps, hres, ?_⟩
  obtain ⟨st1, _, hcase, _⟩ := publish_ok hp
  have hf := (newRevision_fields r impl data).2.2.2.1
  rcases hcase with ⟨h1, _, _⟩ | ⟨h1, _, _⟩
  · subst h1; rw [Revision.GetData, hf]; exact hm
  · subst h1; rw [Revision.GetData]; simp only; rw [hf]; exact hm

/-- C7. When `Create` succeeds, the data of the revision is the serialized form of the
template's base spec merged successively with the pod defaults named by the template's required
overlays, in declared order, then with those named by the referrer's elected options, in
declared order, then with the patches of the publisher, in the order given. -/
theorem Create_merges_in_order (L : Lib) (r : Publisher) (st st2 : Store) (impl : Referrer)
    (rev : Revision) (h : r.Create L st impl = ⟨.ok rev, st2⟩) :
    ∃ (template : Template) (required elected : List PodDefault) (spec : PodTemplateSpec),
      st.getTemplate impl.TemplateRef = .ok template ∧
      List.Forall₂ (fun ref pd => st.getPodDefault template.Namespace ref.Name = .ok pd)
        template.Required required ∧
      List.Forall₂ (fun ref pd => st.getPodDefault template.Namespace ref.Name = .ok pd)
        impl.ElectedOptions elected ∧
      mergeSuccessively L template.PodTemplateSpec
        (required.map (fun pd => pd.PodTemplateSpec) ++
          elected.map (fun pd => pd.PodTemplateSpec) ++ r.patches) = .ok spec ∧
      L.MarshalIndent spec = .ok rev.GetData := by
  obtain ⟨template, spec, deps, hres, hm⟩ := Create_ok_data h
  obtain ⟨hg, req, el, hfr, hfe, hms, _, _⟩ := resolve_ok hres
  exact ⟨template, req, el, spec, hg, hfr, hfe, hms, hm⟩

theorem mem_List_iff (r : Publisher) (st : Store) (impl : Referrer) (x : Revision) :
    x ∈ r.List st impl ↔ x ∈ st.Revisions ∧ x.isOf impl := mem_List r st impl x

theorem applyMergeFrom_key (orig modified x : Revision) :
    (applyMergeFrom orig modified x).key = x.key := rfl

theorem applyMergeFrom_isOf (orig modified x : Revision) (impl : Referrer) :
    (applyMergeFrom orig modified x).isOf impl ↔ x.isOf impl := Iff.rfl

theorem applyMergeFrom_elect (l x : Revision) (h : l.Spec.Elected = false) :
    (applyMergeFrom l l.Elect x).Spec.Elected = true := by
  simp [applyMergeFrom, Revision.Elect, h]

theorem applyMergeFrom_recall (l x : Revision) (h : l.Spec.Elected = true) :
    (applyMergeFrom l l.Recall x).Spec.Elected = false := by
  simp [applyMergeFrom, Revision.Recall, h]

theorem patchRevision_ok {st st1 : Store} {orig modified out : Revision}
    (h : st.patchRevision orig modified = ⟨.ok out, st1⟩) :
    ∃ stored ∈ st.Revisions, stored.key = modified.key ∧
      out = applyMergeFrom orig modified stored ∧
      st1.Revisions = st.Revisions.map (fun x =>
        if x.hasKey modified.Namespace modified.Name then applyMergeFrom orig modified x
        else x) ∧
      st.Frame st1 := by
  unfold Store.patchRevision at h
  cases hf : st.Revisions.find? (fun x => x.hasKey modified.Namespace modified.Name) with
  | none => rw [hf] at h; simp at h
  | some stored =>
    rw [hf] at h
    simp only [Res.mk.injEq, Except.ok.injEq] at h
    obtain ⟨h1, h2⟩ := h
    subst h1 h2
    have hm := List.mem_of_find?_eq_some hf
    have hk := List.find?_some hf
    exact ⟨stored, hm, (hasKey_key stored modified).1 hk, rfl, rfl, rfl, rfl, rfl, rfl, rfl, rfl⟩

theorem wellFormed_map {st st1 : Store} (f : Revision → Revision) (hf : ∀ x, (f x).key = x.key)
    (h : st1.Revisions = st.Revisions.map f) (hwf : st.WellFormed) : st1.WellFormed := by
  unfold Store.WellFormed at *
  rw [h, List.map_map]
  have : (Revision.key ∘ f) = Revision.key := funext hf
  rw [this]
  exact hwf

theorem patchRevision_wellFormed {st st1 : Store} {orig modified out : Revision}
    (h : st.patchRevision orig modified = ⟨.ok out, st1⟩) (hwf : st.WellFormed) :
    st1.WellFormed := by
  obtain ⟨_, _, _, _, hmap, _⟩ := patchRevision_ok h
  refine wellFormed_map _ ?_ hmap hwf
  intro x
  split <;> rfl

theorem TrimRevisions_wellFormed (r : Publisher) (st : Store) (impl : Referrer)
    (hwf : st.WellFormed) : (r.TrimRevisions st impl).store.WellFormed := by
  unfold Publisher.TrimRevisions
  simp only
  split
  · exact hwf
  · have hsub : ∀ (l : List Revision) (s : Store),
        ((trimLoop s l).store.Revisions).Sublist s.Revisions := by
      intro l
      induction l with
      | nil => intro s; simp [trimLoop]
      | cons d rest ih =>
        intro s
        unfold trimLoop
        by_cases he : d.Elected = true
        · rw [if_pos he]; exact ih s
        · rw [if_neg he]
          have hst := deleteRevision_store s d
          generalize s.deleteRevision d = res at hst
          obtain ⟨v, s1⟩ := res
          simp only at hst
          have hs1 : s1.Revisions.Sublist s.Revisions := by rw [hst]; exact List.filter_sublist _
          cases v with
          | error e => exact hs1
          | ok u => exact (ih s1).trans hs1
    exact List.Nodup.sublist ((hsub _ st).map _) hwf

/-- What a successful `Create` does to the revisions of a well-formed store. -/
theorem Create_ok_revisions {L : Lib} {r : Publisher} {st st2 : Store} {impl : Referrer}
    {out : Revision} (h : r.Create L st impl = ⟨.ok out, st2⟩) (hwf : st.WellFormed) :
    st2.WellFormed ∧ st.Frame st2 ∧
    (∀ x, x.Elected = true → (x ∈ st2.Revisions ↔ x ∈ st.Revisions)) ∧
    (∀ x ∈ st2.Revisions, x ∈ st.Revisions ∨ x = out) := by
  obtain ⟨data, st1, hfr, hcase, htr⟩ := Create_ok_shape h
  have hel := (Create_ok_fields h).2.2.2
  have hst2 : st2 = (r.TrimRevisions st1 impl).store := by rw [htr]
  have hwf1 : st1.WellFormed := by
    rcases hcase with ⟨_, hrev, _⟩ | ⟨_, hrev, hnew⟩
    · unfold Store.WellFormed; rw [hrev]; exact hwf
    · unfold Store.WellFormed
      rw [hrev, List.map_append, List.map_singleton]
      refine List.Nodup.append hwf (List.nodup_singleton _) ?_
      intro k hk hk2
      rw [List.mem_singleton] at hk2
      obtain ⟨x, hx, hxk⟩ := List.mem_map.1 hk
      exact hnew x hx (hxk.trans hk2)
  have hsub1 : ∀ x ∈ st1.Revisions, x ∈ st.Revisions ∨ x = out := by
    intro x hx
    rcases hcase with ⟨_, hrev, _⟩ | ⟨_, hrev, _⟩
    · left; rwa [hrev] at hx
    · rw [hrev] at hx
      rcases List.mem_append.1 hx with h1 | h1
      · exact Or.inl h1
      · exact Or.inr (List.mem_singleton.1 h1)
  have hsup1 : ∀ x ∈ st.Revisions, x ∈ st1.Revisions := by
    intro x hx
    rcases hcase with ⟨_, hrev, _⟩ | ⟨_, hrev, _⟩
    · rwa [hrev]
    · rw [hrev]; exact List.mem_append.2 (Or.inl hx)
  refine ⟨hst2 ▸ TrimRevisions_wellFormed r st1 impl hwf1,
    Frame.trans hfr (hst2 ▸ TrimRevisions_frame r st1 impl), ?_, ?_⟩
  · intro x hx
    constructor
    · intro hm
      rw [hst2] at hm
      rcases hsub1 x (TrimRevisions_subset r st1 impl x hm) with h1 | h1
      · exact h1
      · subst h1
        rw [Revision.Elected, hel] at hx
        exact Bool.noConfusion hx
    · intro hm
      rw [hst2]
      exact TrimRevisions_keeps_elected_aux r st1 impl hwf1 x (hsup1 x hm) hx
  · intro x hx
    rw [hst2] at hx
    exact hsub1 x (TrimRevisions_subset r st1 impl x hx)

theorem electionTarget_cases {L : Lib} {r : Publisher} {st st1 : Store} {impl : Referrer}
    {latest : Revision} (h : r.electionTarget L st impl = ⟨.ok latest, st1⟩) :
    (impl.UpdatePolicy ≠ UpdatePolicyAuto ∧ r.Latest st impl = some latest ∧ st1 = st) ∨
    r.Create L st impl = ⟨.ok latest, st1⟩ := by
  unfold Publisher.electionTarget at h
  by_cases hp : impl.UpdatePolicy = UpdatePolicyAuto
  · right
    simp only [hp, if_true] at h
    generalize r.Create L st impl = res at h ⊢
    obtain ⟨v, s⟩ := res
    cases v with
    | error e => simp at h
    | ok rev =>
      simp only [Res.mk.injEq, Except.ok.injEq] at h
      rw [h.1, h.2]
  · simp only [hp, if_false] at h
    cases hl : r.Latest st impl with
    | none =>
      rw [hl] at h
      exact Or.inr h
    | some l =>
      rw [hl] at h
      simp only [Res.mk.injEq, Except.ok.injEq] at h
      left
      exact ⟨hp, by rw [h.1], h.2.symm⟩

theorem Elected_none {r : Publisher} {st : Store} {impl : Referrer}
    (h : r.Elected st impl = none) : ∀ x ∈ r.List st impl, x.Elected = false := by
  unfold Publisher.Elected at h
  intro x hx
  have := List.find?_eq_none.1 h x hx
  simpa using this

theorem Elected_some {r : Publisher} {st : Store} {impl : Referrer} {el : Revision}
    (h : r.Elected st impl = some el) : el ∈ r.List st impl ∧ el.Elected = true := by
  unfold Publisher.Elected at h
  exact ⟨List.mem_of_find?_eq_some h, by simpa using List.find?_some h⟩

theorem Latest_some {r : Publisher} {st : Store} {impl : Referrer} {l : Revision}
    (h : r.Latest st impl = some l) : l ∈ r.List st impl := by
  unfold Publisher.Latest at h
  exact mem_sortReverse.1 (List.mem_of_mem_head? h)

theorem electionTarget_ok {L : Lib} {r : Publisher} {st st1 : Store} {impl : Referrer}
    {latest : Revision} (h : r.electionTarget L st impl = ⟨.ok latest, st1⟩)
    (hwf : st.WellFormed) (hlab : st.NamesLabelled r impl)
    (hctx : r.Elected st impl = none ∨ impl.UpdatePolicy = UpdatePolicyAuto) :
    st1.WellFormed ∧
    (∀ x, x.Elected = true → (x ∈ st1.Revisions ↔ x ∈ st.Revisions)) ∧
    latest.Spec.Elected = false ∧
    (∀ y ∈ st1.Revisions, y.key = latest.key → y.isOf impl) := by
  rcases electionTarget_cases h with ⟨hp, hl, hst⟩ | hc
  · subst hst
    have hnone : r.Elected st1 impl = none := hctx.resolve_right hp
    have hmem := Latest_some hl
    refine ⟨hwf, fun _ _ => Iff.rfl, Elected_none hnone latest hmem, ?_⟩
    intro y hy hk
    have hin := (mem_List_iff r st1 impl latest).1 hmem
    have : y = latest := eq_of_key_eq hwf hy hin.1 hk
    rw [this]
    exact hin.2
  · obtain ⟨hwf1, _, hel, hsub⟩ := Create_ok_revisions hc hwf
    have hf := Create_ok_fields hc
    refine ⟨hwf1, hel, hf.2.2.2, ?_⟩
    intro y hy hk
    rcases hsub y hy with h1 | h1
    · obtain ⟨data, _, _, hcase, _⟩ := Create_ok_shape hc
      apply hlab y h1 data
      rw [hk]
      rcases hcase with ⟨h2, _, _⟩ | ⟨h2, _, _⟩
      · rw [h2]
      · rw [h2]; rfl
    · rw [h1]
      refine ⟨hf.1, ?_⟩
      rw [hf.2.2.1]
      simp [List.lookup]

theorem eq_singleton_of_nodup {l : List Revision} {a : Revision} (hnd : l.Nodup)
    (h : ∀ y, y ∈ l ↔ y = a) : l = [a] := by
  have hp : l.Perm [a] := by
    apply (List.perm_ext_iff_of_nodup hnd (List.nodup_singleton a)).2
    intro y
    rw [h y, List.mem_singleton]
  exact List.perm_singleton.1 hp

theorem eq_of_length_le_one {l : List Revision} {a b : Revision} (h : l.length ≤ 1)
    (ha : a ∈ l) (hb : b ∈ l) : a = b := by
  match l, h, ha, hb with
  | [x], _, ha, hb =>
    rw [List.mem_singleton] at ha hb
    rw [ha, hb]

theorem eq_singleton_of_length_le_one {l : List Revision} {a : Revision} (h : l.length ≤ 1)
    (ha : a ∈ l) : l = [a] := by
  match l, h, ha with
  | [x], _, ha => rw [List.mem_singleton.1 ha]

/-- The election of `ElectRevision` on a well-formed store: when it succeeds, the revision it
returns is the one revision of the referrer that is elected. -/
theorem ElectRevision_elects_one {L : Lib} {r : Publisher} {st st3 : Store} {impl : Referrer}
    {rev : Revision} (hwf : st.WellFormed) (hlab : st.NamesLabelled r impl)
    (hone : ((r.List st impl).filter (fun x => x.Elected)).length ≤ 1)
    (h : r.ElectRevision L st impl = ⟨.ok rev, st3⟩) :
    (r.List st3 impl).filter (fun x => x.Elected) = [rev] := by
  unfold Publisher.ElectRevision at h
  simp only at h
  by_cases hctx : r.Elected st impl = none ∨ impl.UpdatePolicy = UpdatePolicyAuto
  · rw [if_pos hctx] at h
    cases ht : r.electionTarget L st impl with
    | mk v st1 =>
    rw [ht] at h
    cases v with
    | error e => simp at h
    | ok latest =>
      simp only at h
      obtain ⟨hwf1, hel1, hlat, hres⟩ := electionTarget_ok ht hwf hlab hctx
      -- the recall
      have hrecall : ∃ st2 : Store, st2.patchRevision latest latest.Elect = ⟨.ok rev, st3⟩ ∧
          st2.WellFormed ∧
          (∀ y ∈ st2.Revisions, y.key = latest.key → y.isOf impl) ∧
          (∀ y ∈ st2.Revisions, y.Elected = true → y.isOf impl → False) := by
        cases hE : r.Elected st impl with
        | none =>
          rw [hE] at h
          simp only at h
          refine ⟨st1, h, hwf1, hres, ?_⟩
          intro y hy hye hyo
          have hyst := (hel1 y hye).1 hy
          have := Elected_none hE y ((mem_List_iff r st impl y).2 ⟨hyst, hyo⟩)
          rw [hye] at this
          exact Bool.noConfusion this
        | some el =>
          rw [hE] at h
          simp only at h
          obtain ⟨helm, hele⟩ := Elected_some hE
          cases hp : st1.patchRevision el el.Recall with
          | mk v2 st2 =>
          rw [hp] at h
          cases v2 with
          | error e => simp at h
          | ok o =>
            simp only at h
            obtain ⟨_, _, _, _, hmap, _⟩ := patchRevision_ok hp
            refine ⟨st2, h, patchRevision_wellFormed hp hwf1, ?_, ?_⟩
            · intro y hy hk
              rw [hmap] at hy
              obtain ⟨y1, hy1, hyy⟩ := List.mem_map.1 hy
              have hk1 : y1.key = latest.key := by
                rw [← hk, ← hyy]; split <;> rfl
              have := hres y1 hy1 hk1
              rw [← hyy]
              split
              · exact this
              · exact this
            · intro y hy hye hyo
              rw [hmap] at hy
              obtain ⟨y1, hy1, hyy⟩ := List.mem_map.1 hy
              by_cases hkey : y1.hasKey el.Recall.Namespace el.Recall.Name = true
              · rw [if_pos hkey] at hyy
                rw [← hyy, Revision.Elected, applyMergeFrom_recall el y1 hele] at hye
                exact Bool.noConfusion hye
              · rw [if_neg hkey] at hyy
                subst hyy
                have hyst := (hel1 y1 hye).1 hy1
                have hyl : y1 ∈ (r.List st impl).filter (fun x => x.Elected) :=
                  List.mem_filter.2 ⟨(mem_List_iff r st impl y1).2 ⟨hyst, hyo⟩, hye⟩
                have hell : el ∈ (r.List st impl).filter (fun x => x.Elected) :=
                  List.mem_filter.2 ⟨helm, hele⟩
                have : y1 = el := eq_of_length_le_one hone hyl hell
                apply hkey
                rw [this]
                exact hasKey_self el
      obtain ⟨st2, hpatch, hwf2, hres2, hnoel⟩ := hrecall
      obtain ⟨stored, hsm, hsk, hout, hmap, _⟩ := patchRevision_ok hpatch
      have hwf3 := patchRevision_wellFormed hpatch hwf2
      apply eq_singleton_of_nodup
      · exact (nodup_of_nodup_keys
          (List.Nodup.sublist ((List_sublist r st3 impl).map _) hwf3)).filter _
      · intro y
        rw [List.mem_filter, mem_List_iff]
        constructor
        · rintro ⟨⟨hy, hyo⟩, hye⟩
          rw [hmap] at hy
          obtain ⟨y2, hy2, hyy⟩ := List.mem_map.1 hy
          by_cases hkey : y2.hasKey latest.Elect.Namespace latest.Elect.Name = true
          · have : y2 = stored :=
              eq_of_key_eq hwf2 hy2 hsm (((hasKey_key y2 latest.Elect).1 hkey).trans hsk.symm)
            rw [if_pos hkey, this] at hyy
            rw [← hyy, hout]
          · rw [if_neg hkey] at hyy
            subst hyy
            exact (hnoel y2 hy2 (by simpa using hye) hyo).elim
        · intro hy
          rw [hy]
          have hmem : rev ∈ st3.Revisions := by
            rw [hmap, hout]
            refine List.mem_map.2 ⟨stored, hsm, ?_⟩
            rw [if_pos ((hasKey_key stored latest.Elect).2 hsk)]
          refine ⟨⟨hmem, ?_⟩, ?_⟩
          · rw [hout]
            exact hres2 stored hsm hsk
          · rw [hout]
            simpa [Revision.Elected] using applyMergeFrom_elect latest stored hlat
  · rw [if_neg hctx] at h
    cases hE : r.Elected st impl with
    | none => exact absurd (Or.inl hE) hctx
    | some el =>
      rw [hE] at h
      simp only [Res.mk.injEq, Except.ok.injEq] at h
      obtain ⟨h1, h2⟩ := h
      subst h1 h2
      obtain ⟨helm, hele⟩ := Elected_some hE
      have hell : el ∈ (r.List st impl).filter (fun x => x.Elected) :=
        List.mem_filter.2 ⟨helm, hele⟩
      exact eq_singleton_of_length_le_one hone hell

/-- C3, counterexample. The store holds one revision, not elected, under the name `Create`
derives for the referrer but without the referrer's label, so none of the referrer's revisions
is elected.  `ElectRevision` finds no revision of the referrer, creates one, collides with the
stored one, elects it and returns it: it succeeds, yet none of the referrer's revisions (those
`List` selects) is elected afterwards. -/
theorem ElectRevision_elects_unlabelled :
    exampleStoreUnlabelled.WellFormed ∧
    ((Publisher.List { patches := [] } exampleStoreUnlabelled
        (exampleReferrer 1 UpdatePolicyIgnore)).filter (fun x => x.Elected)).length ≤ 1 ∧
    (Publisher.ElectRevision Ref.lib { patches := [] } exampleStoreUnlabelled
        (exampleReferrer 1 UpdatePolicyIgnore)).val
      = .ok { (exampleSnapshot 1).Elect with Labels := [] } ∧
    (Publisher.List { patches := [] }
        (Publisher.ElectRevision Ref.lib { patches := [] } exampleStoreUnlabelled
          (exampleReferrer 1 UpdatePolicyIgnore)).store
        (exampleReferrer 1 UpdatePolicyIgnore)).filter (fun x => x.Elected) = [] := by
  refine ⟨?_, ?_, ?_, ?_⟩
  · unfold Store.WellFormed; decide
  · decide
  · decide
  · decide

/-- C3, amended. On a store that holds at most one revision under a namespace and name, in
which at most one of the referrer's revisions is elected and every revision bearing, in the
referrer's namespace, a name that `Create` derives for the referrer carries the referrer's
label, a successful `ElectRevision` leaves exactly one of the referrer's revisions elected,
and that revision is the one it returns. -/
theorem ElectRevision_elects_exactly_one (L : Lib) (r : Publisher) (st : Store)
    (impl : Referrer) (rev : Revision) (hwf : st.WellFormed) (hlab : st.NamesLabelled r impl)
    (hone : ((r.List st impl).filter (fun x => x.Elected)).length ≤ 1)
    (h : (r.ElectRevision L st impl).val = .ok rev) :
    (r.List (r.ElectRevision L st impl).store impl).filter (fun x => x.Elected) = [rev] := by
  generalize hres : r.ElectRevision L st impl = res at h
  obtain ⟨v, st3⟩ := res
  simp only at h
  subst h
  exact ElectRevision_elects_one hwf hlab hone hres

theorem ElectRevision_elects_exactly_one_witness :
    (Publisher.List { patches := [] }
        (Publisher.ElectRevision Ref.lib { patches := [] } exampleStoreReverted
          (exampleReferrer 1 UpdatePolicyIgnore)).store
        (exampleReferrer 1 UpdatePolicyIgnore)).filter (fun x => x.Elected)
      = [exampleRevision "nb-y" 2 true] :=
  ElectRevision_elects_exactly_one Ref.lib { patches := [] } exampleStoreReverted
    (exampleReferrer 1 UpdatePolicyIgnore) (exampleRevision "nb-y" 2 true)
    (by unfold Store.WellFormed; decide)
    (by
      intro x hx data hk
      simp only [exampleStoreReverted, List.mem_cons, List.mem_singleton, List.not_mem_nil,
        or_false] at hx
      rcases hx with rfl | rfl <;> exact ⟨by decide, by decide⟩)
    (by decide) (by decide)

theorem Create_merges_in_order_witness :
    ∃ (template : Template) (required elected : List PodDefault) (spec : PodTemplateSpec),
      exampleStoreOverlays.getTemplate exampleElector.TemplateRef = .ok template ∧
      List.Forall₂
        (fun ref pd => exampleStoreOverlays.getPodDefault template.Namespace ref.Name = .ok pd)
        template.Required required ∧
      List.Forall₂
        (fun ref pd => exampleStoreOverlays.getPodDefault template.Namespace ref.Name = .ok pd)
        exampleElector.ElectedOptions elected ∧
      mergeSuccessively Ref.lib template.PodTemplateSpec
        (required.map (fun pd => pd.PodTemplateSpec) ++
          elected.map (fun pd => pd.PodTemplateSpec) ++ [RestartPatch]) = .ok spec ∧
      Ref.lib.MarshalIndent spec = .ok exampleOverlaidSnapshot.GetData :=
  Create_merges_in_order Ref.lib { patches := [RestartPatch] } exampleStoreOverlays
    { exampleStoreOverlays with Revisions := [exampleOverlaidSnapshot] } exampleElector
    exampleOverlaidSnapshot (by decide)

/-! ## The execution engine -/

theorem createRevision_frame (st : Store) (rev : Revision) :
    st.Frame (st.createRevision rev).store := by
  unfold Store.createRevision
  split
  · exact Frame.refl st
  · exact ⟨rfl, rfl, rfl, rfl, rfl, rfl⟩

theorem publish_frame (r : Publisher) (st : Store) (impl : Referrer) (template : Template)
    (deps : Dependencies) (rev : Revision) :
    st.Frame (r.publish st impl template deps rev).store := by
  unfold Publisher.publish
  have hc := createRevision_frame st rev
  generalize st.createRevision rev = res at hc
  obtain ⟨v, st1⟩ := res
  simp only at hc
  have key : ∀ (rev1 : Revision),
      st.Frame (match copyDependencies template.Namespace rev1 st1 deps with
        | ⟨.error e, st2⟩ => (⟨.error e, st2⟩ : Res Revision)
        | ⟨.ok _, st2⟩ =>
          match r.TrimRevisions st2 impl with
          | ⟨.error e, st3⟩ => ⟨.error e, st3⟩
          | ⟨.ok _, st3⟩ => ⟨.ok rev1, st3⟩).store := by
    intro rev1
    have hd := (copyDependencies_revisions template.Namespace rev1 deps st1).2
    generalize copyDependencies template.Namespace rev1 st1 deps = res2 at hd
    obtain ⟨v2, st2⟩ := res2
    simp only at hd
    cases v2 with
    | error e => exact Frame.trans hc hd
    | ok u =>
      simp only
      have ht := TrimRevisions_frame r st2 impl
      generalize r.TrimRevisions st2 impl = res3 at ht
      obtain ⟨v3, st3⟩ := res3
      cases v3 with
      | error e => exact Frame.trans hc (Frame.trans hd ht)
      | ok u3 => exact Frame.trans hc (Frame.trans hd ht)
  cases v with
  | ok stored => exact key stored
  | error e =>
    cases e <;> first
      | exact key rev
      | exact hc

theorem Create_frame (L : Lib) (r : Publisher) (st : Store) (impl : Referrer) :
    st.Frame (r.Create L st impl).store := by
  unfold Publisher.Create
  cases r.resolve L st impl with
  | error e => exact Frame.refl st
  | ok v =>
    obtain ⟨template, spec, deps⟩ := v
    simp only
    cases L.MarshalIndent spec with
    | error e => exact Frame.refl st
    | ok data => exact publish_frame r st impl template deps _

theorem getElem?_append_some {α : Type} {l : List α} (l2 : List α) {j : Nat} {a : α}
    (h : l[j]? = some a) : (l ++ l2)[j]? = some a := by
  have hj : j < l.length := by
    by_contra hc
    rw [List.getElem?_eq_none (not_lt.1 hc)] at h
    exact Option.noConfusion h
  rw [List.getElem?_append_left hj]
  exact h

theorem take_append_of_getElem? {α : Type} {l : List α} (l2 : List α) {j : Nat} {a : α}
    (h : l[j]? = some a) : (l ++ l2).take j = l.take j := by
  have hj : j < l.length := by
    by_contra hc
    rw [List.getElem?_eq_none (not_lt.1 hc)] at h
    exact Option.noConfusion h
  exact List.take_append_of_le_length (Nat.le_of_lt hj)

theorem Observed.append {jobs : List batchv1.Job} {run : String} {evs : List Event}
    {dep : String} (h : Observed jobs run evs dep) (more : List Event) :
    Observed jobs run (evs ++ more) dep := by
  obtain ⟨j, djob, hj, hz, hn, hm⟩ := h
  exact ⟨j, djob, getElem?_append_some more hj, hz, hn,
    by rw [take_append_of_getElem? more hj]; exact hm⟩

theorem DependenciesFirst.append_observed {jobs : List batchv1.Job} {run : String}
    {evs : List Event} (h : DependenciesFirst jobs run evs) (name : String)
    (job : batchv1.Job) :
    DependenciesFirst jobs run (evs ++ [Event.observedComplete name job]) := by
  intro i task cjob hi dep hdep
  by_cases hlt : i < evs.length
  · rw [List.getElem?_append_left hlt] at hi
    obtain ⟨j, hji, djob, hj, hz, hn, hm⟩ := h i task cjob hi dep hdep
    exact ⟨j, hji, djob, getElem?_append_some _ hj, hz, hn,
      by rw [take_append_of_getElem? _ hj]; exact hm⟩
  · rw [List.getElem?_append_right (not_lt.1 hlt)] at hi
    cases hk : i - evs.length with
    | zero => rw [hk] at hi; simp at hi
    | succ n => rw [hk] at hi; simp at hi

theorem DependenciesFirst.append_created {jobs : List batchv1.Job} {run : String}
    {evs : List Event} (h : DependenciesFirst jobs run evs) (task : DagTask)
    (job : batchv1.Job) (hobs : ∀ dep ∈ task.Dependencies, Observed jobs run evs dep) :
    DependenciesFirst jobs run (evs ++ [Event.created task job]) := by
  intro i t cjob hi dep hdep
  by_cases hlt : i < evs.length
  · rw [List.getElem?_append_left hlt] at hi
    obtain ⟨j, hji, djob, hj, hz, hn, hm⟩ := h i t cjob hi dep hdep
    exact ⟨j, hji, djob, getElem?_append_some _ hj, hz, hn,
      by rw [take_append_of_getElem? _ hj]; exact hm⟩
  · rw [List.getElem?_append_right (not_lt.1 hlt)] at hi
    cases hk : i - evs.length with
    | succ n => rw [hk] at hi; simp at hi
    | zero =>
      rw [hk] at hi
      simp only [List.getElem?_cons_zero, Option.some.injEq, Event.created.injEq] at hi
      obtain ⟨ht, _⟩ := hi
      subst ht
      obtain ⟨j, djob, hj, hz, hn, hm⟩ := hobs dep hdep
      have hjl : j < evs.length := by
        by_contra hc
        rw [List.getElem?_eq_none (not_lt.1 hc)] at hj
        exact Option.noConfusion hj
      exact ⟨j, by omega, djob, getElem?_append_some _ hj, hz, hn,
        by rw [take_append_of_getElem? _ hj]; exact hm⟩

theorem createdJobs_append (a b : List Event) :
    createdJobs (a ++ b) = createdJobs a ++ createdJobs b := by
  simp [createdJobs, List.filterMap_append]

theorem getJob_ok {st : Store} {ns name : String} {job : batchv1.Job}
    (h : st.getJob ns name = .ok job) :
    job ∈ st.Jobs ∧ job.Namespace = ns ∧ job.Name = name := by
  unfold Store.getJob at h
  split at h
  · simp at h
  · cases hf : st.Jobs.find? (fun j => j.hasKey ns name) with
    | none => rw [hf] at h; simp at h
    | some j =>
      rw [hf] at h
      simp only [Except.ok.injEq] at h
      subst h
      have hk := List.find?_some hf
      simp only [batchv1.Job.hasKey, Bool.and_eq_true, beq_iff_eq] at hk
      exact ⟨List.mem_of_find?_eq_some hf, hk.1, hk.2⟩

theorem getJob_error {st : Store} {ns name : String} {e : Err} (hname : name ≠ "")
    (h : st.getJob ns name = .error e) :
    st.Jobs.any (fun j => j.hasKey ns name) = false := by
  unfold Store.getJob at h
  rw [if_neg hname] at h
  cases hf : st.Jobs.find? (fun j => j.hasKey ns name) with
  | some j => rw [hf] at h; simp at h
  | none =>
    rw [Bool.eq_false_iff]
    intro hany
    obtain ⟨x, hx, hk⟩ := List.any_eq_true.1 hany
    exact absurd hk (by simpa using List.find?_eq_none.1 hf x hx)

theorem jobName_ne_empty (run task : String) : run ++ "-" ++ task ≠ "" := by
  intro h
  have := congrArg String.length h
  simp only [String.length_append] at this
  have h1 : ("-" : String).length = 1 := by decide
  have h2 : ("" : String).length = 0 := by decide
  omega

/-- What `createTask` does, on every outcome. -/
theorem createTask_cases (L : Lib) (execution : Execution) (st : Store) (current : DagTask) :
    (createTask L execution st current).store.Executions = st.Executions ∧
    (createTask L execution st current).store.Dags = st.Dags ∧
    ((∃ e, (createTask L execution st current).val = .error e ∧
        (createTask L execution st current).store.Jobs = st.Jobs) ∨
     (∃ spec, (createTask L execution st current).val = .ok (newJob execution current spec) ∧
        (createTask L execution st current).store.Jobs =
          st.Jobs ++ [newJob execution current spec])) := by
  unfold createTask
  simp only
  have hf := Create_frame L { patches := taskPatches current } st
    (NamespacedTask.asReferrer { Namespace := execution.Namespace, DagTask := current })
  generalize Publisher.Create L { patches := taskPatches current } st
    (NamespacedTask.asReferrer { Namespace := execution.Namespace, DagTask := current })
    = res at hf
  obtain ⟨v, st1⟩ := res
  obtain ⟨_, hE, hD, _, _, hJ⟩ := hf
  simp only at hE hD hJ
  cases v with
  | error e => exact ⟨hE, hD, Or.inl ⟨e, rfl, hJ⟩⟩
  | ok rev =>
    simp only
    cases L.Unmarshal rev.GetData with
    | error e => exact ⟨hE, hD, Or.inl ⟨e, rfl, hJ⟩⟩
    | ok spec =>
      simp only
      unfold Store.createJob
      split
      · exact ⟨hE, hD, Or.inl ⟨_, rfl, hJ⟩⟩
      · exact ⟨hE, hD, Or.inr ⟨spec, rfl, by simp [hJ]⟩⟩

theorem updateExecutionStatus_frame (st : Store) (e : Execution) :
    (st.updateExecutionStatus e).store.Jobs = st.Jobs ∧
    (st.updateExecutionStatus e).store.Revisions = st.Revisions ∧
    (st.updateExecutionStatus e).store.Dags = st.Dags ∧
    (st.updateExecutionStatus e).store.Executions.map (fun x => (x.Namespace, x.Name)) =
      st.Executions.map (fun x => (x.Namespace, x.Name)) := by
  unfold Store.updateExecutionStatus
  split
  · refine ⟨rfl, rfl, rfl, ?_⟩
    simp only [List.map_map]
    apply List.map_congr_left
    intro x _
    simp only [Function.comp]
    split <;> rfl
  · exact ⟨rfl, rfl, rfl, rfl⟩

theorem recordTask_inv {st : Store} {e : Execution} {s : LoopState} (stack : Stack)
    (current : DagTask) (task : batchv1.Job) (st1 : Store) (evs : List Event)
    (hE : st1.Executions = st.Executions) (hD : st1.Dags = st.Dags)
    (hname : s.execution.Name = e.Name) (hns : s.execution.Namespace = e.Namespace)
    (hJ : st1.Jobs = st.Jobs ++ createdJobs evs)
    (hord : DependenciesFirst st.Jobs e.Name evs)
    (hobs : ∀ dep ∈ s.completed, Observed st.Jobs e.Name evs dep)
    (htask : task.Name = e.Name ++ "-" ++ current.Name) (hmem : task ∈ st1.Jobs) :
    OutcomeInv st e (recordTask s stack current task st1 evs) := by
  unfold recordTask
  simp only
  by_cases hz : IsZero task.Status.CompletionTime = true
  · -- not complete: nothing observed
    simp only [hz, if_true]
    split
    · refine ⟨?_, ?_, hord⟩
      · rw [(updateExecutionStatus_frame _ _).2.2.2, hE]
      · rw [(updateExecutionStatus_frame _ _).1, hJ]
    · exact ⟨hE, hD, hname, hns, hJ, hord, hobs⟩
  · have hz' : IsZero task.Status.CompletionTime = false := by simpa using hz
    simp only [hz', Bool.false_eq_true, if_false]
    have hord' := hord.append_observed current.Name task
    have hJ' : st1.Jobs = st.Jobs ++
        createdJobs (evs ++ [Event.observedComplete current.Name task]) := by
      rw [createdJobs_append, hJ]
      simp [createdJobs]
    have hnew : Observed st.Jobs e.Name (evs ++ [Event.observedComplete current.Name task])
        current.Name :=
      ⟨evs.length, task, by simp, hz', htask, by rw [List.take_left' rfl, ← hJ]; exact hmem⟩
    split
    · refine ⟨?_, ?_, hord'⟩
      · rw [(updateExecutionStatus_frame _ _).2.2.2, hE]
      · rw [(updateExecutionStatus_frame _ _).1, hJ']
    · refine ⟨hE, hD, hname, hns, hJ', hord', ?_⟩
      intro dep hdep
      simp only at hdep
      split at hdep
      · exact (hobs dep hdep).append _
      · rcases List.mem_append.1 hdep with h1 | h1
        · exact (hobs dep h1).append _
        · rw [List.mem_singleton.1 h1]; exact hnew

theorem iterate_inv (L : Lib) (tasks : List (String × DagTask)) {st : Store} {e : Execution}
    {s : LoopState} (h : PassInv st e s) : OutcomeInv st e (iterate L tasks s) := by
  unfold iterate
  simp only
  split
  · exact ⟨h.executions, h.dags, h.name, h.ns, h.jobs, h.ordered, h.observed⟩
  · rename_i hready
    have hready' : ∀ dep ∈ (s.stack.Pop).1.Dependencies,
        Observed st.Jobs e.Name s.trace dep := by
      intro dep hdep
      apply h.observed
      simp only [Bool.not_eq_true', Bool.not_eq_false, List.all_eq_true] at hready
      simpa using hready dep hdep
    cases hg : s.store.getJob s.execution.Namespace
        (s.execution.Name ++ "-" ++ (s.stack.Pop).1.Name) with
    | ok task =>
      simp only
      exact recordTask_inv _ _ task s.store s.trace h.executions h.dags h.name h.ns h.jobs
        h.ordered h.observed (by rw [(getJob_ok hg).2.2, h.name]) (getJob_ok hg).1
    | error err =>
      simp only
      obtain ⟨hE, hD, hcase⟩ := createTask_cases L s.execution s.store (s.stack.Pop).1
      generalize createTask L s.execution s.store (s.stack.Pop).1 = res at hE hD hcase
      obtain ⟨v, st1⟩ := res
      simp only at hE hD hcase
      rcases hcase with ⟨e1, hv, hJ⟩ | ⟨spec, hv, hJ⟩
      · subst hv
        simp only
        refine ⟨?_, ?_, h.ordered⟩
        · simp only; rw [hE, h.executions]
        · simp only; rw [hJ, h.jobs]
      · subst hv
        simp only
        apply recordTask_inv
        · rw [hE, h.executions]
        · rw [hD, h.dags]
        · exact h.name
        · exact h.ns
        · rw [hJ, h.jobs, createdJobs_append]
          simp [createdJobs]
        · exact h.ordered.append_created _ _ hready'
        · intro dep hdep
          exact (h.observed dep hdep).append _
        · simp [newJob, h.name]
        · rw [hJ]; simp

theorem Steps_inv {L : Lib} {tasks : List (String × DagTask)} {st : Store} {e : Execution}
    {s0 s : LoopState} (h0 : PassInv st e s0) (h : Steps L tasks s0 s) : PassInv st e s := by
  induction h with
  | refl => exact h0
  | step _ _ hit ih =>
    have := iterate_inv L tasks ih
    rw [hit] at this
    exact this

theorem aggregate_inv {st : Store} {e : Execution} {s : LoopState} (h : PassInv st e s) :
    ReturnedInv st e (aggregate s) := by
  unfold aggregate
  simp only
  split
  · refine ⟨?_, ?_, h.ordered⟩
    · rw [(updateExecutionStatus_frame _ _).2.2.2, h.executions]
    · rw [(updateExecutionStatus_frame _ _).1, h.jobs]
  · refine ⟨?_, ?_, h.ordered⟩
    · rw [(updateExecutionStatus_frame _ _).2.2.2, h.executions]
    · rw [(updateExecutionStatus_frame _ _).1, h.jobs]

theorem traverse_inv (L : Lib) (tasks : List (String × DagTask)) {st : Store} {e : Execution} :
    ∀ (fuel : Nat) (s : LoopState) (out : Returned), PassInv st e s →
      traverse L tasks fuel s = some out → ReturnedInv st e out
  | 0, s, out, h, ht => by
    unfold traverse at ht
    split at ht
    · simp only [Option.some.injEq] at ht
      rw [← ht]; exact aggregate_inv h
    · exact Option.noConfusion ht
  | fuel + 1, s, out, h, ht => by
    unfold traverse at ht
    split at ht
    · simp only [Option.some.injEq] at ht
      rw [← ht]; exact aggregate_inv h
    · have hi := iterate_inv L tasks h
      cases hit : iterate L tasks s with
      | next s1 =>
        rw [hit] at ht hi
        exact traverse_inv L tasks fuel s1 out hi ht
      | done r =>
        rw [hit] at ht hi
        simp only [Option.some.injEq] at ht
        rw [← ht]; exact hi

theorem initialState_inv (st : Store) (e : Execution) (dag : Dag) :
    PassInv st e (initialState st e dag) :=
  ⟨rfl, rfl, rfl, rfl, by simp [initialState, createdJobs],
   fun i _ _ hi => by simp [initialState] at hi,
   fun dep hdep => by simp [initialState] at hdep⟩

theorem Spinning_step (L : Lib) (s : LoopState) (h : Spinning s) :
    s.stack.Empty = false ∧ ∃ s1, iterate L exampleDag.TaskMap s = .next s1 ∧ Spinning s1 := by
  obtain ⟨store, execution, stack, completed, evs⟩ := s
  obtain ⟨tasks, maxSize⟩ := stack
  obtain ⟨hJ, hname, hns, hc, hmax, hstack⟩ := h
  simp only at hJ hname hns hc hmax hstack
  subst hc hmax
  rcases hstack with hst | hst
  · subst hst
    refine ⟨rfl, ?_⟩
    refine ⟨{ store := store, execution := execution,
              stack := { tasks := [exampleT1, exampleT2], maxSize := 20 },
              completed := [], trace := evs }, ?_, ?_⟩
    · unfold iterate
      simp only [Stack.Pop, List.getLast?, List.getLast, List.dropLast]
      rfl
    · exact ⟨hJ, hname, hns, rfl, rfl, Or.inr rfl⟩
  · subst hst
    refine ⟨rfl, ?_⟩
    have hget : store.getJob execution.Namespace (execution.Name ++ "-" ++ "t2")
        = .ok examplePendingJob := by
      rw [hname, hns]
      unfold Store.getJob
      rw [hJ]
      decide
    refine ⟨{ store := store,
              execution := execution.SetTaskStatus "t2"
                { Conditions := [], Completed := false, Succeeded := false },
              stack := { tasks := [exampleT1], maxSize := 20 },
              completed := [], trace := evs }, ?_, ?_⟩
    · unfold iterate
      simp only [Stack.Pop, List.getLast?, List.getLast, List.dropLast]
      have : (exampleT2.Dependencies.all fun dep => ([] : List String).contains dep) = true := by
        decide
      simp only [this, Bool.not_true, Bool.false_eq_true, if_false]
      have hn : exampleT2.Name = "t2" := rfl
      rw [hn, hget]
      simp only
      unfold recordTask
      simp only
      rfl
    · exact ⟨hJ, hname, hns, rfl, rfl, Or.inl rfl⟩

theorem Spinning_diverges (L : Lib) :
    ∀ (fuel : Nat) (s : LoopState), Spinning s → traverse L exampleDag.TaskMap fuel s = none
  | 0, s, h => by
    unfold traverse
    rw [(Spinning_step L s h).1]
    rfl
  | fuel + 1, s, h => by
    obtain ⟨hne, s1, hit, hs1⟩ := Spinning_step L s h
    unfold traverse
    rw [hne, hit]
    exact Spinning_diverges L fuel s1 hs1

/-- C2, on the failing input. The graph is `t1` with the dependency `t2`; the store holds the
run, the graph, and the job of `t2`, which is not complete.  Whatever the library and however
many iterations the traversal loop is given, the pass has not returned: the loop pops `t1`,
pushes it back with `t2`, pops `t2`, reads its job, finds it incomplete, and starts over. -/
theorem Reconcile_diverges_on_pending_dependency (L : Lib) (fuel : Nat) :
    Reconcile L fuel exampleStorePending { Namespace := "ns", Name := "run" } = none := by
  have h : Reconcile L fuel exampleStorePending { Namespace := "ns", Name := "run" } =
      traverse L exampleDag.TaskMap fuel
        (initialState exampleStorePending exampleRun exampleDag) := by
    unfold Reconcile
    rfl
  rw [h]
  apply Spinning_diverges
  refine ⟨rfl, rfl, rfl, rfl, rfl, Or.inl ?_⟩
  decide

theorem getExecution_ok {st : Store} {req : NamespacedName} {e : Execution}
    (h : st.getExecution req = .ok e) :
    req.Name ≠ "" ∧ e ∈ st.Executions ∧ e.Namespace = req.Namespace ∧ e.Name = req.Name := by
  unfold Store.getExecution at h
  split at h
  · simp at h
  · rename_i hne
    cases hf : st.Executions.find?
        (fun e => e.Namespace == req.Namespace && e.Name == req.Name) with
    | none => rw [hf] at h; simp at h
    | some x =>
      rw [hf] at h
      simp only [Except.ok.injEq] at h
      subst h
      have hk := List.find?_some hf
      simp only [Bool.and_eq_true, beq_iff_eq] at hk
      exact ⟨hne, List.mem_of_find?_eq_some hf, hk.1, hk.2⟩

theorem getExecution_congr {st st1 : Store} (h : st1.Executions = st.Executions)
    (req : NamespacedName) : st1.getExecution req = st.getExecution req := by
  unfold Store.getExecution
  rw [h]

theorem find?_map_key (l : List Execution) (ns name : String) (status : ExecutionStatus) :
    (l.map (fun x => if x.Namespace == ns && x.Name == name then { x with Status := status }
        else x)).find? (fun e => e.Namespace == ns && e.Name == name) =
      (l.find? (fun e => e.Namespace == ns && e.Name == name)).map
        (fun x => { x with Status := status }) := by
  induction l with
  | nil => rfl
  | cons a rest ih =>
    by_cases hk : (a.Namespace == ns && a.Name == name) = true
    · simp only [List.map_cons, hk, if_true, List.find?_cons, Option.map_some']
    · simp only [List.map_cons, hk, if_false, List.find?_cons, Bool.false_eq_true]
      exact ih

/-- A status update of a stored run succeeds, and the run is read back with the new status. -/
theorem updateExecutionStatus_get {st : Store} {req : NamespacedName} {e0 : Execution}
    (h : st.getExecution req = .ok e0) (x : Execution) (hns : x.Namespace = req.Namespace)
    (hname : x.Name = req.Name) :
    (st.updateExecutionStatus x).val = .ok () ∧
    (st.updateExecutionStatus x).store.getExecution req =
      .ok { e0 with Status := x.Status } := by
  obtain ⟨hne, hmem, h1, h2⟩ := getExecution_ok h
  have hany : st.Executions.any (fun y => y.Namespace == x.Namespace && y.Name == x.Name)
      = true := by
    rw [List.any_eq_true]
    exact ⟨e0, hmem, by simp [h1, h2, hns, hname]⟩
  unfold Store.updateExecutionStatus
  rw [if_pos hany]
  refine ⟨rfl, ?_⟩
  unfold Store.getExecution at h ⊢
  rw [if_neg hne] at h ⊢
  simp only
  rw [hns, hname, find?_map_key]
  cases hf : st.Executions.find?
      (fun e => e.Namespace == req.Namespace && e.Name == req.Name) with
  | none => rw [hf] at h; simp at h
  | some y =>
    rw [hf] at h
    simp only [Except.ok.injEq] at h
    subst h
    rfl

theorem foldl_and_all {α : Type} (p : α → Bool) (l : List α) :
    ∀ acc : Bool, l.foldl (fun acc kv => acc && p kv) acc = (acc && l.all p) := by
  induction l with
  | nil => intro acc; simp
  | cons a rest ih =>
    intro acc
    simp only [List.foldl_cons, List.all_cons, ih]
    cases acc <;> simp

/-- What `aggregate` persists when the run is stored: the recorded task statuses, and as run
flags the conjunctions of the task flags. -/
theorem aggregate_spec {s : LoopState} {req : NamespacedName} {e0 : Execution}
    (h : s.store.getExecution req = .ok e0) (hns : s.execution.Namespace = req.Namespace)
    (hname : s.execution.Name = req.Name) :
    (aggregate s).err = none ∧
    (aggregate s).result.RequeueAfter =
      (if s.execution.Status.Tasks.all (fun kv => kv.2.Completed) then 0 else 10) ∧
    (aggregate s).trace = s.trace ∧
    (aggregate s).store.Jobs = s.store.Jobs ∧
    (aggregate s).store.getExecution req =
      .ok { e0 with Status :=
        { Tasks := s.execution.Status.Tasks
          Completed := s.execution.Status.Tasks.all (fun kv => kv.2.Completed)
          Succeeded := s.execution.Status.Tasks.all (fun kv => kv.2.Succeeded) } } := by
  have hc := foldl_and_all (fun kv : String × ExecutionTaskStatus => kv.2.Completed)
    s.execution.Status.Tasks true
  have hs := foldl_and_all (fun kv : String × ExecutionTaskStatus => kv.2.Succeeded)
    s.execution.Status.Tasks true
  simp only [Bool.true_and] at hc hs
  unfold aggregate
  simp only [hc, hs]
  have hu := updateExecutionStatus_get h
    { s.execution with
      Status := { s.execution.Status with
        Completed := s.execution.Status.Tasks.all (fun kv => kv.2.Completed)
        Succeeded := s.execution.Status.Tasks.all (fun kv => kv.2.Succeeded) } } hns hname
  have hj := (updateExecutionStatus_frame s.store
    { s.execution with
      Status := { s.execution.Status with
        Completed := s.execution.Status.Tasks.all (fun kv => kv.2.Completed)
        Succeeded := s.execution.Status.Tasks.all (fun kv => kv.2.Succeeded) } }).1
  cases hall : s.execution.Status.Tasks.all (fun kv => kv.2.Completed) with
  | true =>
    rw [hall] at hu hj
    simp only [Bool.not_true, Bool.false_eq_true, if_false, if_true]
    exact ⟨by rw [hu.1]; rfl, trivial, trivial, hj, hu.2⟩
  | false =>
    rw [hall] at hu hj
    simp only [Bool.not_false, if_true, Bool.false_eq_true, if_false]
    exact ⟨by rw [hu.1]; rfl, trivial, trivial, hj, hu.2⟩

theorem Steps_traverse {L : Lib} {tasks : List (String × DagTask)} {s0 s : LoopState}
    (h : Steps L tasks s0 s) :
    ∀ (fuel : Nat) (out : Returned), traverse L tasks fuel s = some out →
      ∃ fuel0, traverse L tasks fuel0 s0 = some out := by
  induction h with
  | refl => intro fuel out ht; exact ⟨fuel, ht⟩
  | step _ hne hit ih =>
    intro fuel out ht
    apply ih (fuel + 1) out
    rw [traverse, hne]
    simp only [Bool.false_eq_true, if_false, hit]
    exact ht

theorem traverse_of_empty (L : Lib) (tasks : List (String × DagTask)) (fuel : Nat)
    (s : LoopState) (h : s.stack.Empty = true) :
    traverse L tasks fuel s = some (aggregate s) := by
  cases fuel <;> simp [traverse, h]

theorem Reconcile_eq_traverse (L : Lib) (fuel : Nat) {st : Store} {req : NamespacedName}
    {e : Execution} {dag : Dag} (hget : st.getExecution req = .ok e)
    (hnc : e.Status.Completed = false)
    (hdag : st.getDag { Name := e.Spec.DagRef.Name, Namespace := e.Namespace } = .ok dag) :
    Reconcile L fuel st req = traverse L dag.TaskMap fuel (initialState st e dag) := by
  unfold Reconcile
  rw [hget]
  simp only [hnc, Bool.false_eq_true, if_false, hdag]

theorem singleTask_entrypoint (dag : Dag) (t : DagTask) (h1 : dag.Spec.Tasks = [t])
    (h2 : dag.Spec.Entrypoint = t.Name) : dag.Entrypoint = t := by
  unfold Dag.Entrypoint Dag.TaskMap taskAt
  rw [h1, h2]
  simp [mapSet, List.lookup]

/-- C9. When the traversal has drained the stack without a fast failure, the pass returns
without error and the status it has persisted for the run holds the task statuses recorded in
the pass, as `Completed` flag the conjunction of their `Completed` flags and as `Succeeded` flag
the conjunction of their `Succeeded` flags.  For a graph of a single task without dependencies
whose job has a completion time, a positive succeeded count and no failure, every pass of at
least one iteration returns without error and persists `Completed = true`,
`Succeeded = true`. -/
theorem Reconcile_aggregates_task_flags (L : Lib) (st : Store) (req : NamespacedName)
    (e : Execution) (dag : Dag) (hget : st.getExecution req = .ok e)
    (hnc : e.Status.Completed = false)
    (hdag : st.getDag { Name := e.Spec.DagRef.Name, Namespace := e.Namespace } = .ok dag) :
    (∀ s, Steps L dag.TaskMap (initialState st e dag) s → s.stack.Empty = true →
      (∃ fuel, Reconcile L fuel st req = some (aggregate s)) ∧ (aggregate s).err = none ∧
      ∃ x, (aggregate s).store.getExecution req = .ok x ∧
        x.Status.Tasks = s.execution.Status.Tasks ∧
        x.Status.Completed = s.execution.Status.Tasks.all (fun kv => kv.2.Completed) ∧
        x.Status.Succeeded = s.execution.Status.Tasks.all (fun kv => kv.2.Succeeded)) ∧
    (∀ (t : DagTask) (job : batchv1.Job), dag.Spec.Tasks = [t] → dag.Spec.Entrypoint = t.Name →
      t.Dependencies = [] → st.getJob e.Namespace (e.Name ++ "-" ++ t.Name) = .ok job →
      IsZero job.Status.CompletionTime = false → job.Status.Succeeded > 0 →
      ¬ job.Status.Failed > 0 →
      ∀ fuel, ∃ out, Reconcile L (fuel + 1) st req = some out ∧ out.err = none ∧
        ∃ x, out.store.getExecution req = .ok x ∧
          x.Status.Completed = true ∧ x.Status.Succeeded = true) := by
  obtain ⟨_, _, hens, hename⟩ := getExecution_ok hget
  constructor
  · intro s hs hempty
    have hinv := Steps_inv (initialState_inv st e dag) hs
    have hgs : s.store.getExecution req = .ok e := by
      rw [getExecution_congr hinv.executions]; exact hget
    have hspec := aggregate_spec hgs (hinv.ns.trans hens) (hinv.name.trans hename)
    refine ⟨?_, hspec.1, _, hspec.2.2.2.2, rfl, rfl, rfl⟩
    obtain ⟨fuel0, h0⟩ := Steps_traverse hs 0 (aggregate s)
      (traverse_of_empty L dag.TaskMap 0 s hempty)
    exact ⟨fuel0, by rw [Reconcile_eq_traverse L fuel0 hget hnc hdag]; exact h0⟩
  · intro t job h1 h2 hdeps hjob hz hsucc hfail fuel
    rw [Reconcile_eq_traverse L (fuel + 1) hget hnc hdag]
    have hentry := singleTask_entrypoint dag t h1 h2
    by_cases hmax : e.MaxConcurrentTasks > 0
    · -- the entrypoint is on the stack
      have hstack : (initialState st e dag).stack = { tasks := [t], maxSize := e.MaxConcurrentTasks } := by
        simp [initialState, NewStack, Stack.Push, hentry, hmax]
      obtain ⟨s1, hs1⟩ : ∃ s1 : LoopState, s1 =
          { store := st
            execution := { e with Status := { e.Status with Tasks := [] } }.SetTaskStatus
              t.Name { Conditions := job.Status.Conditions, Completed := true,
                       Succeeded := true }
            stack := { tasks := [], maxSize := e.MaxConcurrentTasks }
            completed := [t.Name]
            trace := [Event.observedComplete t.Name job] } := ⟨_, rfl⟩
      have hit : iterate L dag.TaskMap (initialState st e dag) = .next s1 := by
        unfold iterate
        rw [hstack]
        simp only [Stack.Pop, List.getLast?, List.getLast, List.dropLast, hdeps, List.all_nil,
          Bool.not_true, Bool.false_eq_true, if_false]
        have : (initialState st e dag).store.getJob (initialState st e dag).execution.Namespace
            ((initialState st e dag).execution.Name ++ "-" ++ t.Name) = .ok job := hjob
        rw [this]
        simp only
        unfold recordTask
        simp [hz, hsucc, hfail, initialState, hs1]
      have hne : (initialState st e dag).stack.Empty = false := by
        rw [hstack]; rfl
      have hemp : s1.stack.Empty = true := by rw [hs1]; rfl
      rw [traverse, hne]
      simp only [Bool.false_eq_true, if_false, hit]
      rw [traverse_of_empty L dag.TaskMap fuel s1 hemp]
      have hspec := aggregate_spec (s := s1) (by rw [hs1]; exact hget) (by rw [hs1]; exact hens)
        (by rw [hs1]; exact hename)
      refine ⟨_, rfl, hspec.1, _, hspec.2.2.2.2, ?_, ?_⟩
      · simp [hs1, Execution.SetTaskStatus, mapSet]
      · simp [hs1, Execution.SetTaskStatus, mapSet]
    · have hstack : (initialState st e dag).stack = { tasks := [], maxSize := e.MaxConcurrentTasks } := by
        simp [initialState, NewStack, Stack.Push, hmax]
      have hempty : (initialState st e dag).stack.Empty = true := by rw [hstack]; rfl
      rw [traverse_of_empty _ _ _ _ hempty]
      have hspec := aggregate_spec (s := initialState st e dag) hget hens hename
      refine ⟨_, rfl, hspec.1, _, hspec.2.2.2.2, ?_, ?_⟩
      · simp [initialState]
      · simp [initialState]

theorem createdJobs_observed (evs : List Event) (name : String) (job : batchv1.Job) :
    createdJobs (evs ++ [Event.observedComplete name job]) = createdJobs evs := by
  rw [createdJobs_append]
  simp [createdJobs]

/-- C8. When the traversal reaches a task whose dependencies are complete and whose job is
stored with a failed count above zero, the iteration returns from the pass: without error and
without requeue, with the run persisted as `Completed = true`, `Succeeded = false`, with the
jobs stored as they were (no job is created at or after that point of the pass); and every
later pass over the store so left returns at once, leaving the store as it is. -/
theorem Reconcile_fails_fast (L : Lib) (st : Store) (req : NamespacedName) (e : Execution)
    (dag : Dag) (s : LoopState) (job : batchv1.Job)
    (hget : st.getExecution req = .ok e) (hnc : e.Status.Completed = false)
    (hdag : st.getDag { Name := e.Spec.DagRef.Name, Namespace := e.Namespace } = .ok dag)
    (hs : Steps L dag.TaskMap (initialState st e dag) s) (hne : s.stack.Empty = false)
    (hready : (s.stack.Pop).1.Dependencies.all (fun dep => s.completed.contains dep) = true)
    (hjob : s.store.getJob s.execution.Namespace
      (s.execution.Name ++ "-" ++ (s.stack.Pop).1.Name) = .ok job)
    (hfail : job.Status.Failed > 0) :
    ∃ r, iterate L dag.TaskMap s = .done r ∧ (∃ fuel, Reconcile L fuel st req = some r) ∧
      r.err = none ∧ r.result.RequeueAfter = 0 ∧
      r.store.Jobs = s.store.Jobs ∧ createdJobs r.trace = createdJobs s.trace ∧
      (∃ x, r.store.getExecution req = .ok x ∧
        x.Status.Completed = true ∧ x.Status.Succeeded = false) ∧
      ∀ (L2 : Lib) (fuel : Nat), Reconcile L2 fuel r.store req =
        some { result := { RequeueAfter := 0 }, err := none, store := r.store, trace := [] } := by
  obtain ⟨_, _, hens, hename⟩ := getExecution_ok hget
  have hinv := Steps_inv (initialState_inv st e dag) hs
  have hgs : s.store.getExecution req = .ok e := by
    rw [getExecution_congr hinv.executions]; exact hget
  -- the run as the iteration persists it
  obtain ⟨failed, hfdef⟩ : ∃ failed : Execution, failed =
      { (s.execution.SetTaskStatus (s.stack.Pop).1.Name
          { Conditions := job.Status.Conditions
            Completed := !IsZero job.Status.CompletionTime
            Succeeded := decide (job.Status.Succeeded > 0) }) with
        Status := { (s.execution.SetTaskStatus (s.stack.Pop).1.Name
            { Conditions := job.Status.Conditions
              Completed := !IsZero job.Status.CompletionTime
              Succeeded := decide (job.Status.Succeeded > 0) }).Status with
          Completed := true, Succeeded := false } } := ⟨_, rfl⟩
  have hfns : failed.Namespace = req.Namespace := by
    rw [hfdef]; exact hinv.ns.trans hens
  have hfname : failed.Name = req.Name := by
    rw [hfdef]; exact hinv.name.trans hename
  have hu := updateExecutionStatus_get hgs failed hfns hfname
  have hfr := updateExecutionStatus_frame s.store failed
  obtain ⟨r, hr⟩ : ∃ r : Returned, r =
      { result := { RequeueAfter := 0 }, err := errOf (s.store.updateExecutionStatus failed).val,
        store := (s.store.updateExecutionStatus failed).store,
        trace := if IsZero job.Status.CompletionTime then s.trace
          else s.trace ++ [Event.observedComplete (s.stack.Pop).1.Name job] } := ⟨_, rfl⟩
  have hit : iterate L dag.TaskMap s = .done r := by
    unfold iterate
    simp only [hready, Bool.not_true, Bool.false_eq_true, if_false, hjob]
    unfold recordTask
    simp only [hfail, if_true]
    rw [hr, hfdef]
  have hgr : r.store.getExecution req = .ok { e with Status := failed.Status } := by
    rw [hr]; exact hu.2
  refine ⟨r, hit, ?_, ?_, ?_, ?_, ?_, ⟨_, hgr, ?_, ?_⟩, ?_⟩
  · have ht : traverse L dag.TaskMap 1 s = some r := by
      rw [traverse, hne]
      simp only [Bool.false_eq_true, if_false, hit]
    obtain ⟨fuel0, h0⟩ := Steps_traverse hs 1 r ht
    exact ⟨fuel0, by rw [Reconcile_eq_traverse L fuel0 hget hnc hdag]; exact h0⟩
  · rw [hr]; simp only; rw [hu.1]; rfl
  · rw [hr]
  · rw [hr]; exact hfr.1
  · rw [hr]
    simp only
    split
    · rfl
    · exact createdJobs_observed _ _ _
  · rw [hfdef]
  · rw [hfdef]
  · intro L2 fuel
    unfold Reconcile
    rw [hgr]
    simp only
    have : failed.Status.Completed = true := by rw [hfdef]
    rw [this]
    simp

/-- C10. For a task at the top of the stack whose dependencies are complete and whose job is
not stored, when the revision manager resolves the spec of the task into a revision and the
data of the revision is read back as a pod template, the iteration adds exactly one job to the
store: named after the run and the task, in the namespace of the run, owned by the run as
controller, with backoff limit 0 and completions 1, and with that pod template; the data of
the revision is the serialized form of the template's base spec merged with the required
overlays, the task's options, the never-restart patch and, when the task has a command, the
command patch, in this order. -/
theorem Reconcile_creates_job_of_ready_task (L : Lib) (tasks : List (String × DagTask))
    (s : LoopState) (rev : Revision) (st1 : Store) (spec : corev1.PodTemplateSpec)
    (hready : (s.stack.Pop).1.Dependencies.all (fun dep => s.completed.contains dep) = true)
    (hnojob : s.store.getJob s.execution.Namespace
      (s.execution.Name ++ "-" ++ (s.stack.Pop).1.Name) = .error .notFound)
    (hrev : Publisher.Create L { patches := taskPatches (s.stack.Pop).1 } s.store
      (NamespacedTask.asReferrer
        { Namespace := s.execution.Namespace, DagTask := (s.stack.Pop).1 }) = ⟨.ok rev, st1⟩)
    (hspec : L.Unmarshal rev.GetData = .ok spec) :
    (iterate L tasks s).store.Jobs =
      s.store.Jobs ++ [newJob s.execution (s.stack.Pop).1 spec] ∧
    (newJob s.execution (s.stack.Pop).1 spec).Name =
      s.execution.Name ++ "-" ++ (s.stack.Pop).1.Name ∧
    (newJob s.execution (s.stack.Pop).1 spec).Namespace = s.execution.Namespace ∧
    (newJob s.execution (s.stack.Pop).1 spec).OwnerReferences =
      [{ APIVersion := s.execution.APIVersion, Kind := s.execution.Kind,
         Name := s.execution.Name, UID := s.execution.UID, Controller := some true,
         BlockOwnerDeletion := some true }] ∧
    (newJob s.execution (s.stack.Pop).1 spec).Spec =
      { Template := spec, BackoffLimit := some 0, Completions := some 1 } ∧
    taskPatches (s.stack.Pop).1 =
      RestartPatch :: (if (s.stack.Pop).1.Command = [] then []
        else [CommandPatch (s.stack.Pop).1.Command]) ∧
    ∃ (template : Template) (required elected : List PodDefault) (resolved : PodTemplateSpec),
      s.store.getTemplate { Name := (s.stack.Pop).1.Template.Name,
                            Namespace := (s.stack.Pop).1.Template.Namespace } = .ok template ∧
      List.Forall₂ (fun ref pd => s.store.getPodDefault template.Namespace ref.Name = .ok pd)
        template.Required required ∧
      List.Forall₂ (fun ref pd => s.store.getPodDefault template.Namespace ref.Name = .ok pd)
        (s.stack.Pop).1.Options elected ∧
      mergeSuccessively L template.PodTemplateSpec
        (required.map (fun pd => pd.PodTemplateSpec) ++
          elected.map (fun pd => pd.PodTemplateSpec) ++ taskPatches (s.stack.Pop).1)
        = .ok resolved ∧
      L.MarshalIndent resolved = .ok rev.GetData := by
  refine ⟨?_, rfl, rfl, rfl, rfl, ?_, ?_⟩
  · have hfr := Create_frame L { patches := taskPatches (s.stack.Pop).1 } s.store
      (NamespacedTask.asReferrer
        { Namespace := s.execution.Namespace, DagTask := (s.stack.Pop).1 })
    rw [hrev] at hfr
    have hJ : st1.Jobs = s.store.Jobs := hfr.2.2.2.2.2
    have hany := getJob_error (jobName_ne_empty _ _) hnojob
    have hcreate : createTask L s.execution s.store (s.stack.Pop).1 =
        ⟨.ok (newJob s.execution (s.stack.Pop).1 spec),
         { st1 with Jobs := st1.Jobs ++ [newJob s.execution (s.stack.Pop).1 spec] }⟩ := by
      unfold createTask
      simp only [hrev, hspec]
      unfold Store.createJob
      rw [hJ]
      have : (s.store.Jobs.any fun j =>
          j.hasKey (newJob s.execution (s.stack.Pop).1 spec).Namespace
            (newJob s.execution (s.stack.Pop).1 spec).Name) = false := hany
      rw [this]
      simp
    unfold iterate
    simp only [hready, Bool.not_true, Bool.false_eq_true, if_false, hnojob, hcreate]
    unfold recordTask
    simp [newJob, Outcome.store, IsZero, hJ]
  · unfold taskPatches
    cases h : (s.stack.Pop).1.Command with
    | nil => simp
    | cons a rest => simp
  · obtain ⟨template, resolved, deps, hres, hm⟩ := Create_ok_data hrev
    obtain ⟨hg, req, el, hfr, hfe, hms, _, _⟩ := resolve_ok hres
    exact ⟨template, req, el, resolved, hg, hfr, hfe, hms, hm⟩

/-- C1. In every pass of the execution engine over any task graph and any store, at whatever
point it is observed (at the head of an iteration of the traversal, or when the pass returns),
the jobs stored are those the store held before the pass followed by those the pass created,
and every creation of a job for a task comes, for each dependency the task declares, after an
earlier event of the same pass at which the job of that dependency (the job named after the
run and the dependency, stored before the pass or created earlier in it) was seen with a
non-zero completion time.  For the graph in which `t1` depends on `t2` this says that the job
of `t1` is created only after the job of `t2` was created and then seen complete. -/
theorem Reconcile_creates_after_dependencies_complete (L : Lib) (st : Store)
    (req : NamespacedName) :
    (∀ (e : Execution) (dag : Dag) (s : LoopState), st.getExecution req = .ok e →
      st.getDag { Name := e.Spec.DagRef.Name, Namespace := e.Namespace } = .ok dag →
      Steps L dag.TaskMap (initialState st e dag) s →
      s.store.Jobs = st.Jobs ++ createdJobs s.trace ∧
        DependenciesFirst st.Jobs req.Name s.trace) ∧
    (∀ (fuel : Nat) (out : Returned), Reconcile L fuel st req = some out →
      out.store.Jobs = st.Jobs ++ createdJobs out.trace ∧
        DependenciesFirst st.Jobs req.Name out.trace) := by
  have hnil : DependenciesFirst st.Jobs req.Name [] := fun i _ _ hi => by simp at hi
  constructor
  · intro e dag s hget _ hs
    have := Steps_inv (initialState_inv st e dag) hs
    rw [← (getExecution_ok hget).2.2.2]
    exact ⟨this.jobs, this.ordered⟩
  · intro fuel out h
    unfold Reconcile at h
    cases hget : st.getExecution req with
    | error err =>
      rw [hget] at h
      simp only [Option.some.injEq] at h
      subst h
      exact ⟨by simp [createdJobs], hnil⟩
    | ok e =>
      rw [hget] at h
      simp only at h
      split at h
      · simp only [Option.some.injEq] at h
        subst h
        exact ⟨by simp [createdJobs], hnil⟩
      · cases hdag : st.getDag { Name := e.Spec.DagRef.Name, Namespace := e.Namespace } with
        | error err =>
          rw [hdag] at h
          simp only [Option.some.injEq] at h
          subst h
          exact ⟨by simp [createdJobs], hnil⟩
        | ok dag =>
          rw [hdag] at h
          simp only at h
          rw [← (getExecution_ok hget).2.2.2]
          exact (traverse_inv L dag.TaskMap fuel _ out (initialState_inv st e dag) h).2

theorem Reconcile_creates_after_dependencies_complete_witness :
    createdJobs exampleSecondPass.trace = [newJob exampleRun exampleT1 examplePod] ∧
    exampleSecondPass.store.Jobs = exampleStoreDone.Jobs ++ createdJobs exampleSecondPass.trace ∧
    DependenciesFirst exampleStoreDone.Jobs "run" exampleSecondPass.trace :=
  ⟨by decide,
   (Reconcile_creates_after_dependencies_complete Ref.lib exampleStoreDone
      { Namespace := "ns", Name := "run" }).2 3 exampleSecondPass (by decide)⟩

theorem Reconcile_fails_fast_witness :
    ∃ r, iterate Ref.lib exampleSingleDag.TaskMap
        (initialState (exampleStoreSolo [exampleSoloJob
          { Conditions := [], CompletionTime := some 7, Succeeded := 0, Failed := 1 }])
          exampleSoloRun exampleSingleDag) = .done r ∧
      (∃ fuel, Reconcile Ref.lib fuel (exampleStoreSolo [exampleSoloJob
          { Conditions := [], CompletionTime := some 7, Succeeded := 0, Failed := 1 }])
          { Namespace := "ns", Name := "solo" } = some r) ∧
      r.err = none ∧ r.result.RequeueAfter = 0 ∧
      r.store.Jobs = [exampleSoloJob
          { Conditions := [], CompletionTime := some 7, Succeeded := 0, Failed := 1 }] ∧
      createdJobs r.trace = createdJobs [] ∧
      (∃ x, r.store.getExecution { Namespace := "ns", Name := "solo" } = .ok x ∧
        x.Status.Completed = true ∧ x.Status.Succeeded = false) ∧
      ∀ (L2 : Lib) (fuel : Nat), Reconcile L2 fuel r.store { Namespace := "ns", Name := "solo" } =
        some { result := { RequeueAfter := 0 }, err := none, store := r.store, trace := [] } :=
  Reconcile_fails_fast Ref.lib
    (exampleStoreSolo [exampleSoloJob
      { Conditions := [], CompletionTime := some 7, Succeeded := 0, Failed := 1 }])
    { Namespace := "ns", Name := "solo" } exampleSoloRun exampleSingleDag
    (initialState (exampleStoreSolo [exampleSoloJob
      { Conditions := [], CompletionTime := some 7, Succeeded := 0, Failed := 1 }])
      exampleSoloRun exampleSingleDag)
    (exampleSoloJob { Conditions := [], CompletionTime := some 7, Succeeded := 0, Failed := 1 })
    (by decide) (by decide) (by decide) (Steps.refl _) (by decide) (by decide) (by decide)
    (by decide)

theorem Reconcile_aggregates_task_flags_witness :
    ∃ out, Reconcile Ref.lib 1 (exampleStoreSolo [exampleSoloJob
          { Conditions := [], CompletionTime := some 7, Succeeded := 1, Failed := 0 }])
          { Namespace := "ns", Name := "solo" } = some out ∧ out.err = none ∧
      ∃ x, out.store.getExecution { Namespace := "ns", Name := "solo" } = .ok x ∧
        x.Status.Completed = true ∧ x.Status.Succeeded = true :=
  (Reconcile_aggregates_task_flags Ref.lib
    (exampleStoreSolo [exampleSoloJob
      { Conditions := [], CompletionTime := some 7, Succeeded := 1, Failed := 0 }])
    { Namespace := "ns", Name := "solo" } exampleSoloRun exampleSingleDag
    (by decide) (by decide) (by decide)).2 exampleT2
    (exampleSoloJob { Conditions := [], CompletionTime := some 7, Succeeded := 1, Failed := 0 })
    (by decide) (by decide) (by decide) (by decide) (by decide) (by decide) (by decide) 0

theorem Reconcile_creates_job_of_ready_task_witness :
    (iterate Ref.lib exampleSingleDag.TaskMap
        (initialState (exampleStoreSolo []) exampleSoloRun exampleSingleDag)).store.Jobs =
      (initialState (exampleStoreSolo []) exampleSoloRun exampleSingleDag).store.Jobs ++
        [newJob (initialState (exampleStoreSolo []) exampleSoloRun exampleSingleDag).execution
          ((initialState (exampleStoreSolo []) exampleSoloRun exampleSingleDag).stack.Pop).1
          examplePod] :=
  (Reconcile_creates_job_of_ready_task Ref.lib exampleSingleDag.TaskMap
    (initialState (exampleStoreSolo []) exampleSoloRun exampleSingleDag) exampleTaskSnapshot
    { exampleStoreSolo [] with Revisions := [exampleTaskSnapshot] } examplePod
    (by decide) (by decide) (by decide) (by decide)).1

/-! ## Task graphs, validation and the work stack -/

theorem lookup_append_single {β : Type} (m : List (String × β)) (k k1 : String) (v : β) :
    (m ++ [(k, v)]).lookup k1 =
      match m.lookup k1 with
      | some x => some x
      | none => if k1 = k then some v else none := by
  induction m with
  | nil =>
    by_cases h : k1 = k
    · simp [List.lookup, h]
    · have : (k1 == k) = false := by simpa using h
      simp [List.lookup, h, this]
  | cons e m ih =>
    obtain ⟨a, b⟩ := e
    by_cases h : k1 = a
    · subst h; simp [List.lookup]
    · have : (k1 == a) = false := by simpa using h
      simp only [List.cons_append, List.lookup, this]
      exact ih

theorem lookup_map_replace {β : Type} (m : List (String × β)) (k k1 : String) (v : β) :
    (m.map (fun e => if e.1 == k then (k, v) else e)).lookup k1 =
      if k1 = k then (m.lookup k1).map (fun _ => v) else m.lookup k1 := by
  induction m with
  | nil => simp
  | cons e m ih =>
    obtain ⟨a, b⟩ := e
    rw [List.map_cons]
    by_cases hak : a = k
    · have h0 : ((a, b).1 == k) = true := by simpa using hak
      rw [if_pos h0, List.lookup_cons, List.lookup_cons, ih]
      subst hak
      by_cases h : k1 = a
      · subst h
        simp
      · have h2 : (k1 == a) = false := by simpa using h
        simp [h2, h]
    · have h0 : ¬ ((a, b).1 == k) = true := by simpa using hak
      rw [if_neg h0, List.lookup_cons, List.lookup_cons, ih]
      by_cases h : k1 = a
      · have h2 : (k1 == a) = true := by simpa using h
        have h3 : ¬ k1 = k := fun e => hak (h.symm.trans e)
        simp [h2, h3]
      · have h2 : (k1 == a) = false := by simpa using h
        simp [h2]

theorem any_key_iff_lookup {β : Type} (m : List (String × β)) (k : String) :
    m.any (fun e => e.1 == k) = (m.lookup k).isSome := by
  induction m with
  | nil => rfl
  | cons e m ih =>
    obtain ⟨a, b⟩ := e
    by_cases h : k = a
    · subst h; simp [List.lookup]
    · have h1 : (k == a) = false := by simpa using h
      have h2 : (a == k) = false := by simpa using (Ne.symm h)
      simp only [List.any_cons, h2, Bool.false_or, List.lookup, h1]
      exact ih

/-- Reading a Go map after the assignment `m[k] = v`. -/
theorem lookup_mapSet {β : Type} (m : List (String × β)) (k k1 : String) (v : β) :
    (mapSet m k v).lookup k1 = if k1 = k then some v else m.lookup k1 := by
  unfold mapSet
  by_cases hany : m.any (fun e => e.1 == k) = true
  · rw [if_pos hany, lookup_map_replace]
    by_cases h : k1 = k
    · subst h
      rw [any_key_iff_lookup] at hany
      obtain ⟨x, hx⟩ := Option.isSome_iff_exists.1 hany
      simp [hx]
    · simp [h]
  · rw [if_neg hany, lookup_append_single]
    have hnone : m.lookup k = none := by
      rw [any_key_iff_lookup] at hany
      exact Option.not_isSome_iff_eq_none.1 hany
    by_cases h : k1 = k
    · subst h; simp [hnone]
    · simp only [h, if_false]
      cases m.lookup k1 <;> rfl

/-- The keys of a Go map after the assignment `m[k] = v`. -/
theorem mem_keys_mapSet {β : Type} (m : List (String × β)) (k k1 : String) (v : β) :
    ((mapSet m k v).lookup k1).isSome = (decide (k1 = k) || (m.lookup k1).isSome) := by
  rw [lookup_mapSet]
  by_cases h : k1 = k <;> simp [h]

/-- The task map built from a list of tasks holds, under a name, the last task of that name,
and what it held before under the names of no task. -/
theorem lookup_foldl_mapSet (tasks : List DagTask) (m : List (String × DagTask)) (k : String) :
    (tasks.foldl (fun acc task => mapSet acc task.Name task) m).lookup k =
      match tasks.reverse.find? (fun t => t.Name == k) with
      | some t => some t
      | none => m.lookup k := by
  induction tasks generalizing m with
  | nil => simp
  | cons t rest ih =>
    rw [List.foldl_cons, ih, List.reverse_cons, List.find?_append]
    cases hrest : rest.reverse.find? (fun t => t.Name == k) with
    | some x => simp
    | none =>
      simp only [Option.none_or, List.find?_cons, List.find?_nil]
      rw [lookup_mapSet]
      by_cases h : t.Name = k
      · simp [h]
      · have h1 : (t.Name == k) = false := by simpa using h
        have h2 : ¬ k = t.Name := fun e => h e.symm
        simp [h1, h2]

theorem TaskMap_lookup (dag : Dag) (k : String) :
    dag.TaskMap.lookup k = dag.Spec.Tasks.reverse.find? (fun t => t.Name == k) := by
  unfold Dag.TaskMap
  rw [lookup_foldl_mapSet]
  cases dag.Spec.Tasks.reverse.find? (fun t => t.Name == k) <;> rfl

theorem Entrypoint_eq (dag : Dag) :
    dag.Entrypoint =
      (dag.Spec.Tasks.reverse.find? (fun t => t.Name == dag.Spec.Entrypoint)).getD
        DagTask.zero := by
  unfold Dag.Entrypoint taskAt
  rw [TaskMap_lookup]

theorem eq_of_nodup_names {tasks : List DagTask} (hnd : (tasks.map (fun t => t.Name)).Nodup)
    {a b : DagTask} (ha : a ∈ tasks) (hb : b ∈ tasks) (h : a.Name = b.Name) : a = b :=
  List.inj_on_of_nodup_map hnd ha hb h

/-- C16. `Entrypoint()` returns a task of the graph whose name is the declared entrypoint when
there is one (the last declared of them; the only one when the names of the tasks are pairwise
distinct), and the zero task, all of whose fields are zero, when no task has that name. -/
theorem Entrypoint_returns_named_task (dag : Dag) :
    ((∃ t ∈ dag.Spec.Tasks, t.Name = dag.Spec.Entrypoint) →
      dag.Entrypoint ∈ dag.Spec.Tasks ∧ dag.Entrypoint.Name = dag.Spec.Entrypoint) ∧
    ((dag.Spec.Tasks.map (fun t => t.Name)).Nodup →
      ∀ t ∈ dag.Spec.Tasks, t.Name = dag.Spec.Entrypoint → dag.Entrypoint = t) ∧
    ((∀ t ∈ dag.Spec.Tasks, t.Name ≠ dag.Spec.Entrypoint) →
      dag.Entrypoint = DagTask.zero ∧
      DagTask.zero = { Name := "", Template := { Name := "", Namespace := "", ResourceVersion := "" },
                       Command := [], Options := [], Dependencies := [], Resources := [] }) := by
  have hsome : ∀ t ∈ dag.Spec.Tasks, t.Name = dag.Spec.Entrypoint →
      dag.Entrypoint ∈ dag.Spec.Tasks ∧ dag.Entrypoint.Name = dag.Spec.Entrypoint := by
    intro t ht hname
    rw [Entrypoint_eq]
    cases hf : dag.Spec.Tasks.reverse.find? (fun t => t.Name == dag.Spec.Entrypoint) with
    | none =>
      have := List.find?_eq_none.1 hf t (List.mem_reverse.2 ht)
      simp [hname] at this
    | some x =>
      have hx := List.mem_reverse.1 (List.mem_of_find?_eq_some hf)
      have hn := List.find?_some hf
      exact ⟨hx, by simpa using hn⟩
  refine ⟨fun ⟨t, ht, hname⟩ => hsome t ht hname, ?_, ?_⟩
  · intro hnd t ht hname
    obtain ⟨hmem, hn⟩ := hsome t ht hname
    exact eq_of_nodup_names hnd hmem ht (hn.trans hname.symm)
  · intro hnone
    refine ⟨?_, rfl⟩
    rw [Entrypoint_eq]
    have : dag.Spec.Tasks.reverse.find? (fun t => t.Name == dag.Spec.Entrypoint) = none := by
      apply List.find?_eq_none.2
      intro x hx
      simpa using hnone x (List.mem_reverse.1 hx)
    rw [this]; rfl

theorem Entrypoint_returns_named_task_witness :
    exampleDag.Entrypoint = exampleT1 :=
  (Entrypoint_returns_named_task exampleDag).2.1 (by decide) exampleT1 (by decide) (by decide)

/-- C18. `MaxConcurrentTasks` returns 20 when the declared parallelism is zero and the declared
parallelism otherwise, so for every parallelism from 0 to 20 the bound lies from 1 to 20. -/
theorem MaxConcurrentTasks_default (e : Execution) :
    (e.Spec.Parallelism = 0 → e.MaxConcurrentTasks = 20) ∧
    (e.Spec.Parallelism ≠ 0 → e.MaxConcurrentTasks = e.Spec.Parallelism) ∧
    (0 ≤ e.Spec.Parallelism → e.Spec.Parallelism ≤ 20 →
      1 ≤ e.MaxConcurrentTasks ∧ e.MaxConcurrentTasks ≤ 20) := by
  unfold Execution.MaxConcurrentTasks
  refine ⟨fun h => by simp [h], fun h => by simp [h], fun h0 h20 => ?_⟩
  by_cases h : e.Spec.Parallelism = 0
  · simp [h]
  · simp only [h, if_false]
    omega

theorem MaxConcurrentTasks_default_witness :
    exampleRun.MaxConcurrentTasks = 20 :=
  (MaxConcurrentTasks_default exampleRun).1 (by decide)

theorem Push_length (s : Stack) (task : DagTask) :
    (s.Push task).maxSize = s.maxSize ∧
    ((s.tasks.length : Int) ≤ max s.maxSize 0 →
      ((s.Push task).tasks.length : Int) ≤ max s.maxSize 0) := by
  unfold Stack.Push
  by_cases h : s.maxSize > 0 ∧ (s.tasks.length : Int) < s.maxSize
  · rw [if_pos h]
    refine ⟨rfl, fun _ => ?_⟩
    simp only [List.length_append, List.length_singleton, Nat.cast_add, Nat.cast_one]
    omega
  · rw [if_neg h]
    exact ⟨rfl, id⟩

theorem Pop_length (s : Stack) :
    s.Pop.2.maxSize = s.maxSize ∧ s.Pop.2.tasks.length ≤ s.tasks.length := by
  unfold Stack.Pop
  cases h : s.tasks.getLast? with
  | none => exact ⟨rfl, le_refl _⟩
  | some task =>
    refine ⟨rfl, ?_⟩
    simp only [List.length_dropLast]
    omega

theorem run_bounded (ops : List StackOp) :
    ∀ s : Stack, (s.tasks.length : Int) ≤ max s.maxSize 0 →
      (s.run ops).maxSize = s.maxSize ∧ ((s.run ops).tasks.length : Int) ≤ max s.maxSize 0 := by
  induction ops with
  | nil => intro s h; exact ⟨rfl, h⟩
  | cons op rest ih =>
    intro s h
    have hstep : (StackOp.apply s op).maxSize = s.maxSize ∧
        ((StackOp.apply s op).tasks.length : Int) ≤ max s.maxSize 0 := by
      cases op with
      | push task => exact ⟨(Push_length s task).1, (Push_length s task).2 h⟩
      | pop =>
        refine ⟨(Pop_length s).1, ?_⟩
        have := (Pop_length s).2
        show ((s.Pop.2.tasks.length : Nat) : Int) ≤ _
        omega
    have := ih (StackOp.apply s op) (by rw [hstep.1]; exact hstep.2)
    rw [hstep.1] at this
    exact this

/-- C19. After every sequence of `Push` and `Pop` on a stack made by `NewStack c` the number of
tasks held is at most `c` when `c` is not negative, and zero when `c` is not positive; a `Push`
onto a stack that holds as many tasks as its capacity, or onto a stack whose capacity is not
positive, leaves the stack as it was, and the task is dropped. -/
theorem Stack_never_exceeds_capacity (c : Int) (ops : List StackOp) :
    ((NewStack c).run ops).maxSize = c ∧
    (((NewStack c).run ops).tasks.length : Int) ≤ max c 0 ∧
    (0 ≤ c → (((NewStack c).run ops).tasks.length : Int) ≤ c) ∧
    (c ≤ 0 → ((NewStack c).run ops).tasks = []) ∧
    (∀ (s : Stack) (task : DagTask), (s.tasks.length : Int) = s.maxSize → s.Push task = s) ∧
    (∀ (s : Stack) (task : DagTask), s.maxSize ≤ 0 → s.Push task = s) := by
  have h := run_bounded ops (NewStack c) (by simp [NewStack])
  have hc : (NewStack c).maxSize = c := rfl
  rw [hc] at h
  refine ⟨h.1, h.2, fun h0 => ?_, fun h0 => ?_, ?_, ?_⟩
  · have := h.2
    rw [max_eq_left h0] at this
    exact this
  · have := h.2
    rw [max_eq_right h0] at this
    apply List.eq_nil_of_length_eq_zero
    omega
  · intro s task hfull
    unfold Stack.Push
    rw [if_neg]
    omega
  · intro s task hcap
    unfold Stack.Push
    rw [if_neg]
    omega

theorem Stack_never_exceeds_capacity_witness :
    ((NewStack 1).run [.push exampleT1, .push exampleT2, .pop, .push exampleT2,
      .push exampleT1]).tasks = [exampleT2] ∧
    (((NewStack 1).run [.push exampleT1, .push exampleT2, .pop, .push exampleT2,
      .push exampleT1]).tasks.length : Int) ≤ 1 :=
  ⟨by decide,
   (Stack_never_exceeds_capacity 1 [.push exampleT1, .push exampleT2, .pop, .push exampleT2,
      .push exampleT1]).2.2.1 (by decide)⟩

/-- C14. For every run whose stored status has `Completed` true, `Reconcile` returns the empty
result and no error, leaves the store as it was (so it creates no job and no revision and the
status of the run is unchanged), and records no event. -/
theorem Reconcile_completed_is_noop (L : Lib) (fuel : Nat) (st : Store) (req : NamespacedName)
    (e : Execution) (hget : st.getExecution req = .ok e) (hc : e.Status.Completed = true) :
    Reconcile L fuel st req =
      some { result := { RequeueAfter := 0 }, err := none, store := st, trace := [] } := by
  unfold Reconcile
  rw [hget]
  simp only [hc, if_true]

theorem Reconcile_completed_is_noop_witness :
    Reconcile Ref.lib 0 exampleStoreCompleted { Namespace := "ns", Name := "run" } =
      some { result := { RequeueAfter := 0 }, err := none, store := exampleStoreCompleted,
             trace := [] } :=
  Reconcile_completed_is_noop Ref.lib 0 exampleStoreCompleted { Namespace := "ns", Name := "run" }
    exampleCompletedRun (by decide) (by decide)

/-! ## Validation, election under Ignore and the requeue -/

theorem validateLoop_spec (quote : String → String) (tasks : List DagTask) :
    ∀ (m : List (String × Bool)) (seen : List String),
      (∀ k, (m.lookup k).getD false = true ↔ k ∈ seen) → seen.Nodup →
      (validateLoop quote tasks m = none ∧ (seen ++ tasks.map (fun t => t.Name)).Nodup) ∨
      ∃ pre name post, tasks.map (fun t => t.Name) = pre ++ name :: post ∧
        (seen ++ pre).Nodup ∧ name ∈ seen ++ pre ∧
        validateLoop quote tasks m = some (.errorf
          (ErrDuplicateTaskName ++ ": task name " ++ quote name ++ " is duplicated")) := by
  induction tasks with
  | nil =>
    intro m seen _ hnd
    left
    exact ⟨rfl, by simpa using hnd⟩
  | cons t rest ih =>
    intro m seen hm hnd
    by_cases hseen : (m.lookup t.Name).getD false = true
    · right
      refine ⟨[], t.Name, rest.map (fun t => t.Name), by simp, by simpa using hnd,
        by simpa using (hm t.Name).1 hseen, ?_⟩
      rw [validateLoop, if_pos hseen]
    · have hnot : t.Name ∉ seen := fun h => hseen ((hm t.Name).2 h)
      have hm1 : ∀ k, ((mapSet m t.Name true).lookup k).getD false = true ↔
          k ∈ seen ++ [t.Name] := by
        intro k
        rw [lookup_mapSet]
        by_cases hk : k = t.Name
        · simp [hk]
        · simp [hk, hm k]
      have hnd1 : (seen ++ [t.Name]).Nodup := by
        rw [List.nodup_append]
        refine ⟨hnd, List.nodup_singleton _, ?_⟩
        intro a ha hb
        rw [List.mem_singleton] at hb
        exact hnot (hb ▸ ha)
      have hstep : validateLoop quote (t :: rest) m =
          validateLoop quote rest (mapSet m t.Name true) := by
        rw [validateLoop, if_neg hseen]
      rcases ih (mapSet m t.Name true) (seen ++ [t.Name]) hm1 hnd1 with ⟨hnone, hall⟩ | hdup
      · left
        refine ⟨hstep.trans hnone, ?_⟩
        simpa [List.append_assoc] using hall
      · right
        obtain ⟨pre, name, post, hsplit, hndp, hmem, herr⟩ := hdup
        refine ⟨t.Name :: pre, name, post, by simp [hsplit], ?_, ?_, hstep.trans herr⟩
        · simpa [List.append_assoc] using hndp
        · simpa [List.append_assoc] using hmem

theorem not_nodup_of_split {pre post : List String} {name : String} (h : name ∈ pre) :
    ¬ (pre ++ name :: post).Nodup := by
  intro hnd
  have := (List.nodup_append.1 hnd).2.2
  exact this h (List.mem_cons_self _ _)

/-- C17. `ValidateDag` returns an error exactly when two tasks of the graph bear the same name
(there are positions `i < j` in the declared list with equal names); the error then is the
message `duplicate task name: task name <quoted name> is duplicated` for the name at the first
position whose name occurs at an earlier position; `ValidateCreate` and `ValidateUpdate` (and
`ValidateDelete`) return what `ValidateDag` returns. -/
theorem ValidateDag_rejects_duplicate_names (quote : String → String) (dag old : Dag) :
    ((ValidateDag quote dag ≠ none) ↔
      ∃ i j : Nat, i < j ∧ j < (dag.Spec.Tasks.map (fun t => t.Name)).length ∧
        (dag.Spec.Tasks.map (fun t => t.Name))[i]? =
          (dag.Spec.Tasks.map (fun t => t.Name))[j]?) ∧
    (ValidateDag quote dag = none ↔ (dag.Spec.Tasks.map (fun t => t.Name)).Nodup) ∧
    (∀ e, ValidateDag quote dag = some e →
      ∃ pre name post, dag.Spec.Tasks.map (fun t => t.Name) = pre ++ name :: post ∧
        pre.Nodup ∧ name ∈ pre ∧
        e = .errorf (ErrDuplicateTaskName ++ ": task name " ++ quote name ++ " is duplicated")) ∧
    dag.ValidateCreate quote = ValidateDag quote dag ∧
    dag.ValidateUpdate quote old = ValidateDag quote dag ∧
    dag.ValidateDelete quote = ValidateDag quote dag := by
  have hspec := validateLoop_spec quote dag.Spec.Tasks [] [] (by simp) List.nodup_nil
  simp only [List.nil_append] at hspec
  have hiff : ValidateDag quote dag = none ↔ (dag.Spec.Tasks.map (fun t => t.Name)).Nodup := by
    unfold ValidateDag
    constructor
    · intro hnone
      rcases hspec with ⟨_, hnd⟩ | ⟨pre, name, post, _, _, _, herr⟩
      · exact hnd
      · rw [hnone] at herr; cases herr
    · intro hnd
      rcases hspec with ⟨hnone, _⟩ | ⟨pre, name, post, hsplit, _, hmem, _⟩
      · exact hnone
      · rw [hsplit] at hnd
        exact absurd hnd (not_nodup_of_split hmem)
  refine ⟨?_, hiff, ?_, rfl, rfl, rfl⟩
  · rw [Ne, hiff, List.nodup_iff_getElem?_ne_getElem?]
    push_neg
    rfl
  · intro e he
    unfold ValidateDag at he
    rcases hspec with ⟨hnone, _⟩ | ⟨pre, name, post, hsplit, hnd, hmem, herr⟩
    · rw [hnone] at he; cases he
    · rw [herr] at he
      exact ⟨pre, name, post, hsplit, hnd, hmem, (Option.some.inj he).symm⟩

theorem ValidateDag_rejects_duplicate_names_witness :
    ValidateDag quoteSimple exampleDuplicateDag =
        some (.errorf (ErrDuplicateTaskName ++ ": task name " ++ quoteSimple "t2" ++
          " is duplicated")) ∧
    ∃ pre name post,
      exampleDuplicateDag.Spec.Tasks.map (fun t => t.Name) = pre ++ name :: post ∧
        pre.Nodup ∧ name ∈ pre ∧
        Err.errorf (ErrDuplicateTaskName ++ ": task name " ++ quoteSimple "t2" ++
          " is duplicated") =
        .errorf (ErrDuplicateTaskName ++ ": task name " ++ quoteSimple name ++
          " is duplicated") :=
  ⟨by decide,
   (ValidateDag_rejects_duplicate_names quoteSimple exampleDuplicateDag exampleDag).2.2.1 _
     (by decide)⟩

/-- C13. For every referrer whose update policy is `Ignore` and one of whose revisions is
elected, `ElectRevision` returns an elected revision of the referrer (the first elected one in
the order of the list; that very revision when it is the only elected one) and leaves the store
as it was. -/
theorem ElectRevision_ignore_returns_elected (L : Lib) (r : Publisher) (st : Store)
    (impl : Referrer) (x : Revision) (hpol : impl.UpdatePolicy = UpdatePolicyIgnore)
    (hx : x ∈ r.List st impl) (he : x.Elected = true) :
    ∃ el, r.ElectRevision L st impl = ⟨.ok el, st⟩ ∧ r.Elected st impl = some el ∧
      el ∈ r.List st impl ∧ el.Elected = true ∧
      ((∀ y ∈ r.List st impl, y.Elected = true → y = x) → el = x) := by
  cases hel : r.Elected st impl with
  | none => exact absurd he (by simp [Elected_none hel x hx])
  | some el =>
    obtain ⟨hmem, helected⟩ := Elected_some hel
    refine ⟨el, ?_, rfl, hmem, helected, fun huniq => huniq el hmem helected⟩
    have hne : ¬ impl.UpdatePolicy = UpdatePolicyAuto := by
      rw [hpol]; decide
    unfold Publisher.ElectRevision
    simp only [hel, hne, or_false, if_false]
    rfl

theorem ElectRevision_ignore_returns_elected_witness :
    ∃ el, ({ patches := [] } : Publisher).ElectRevision Ref.lib exampleStore
        (exampleReferrer 1 UpdatePolicyIgnore) = ⟨.ok el, exampleStore⟩ ∧
      ({ patches := [] } : Publisher).Elected exampleStore
        (exampleReferrer 1 UpdatePolicyIgnore) = some el ∧
      el ∈ ({ patches := [] } : Publisher).List exampleStore
        (exampleReferrer 1 UpdatePolicyIgnore) ∧ el.Elected = true ∧
      ((∀ y ∈ ({ patches := [] } : Publisher).List exampleStore
          (exampleReferrer 1 UpdatePolicyIgnore), y.Elected = true →
          y = exampleRevision "nb-a" 1 true) → el = exampleRevision "nb-a" 1 true) :=
  ElectRevision_ignore_returns_elected Ref.lib { patches := [] } exampleStore
    (exampleReferrer 1 UpdatePolicyIgnore) (exampleRevision "nb-a" 1 true) (by decide)
    (by decide) (by decide)

/-- C11. A pass that leaves the loop with the stack empty (so without fast failure and without
error) returns, with no error, a requeue after 10 seconds when the aggregated `Completed` it
stores on the run is false, and no requeue when it is true. -/
theorem Reconcile_requeues_iff_incomplete (L : Lib) (st : Store) (req : NamespacedName)
    (e : Execution) (dag : Dag) (s : LoopState) (hget : st.getExecution req = .ok e)
    (hnc : e.Status.Completed = false)
    (hdag : st.getDag { Name := e.Spec.DagRef.Name, Namespace := e.Namespace } = .ok dag)
    (hs : Steps L dag.TaskMap (initialState st e dag) s) (hempty : s.stack.Empty = true) :
    ∃ fuel out, Reconcile L fuel st req = some out ∧ out = aggregate s ∧ out.err = none ∧
      ∃ x, out.store.getExecution req = .ok x ∧
        x.Status.Completed = s.execution.Status.Tasks.all (fun kv => kv.2.Completed) ∧
        (out.result.RequeueAfter = 10 ↔ x.Status.Completed = false) ∧
        (x.Status.Completed = true → out.result.RequeueAfter = 0) := by
  obtain ⟨_, _, hens, hename⟩ := getExecution_ok hget
  have hinv := Steps_inv (initialState_inv st e dag) hs
  have hgs : s.store.getExecution req = .ok e := by
    rw [getExecution_congr hinv.executions]; exact hget
  have hspec := aggregate_spec hgs (hinv.ns.trans hens) (hinv.name.trans hename)
  obtain ⟨fuel0, h0⟩ := Steps_traverse hs 0 (aggregate s)
    (traverse_of_empty L dag.TaskMap 0 s hempty)
  refine ⟨fuel0, aggregate s, by rw [Reconcile_eq_traverse L fuel0 hget hnc hdag]; exact h0,
    rfl, hspec.1, _, hspec.2.2.2.2, rfl, ?_, ?_⟩
  · rw [hspec.2.1]
    cases s.execution.Status.Tasks.all (fun kv => kv.2.Completed) <;> simp
  · rw [hspec.2.1]
    intro h
    simp only at h
    rw [h]; rfl

theorem Reconcile_requeues_iff_incomplete_witness :
    (aggregate exampleSoloDrained).result = { RequeueAfter := 10 } ∧ ∃ fuel out, Reconcile Ref.lib fuel (exampleStoreSolo [exampleSoloPending])
        { Namespace := "ns", Name := "solo" } = some out ∧ out = aggregate exampleSoloDrained ∧
      out.err = none ∧
      ∃ x, out.store.getExecution { Namespace := "ns", Name := "solo" } = .ok x ∧
        x.Status.Completed =
          exampleSoloDrained.execution.Status.Tasks.all (fun kv => kv.2.Completed) ∧
        (out.result.RequeueAfter = 10 ↔ x.Status.Completed = false) ∧
        (x.Status.Completed = true → out.result.RequeueAfter = 0) :=
  ⟨by decide,
   Reconcile_requeues_iff_incomplete Ref.lib (exampleStoreSolo [exampleSoloPending])
    { Namespace := "ns", Name := "solo" } exampleSoloRun exampleSingleDag exampleSoloDrained
    (by decide) (by decide) (by decide)
    (Steps.step (Steps.refl _) (by decide) (by decide)) (by decide)⟩

/-! ## Create and the option catalog -/

theorem electedLoop_append (L : Lib) (st : Store) (ns : String)
    (opts : List corev1.LocalObjectReference) (a b : List corev1.LocalObjectReference) :
    ∀ acc, electedLoop L st ns opts (a ++ b) acc =
      match electedLoop L st ns opts a acc with
      | .error e => .error e
      | .ok acc1 => electedLoop L st ns opts b acc1 := by
  induction a with
  | nil => intro acc; rfl
  | cons opt rest ih =>
    intro acc
    rw [List.cons_append, electedLoop, electedLoop]
    by_cases hc : opts.contains opt = true
    · rw [if_pos hc, if_pos hc]
      cases applyOption L st ns acc opt with
      | error e => rfl
      | ok acc1 => exact ih acc1
    · rw [if_neg hc, if_neg hc]

theorem electedLoop_absent (L : Lib) (st : Store) (ns : String)
    (opts : List corev1.LocalObjectReference) (elected : List corev1.LocalObjectReference) :
    ∀ acc, (∃ opt ∈ elected, opts.contains opt = false) →
      ∃ e, electedLoop L st ns opts elected acc = .error e := by
  induction elected with
  | nil => intro acc ⟨opt, hmem, _⟩; cases hmem
  | cons head rest ih =>
    intro acc ⟨opt, hmem, habs⟩
    rw [electedLoop]
    by_cases hc : opts.contains head = true
    · rw [if_pos hc]
      cases applyOption L st ns acc head with
      | error e => exact ⟨e, rfl⟩
      | ok acc1 =>
        have hrest : opt ∈ rest := by
          rcases List.mem_cons.1 hmem with h | h
          · rw [h, hc] at habs; cases habs
          · exact h
        exact ih acc1 ⟨opt, hrest, habs⟩
    · rw [if_neg hc]
      exact ⟨_, rfl⟩

theorem catalog_contains (t : Template) (opt : corev1.LocalObjectReference) :
    t.catalog.contains opt = true ↔ ∃ o ∈ t.Options, o.Name = opt.Name := by
  unfold Template.catalog
  rw [List.contains_iff_exists_mem_beq]
  constructor
  · rintro ⟨a, ha, hbeq⟩
    obtain ⟨o, ho, rfl⟩ := List.mem_map.1 ha
    have : opt = { Name := o.Name } := by simpa using hbeq
    exact ⟨o, ho, by rw [this]⟩
  · rintro ⟨o, ho, hname⟩
    refine ⟨{ Name := o.Name }, List.mem_map.2 ⟨o, ho, rfl⟩, ?_⟩
    cases opt
    simp only at hname
    simp [hname]

theorem resolve_unfold (L : Lib) (r : Publisher) (st : Store) (impl : Referrer)
    (template : Template) (acc1 : Resolved)
    (htmpl : st.getTemplate impl.TemplateRef = .ok template)
    (hreq : requiredLoop L st template.Namespace template.Required
      (template.PodTemplateSpec, []) = .ok acc1) :
    r.resolve L st impl =
      match electedLoop L st template.Namespace template.catalog impl.ElectedOptions acc1 with
      | .error e => .error e
      | .ok acc2 =>
        match patchLoop L r.patches acc2.1 with
        | .error e => .error e
        | .ok spec => .ok (template, (spec, acc2.2)) := by
  unfold Publisher.resolve
  rw [htmpl]
  simp only [hreq]
  rfl

theorem Create_of_resolve_error {L : Lib} {r : Publisher} {st : Store} {impl : Referrer}
    {e : Err} (h : r.resolve L st impl = .error e) : r.Create L st impl = ⟨.error e, st⟩ := by
  unfold Publisher.Create
  rw [h]

/-- Every failure of the first part of `Create` leaves the store as it was. -/
theorem resolve_absent (L : Lib) (r : Publisher) (st : Store) (impl : Referrer)
    (template : Template) (htmpl : st.getTemplate impl.TemplateRef = .ok template)
    (h : ∃ opt ∈ impl.ElectedOptions, template.catalog.contains opt = false) :
    ∃ e, r.resolve L st impl = .error e := by
  cases hreq : requiredLoop L st template.Namespace template.Required
      (template.PodTemplateSpec, []) with
  | error e =>
    refine ⟨e, ?_⟩
    unfold Publisher.resolve
    rw [htmpl]
    simp only [hreq]
  | ok acc1 =>
    obtain ⟨e, he⟩ := electedLoop_absent L st template.Namespace template.catalog
      impl.ElectedOptions acc1 h
    refine ⟨e, ?_⟩
    rw [resolve_unfold L r st impl template acc1 htmpl hreq, he]

/-- C15, counterexample. The template offers the overlay `e` only; the referrer
elects `e` and then `x`. The overlay `e` is not stored, so `Create` fails on fetching it, with
the not-found error of the store and not with the error that names `x`. -/
theorem Create_absent_option_other_error :
    exampleStoreNoElective.getTemplate exampleStrayElector.TemplateRef =
      .ok exampleOverlayTemplate ∧
    ({ Name := "x" } : corev1.LocalObjectReference) ∈ exampleStrayElector.ElectedOptions ∧
    (∀ o ∈ exampleOverlayTemplate.Options, o.Name ≠ "x") ∧
    ({ patches := [] } : Publisher).Create Ref.lib exampleStoreNoElective exampleStrayElector =
      ⟨.error .notFound, exampleStoreNoElective⟩ ∧
    Err.notFound ≠ .errorf (ErrReferencedOptionNotFound ++ ": " ++ "x") := by
  decide

/-- C15, amended. If an elected option of the referrer is absent from the option catalog of
the template, `Create` fails and leaves the store as it was, so it creates no revision and no
dependency object; when the required overlays and the elected options before the first absent
one are all found and merged, the error is the message `the referenced option was not found in
the template spec` followed by the name of that option. -/
theorem Create_fails_on_absent_option (L : Lib) (r : Publisher) (st : Store) (impl : Referrer)
    (template : Template) (opt : corev1.LocalObjectReference)
    (htmpl : st.getTemplate impl.TemplateRef = .ok template)
    (hopt : opt ∈ impl.ElectedOptions)
    (habsent : ∀ o ∈ template.Options, o.Name ≠ opt.Name) :
    (∃ e, r.Create L st impl = ⟨.error e, st⟩) ∧
    (∀ (pre post : List corev1.LocalObjectReference) (acc1 acc2 : Resolved),
      impl.ElectedOptions = pre ++ opt :: post →
      requiredLoop L st template.Namespace template.Required
        (template.PodTemplateSpec, []) = .ok acc1 →
      electedLoop L st template.Namespace template.catalog pre acc1 = .ok acc2 →
      r.Create L st impl =
        ⟨.error (.errorf (ErrReferencedOptionNotFound ++ ": " ++ opt.Name)), st⟩) := by
  have hnot : template.catalog.contains opt = false := by
    cases hc : template.catalog.contains opt with
    | false => rfl
    | true =>
      obtain ⟨o, ho, hname⟩ := (catalog_contains template opt).1 hc
      exact absurd hname (habsent o ho)
  constructor
  · obtain ⟨e, he⟩ := resolve_absent L r st impl template htmpl ⟨opt, hopt, hnot⟩
    exact ⟨e, Create_of_resolve_error he⟩
  · intro pre post acc1 acc2 hsplit hreq hpre
    apply Create_of_resolve_error
    rw [resolve_unfold L r st impl template acc1 htmpl hreq, hsplit, electedLoop_append, hpre]
    have hc : ¬ template.catalog.contains opt = true := by rw [hnot]; decide
    simp only
    rw [electedLoop, if_neg hc]

theorem Create_fails_on_absent_option_witness :
    ({ patches := [] } : Publisher).Create Ref.lib exampleStoreOverlays exampleStrayElector =
      ⟨.error (.errorf (ErrReferencedOptionNotFound ++ ": " ++ "x")), exampleStoreOverlays⟩ :=
  (Create_fails_on_absent_option Ref.lib { patches := [] } exampleStoreOverlays
    exampleStrayElector exampleOverlayTemplate { Name := "x" } (by decide) (by decide)
    (by decide)).2 [{ Name := "e" }] []
    ((requiredLoop Ref.lib exampleStoreOverlays "ns" exampleOverlayTemplate.Required
      (exampleOverlayTemplate.PodTemplateSpec, [])).toOption.getD
        (exampleOverlayTemplate.PodTemplateSpec, []))
    ((electedLoop Ref.lib exampleStoreOverlays "ns" exampleOverlayTemplate.catalog
      [{ Name := "e" }]
      ((requiredLoop Ref.lib exampleStoreOverlays "ns" exampleOverlayTemplate.Required
        (exampleOverlayTemplate.PodTemplateSpec, [])).toOption.getD
          (exampleOverlayTemplate.PodTemplateSpec, []))).toOption.getD
        (exampleOverlayTemplate.PodTemplateSpec, []))
    (by decide) (by decide) (by decide)

/-! ## The overlay composer and the container list -/

theorem Ref.toStrings_ofStrings (m : StringMap) :
    Ref.toStrings (some (Ref.ofStrings m)) = m := by
  unfold Ref.toStrings Ref.ofStrings
  simp only [List.filterMap_map]
  induction m with
  | nil => rfl
  | cons kv rest ih =>
    rw [List.filterMap_cons]
    simp only [Function.comp]
    rw [ih]

theorem Ref.toStr_str (s : String) : Ref.toStr (some (Value.str s)) = s := rfl

theorem Ref.toStr_none : Ref.toStr none = "" := rfl

theorem Ref.toStrings_none : Ref.toStrings none = [] := rfl

theorem Ref.map_toStr (l : List String) :
    l.map ((fun x => Ref.toStr (some x)) ∘ Value.str) = l :=
  (List.map_congr_left (fun _ _ => rfl)).trans (List.map_id _)

theorem Ref.toContainer_ofContainer (c : corev1.Container) :
    Ref.toContainer (Ref.ofContainer c) = c := by
  obtain ⟨name, image, command⟩ := c
  unfold Ref.toContainer Ref.ofContainer
  by_cases hi : image = "" <;> by_cases hc : command = [] <;>
    simp [hi, hc, List.lookup, Ref.toStr_str, Ref.toStr_none, Ref.map_toStr]

theorem Ref.toContainers_map (cs : List corev1.Container) :
    (cs.map Ref.ofContainer).map Ref.toContainer = cs := by
  rw [List.map_map]
  conv_rhs => rw [← List.map_id cs]
  apply List.map_congr_left
  intro c _
  exact Ref.toContainer_ofContainer c

theorem Ref.lookup_metadata (labels annotations : StringMap) :
    List.lookup "labels"
        ((if labels = [] then [] else [("labels", Ref.ofStrings labels)]) ++
          (if annotations = [] then [] else [("annotations", Ref.ofStrings annotations)])) =
        (if labels = [] then none else some (Ref.ofStrings labels)) ∧
    List.lookup "annotations"
        ((if labels = [] then [] else [("labels", Ref.ofStrings labels)]) ++
          (if annotations = [] then [] else [("annotations", Ref.ofStrings annotations)])) =
        (if annotations = [] then none else some (Ref.ofStrings annotations)) := by
  by_cases h1 : labels = [] <;> by_cases h2 : annotations = [] <;>
    simp [h1, h2, List.lookup]

theorem Ref.toStrings_lookup (m : StringMap) :
    Ref.toStrings (if m = [] then none else some (Ref.ofStrings m)) = m := by
  by_cases h : m = []
  · rw [if_pos h, h]; rfl
  · rw [if_neg h, Ref.toStrings_ofStrings]

theorem Ref.lookup_spec (restart : String) (containers : Value) :
    List.lookup "containers"
        ([("containers", containers)] ++
          (if restart = "" then [] else [("restartPolicy", Value.str restart)])) =
        some containers ∧
    List.lookup "restartPolicy"
        ([("containers", containers)] ++
          (if restart = "" then [] else [("restartPolicy", Value.str restart)])) =
        (if restart = "" then none else some (Value.str restart)) ∧
    List.lookup "restartPolicy"
          (if restart = "" then [] else [("restartPolicy", Value.str restart)]) =
        (if restart = "" then none else some (Value.str restart)) ∧
    List.lookup "containers"
          (if restart = "" then [] else [("restartPolicy", Value.str restart)]) = none := by
  by_cases h1 : restart = "" <;> simp [h1, List.lookup]

theorem Ref.toStr_lookup (restart : String) :
    Ref.toStr (if restart = "" then none else some (Value.str restart)) = restart := by
  by_cases h : restart = ""
  · rw [if_pos h, h]; rfl
  · rw [if_neg h]; rfl

theorem Ref.toContainers_lookup (containers : List corev1.Container) :
    Ref.toContainers (some (if containers = [] then Value.null
      else Value.list (containers.map Ref.ofContainer))) = containers := by
  by_cases h : containers = []
  · rw [if_pos h, h]; rfl
  · rw [if_neg h]
    exact Ref.toContainers_map containers

theorem Ref.fieldsAt_pair (a b : Value) :
    List.lookup "metadata" [("metadata", a), ("spec", b)] = some a ∧
    List.lookup "spec" [("metadata", a), ("spec", b)] = some b := by
  constructor <;> simp [List.lookup]

/-- Reading back the unstructured form of a pod template gives the pod template. -/
theorem Ref.FromUnstructured_ToUnstructured (p : PodTemplateSpec) :
    Ref.FromUnstructured (Ref.ToUnstructured p) = p := by
  obtain ⟨⟨labels, annotations⟩, ⟨restart, containers⟩⟩ := p
  unfold Ref.FromUnstructured Ref.ToUnstructured Ref.fieldsAt
  simp only [(Ref.fieldsAt_pair _ _).1, (Ref.fieldsAt_pair _ _).2,
    (Ref.lookup_metadata labels annotations).1, (Ref.lookup_metadata labels annotations).2,
    (Ref.lookup_spec restart _).1, (Ref.lookup_spec restart _).2.1,
    Ref.toStrings_lookup, Ref.toStr_lookup, Ref.toContainers_lookup]

theorem lookup_filter_ne (spec : List (String × Value)) (c k : String) :
    (spec.filter (fun e => e.1 != c)).lookup k = if k = c then none else spec.lookup k := by
  induction spec with
  | nil => simp
  | cons e rest ih =>
    obtain ⟨a, b⟩ := e
    by_cases hac : a = c
    · have h0 : ((a, b).1 != c) = false := by simp [hac]
      rw [List.filter_cons, h0]
      simp only [Bool.false_eq_true, if_false]
      rw [ih, List.lookup_cons]
      by_cases hk : k = c
      · simp [hk]
      · have h1 : (k == a) = false := by simpa [hac] using hk
        simp [hk, h1]
    · have h0 : ((a, b).1 != c) = true := by simp [hac]
      rw [List.filter_cons, h0]
      simp only [if_true]
      rw [List.lookup_cons, List.lookup_cons, ih]
      by_cases hka : k = a
      · have h1 : (k == a) = true := by simpa using hka
        have h2 : ¬ k = c := fun e => hac (hka.symm.trans e)
        simp [h1, h2]
      · have h1 : (k == a) = false := by simpa using hka
        simp [h1]

theorem lookup_map_spec (patch : List (String × Value)) (v : Value) (k : String) :
    (patch.map (fun kv => if kv.1 = "spec" then (kv.1, v) else kv)).lookup k =
      if k = "spec" then (patch.lookup k).map (fun _ => v) else patch.lookup k := by
  induction patch with
  | nil => simp
  | cons e rest ih =>
    obtain ⟨a, b⟩ := e
    rw [List.map_cons, List.lookup_cons, ih, List.lookup_cons]
    by_cases ha : a = "spec"
    · subst ha
      by_cases hk : k = "spec"
      · subst hk; simp
      · have h1 : (k == "spec") = false := by simpa using hk
        simp [h1, hk]
    · by_cases hka : k = a
      · subst hka
        simp [ha]
      · have h1 : (k == a) = false := by simpa using hka
        simp [ha, h1]

/-- What the guard of `StrategicMergeFrom` does to a patch whose `spec.containers` is nil or
missing: the key is deleted from `spec`, and nothing else changes. -/
theorem dropNilContainers_nil {patch spec : List (String × Value)}
    (hspec : patch.lookup "spec" = some (.map spec))
    (hnil : spec.lookup "containers" = none ∨ spec.lookup "containers" = some .null) :
    ∃ patch1, dropNilContainers patch = .ok patch1 ∧
      patch1.lookup "spec" = some (.map (spec.filter (fun e => e.1 != "containers"))) ∧
      (spec.filter (fun e => e.1 != "containers")).lookup "containers" = none ∧
      (∀ k, k ≠ "containers" →
        (spec.filter (fun e => e.1 != "containers")).lookup k = spec.lookup k) ∧
      (∀ k, k ≠ "spec" → patch1.lookup k = patch.lookup k) := by
  refine ⟨patch.map (fun kv =>
      if kv.1 = "spec" then (kv.1, Value.map (spec.filter (fun e => e.1 != "containers")))
      else kv), ?_, ?_, ?_, ?_, ?_⟩
  · unfold dropNilContainers
    rw [hspec]
    rcases hnil with h | h <;> simp only [h]
  · rw [lookup_map_spec, if_pos rfl, hspec]; rfl
  · rw [lookup_filter_ne, if_pos rfl]
  · intro k hk
    rw [lookup_filter_ne, if_neg hk]
  · intro k hk
    rw [lookup_map_spec, if_neg hk]

/-- The guard leaves a patch that lists containers as it is. -/
theorem dropNilContainers_some {patch spec : List (String × Value)} {v : Value}
    (hspec : patch.lookup "spec" = some (.map spec))
    (hlist : spec.lookup "containers" = some v) (hv : v ≠ .null) :
    dropNilContainers patch = .ok patch := by
  unfold dropNilContainers
  rw [hspec]
  simp only [hlist]

theorem Ref.dropNilContainers_empty (overlay : PodTemplateSpec)
    (h : overlay.Spec.Containers = []) :
    dropNilContainers (Ref.ToUnstructured overlay) =
      .ok [("metadata", Value.map
            ((if overlay.ObjectMeta.Labels = [] then []
              else [("labels", Ref.ofStrings overlay.ObjectMeta.Labels)])
              ++ (if overlay.ObjectMeta.Annotations = [] then []
                  else [("annotations", Ref.ofStrings overlay.ObjectMeta.Annotations)]))),
           ("spec", Value.map
            (if overlay.Spec.RestartPolicy = "" then []
             else [("restartPolicy", Value.str overlay.Spec.RestartPolicy)]))] := by
  unfold dropNilContainers Ref.ToUnstructured
  rw [(Ref.fieldsAt_pair _ _).2]
  simp only [h, if_true, (Ref.lookup_spec _ _).1]
  by_cases hr : overlay.Spec.RestartPolicy = "" <;> simp [hr]

/-- The merge of an overlay without containers into a base, under the reference library. -/
theorem Ref.StrategicMergeFrom_empty (base overlay : PodTemplateSpec)
    (h : overlay.Spec.Containers = []) :
    base.StrategicMergeFrom Ref.lib overlay =
      .ok { ObjectMeta :=
              { Labels := Ref.mergeStrings base.ObjectMeta.Labels overlay.ObjectMeta.Labels
                Annotations :=
                  Ref.mergeStrings base.ObjectMeta.Annotations overlay.ObjectMeta.Annotations }
            Spec :=
              { RestartPolicy :=
                  if overlay.Spec.RestartPolicy = "" then base.Spec.RestartPolicy
                  else overlay.Spec.RestartPolicy
                Containers := base.Spec.Containers } } := by
  unfold PodTemplateSpec.StrategicMergeFrom
  simp only [Ref.lib, Ref.dropNilContainers_empty overlay h]
  rw [Ref.StrategicMergeMapPatch, Ref.FromUnstructured_ToUnstructured,
    Ref.FromUnstructured_ToUnstructured]
  simp only [Ref.FromUnstructured, Ref.fieldsAt, (Ref.fieldsAt_pair _ _).1,
    (Ref.fieldsAt_pair _ _).2, (Ref.lookup_metadata _ _).1, (Ref.lookup_metadata _ _).2,
    (Ref.lookup_spec _ Value.null).2.2.1, (Ref.lookup_spec _ Value.null).2.2.2,
    Ref.toStrings_lookup, Ref.toStr_lookup]

/-- Without the guard the reference merge clears the containers of the base. -/
theorem Ref.StrategicMergeMapPatch_null (base overlay : PodTemplateSpec)
    (h : overlay.Spec.Containers = []) :
    (Ref.FromUnstructured (Ref.StrategicMergeMapPatch (Ref.ToUnstructured base)
      (Ref.ToUnstructured overlay))).Spec.Containers = [] := by
  rw [Ref.StrategicMergeMapPatch, Ref.FromUnstructured_ToUnstructured]
  have : (Ref.fieldsAt (Ref.ToUnstructured overlay) "spec").lookup "containers" =
      some Value.null := by
    unfold Ref.fieldsAt Ref.ToUnstructured
    simp only [(Ref.fieldsAt_pair _ _).2, (Ref.lookup_spec _ _).1, h, if_true]
  simp only [this]

/-- C20. Merging an overlay whose container list is empty leaves the container list of the
base as it is. For every behaviour of the library: when the unstructured form of the overlay
has `spec.containers` nil or missing, the patch `StrategicMergeFrom` hands to the library merge
is that form with the key `containers` deleted from `spec` and nothing else changed. With the
library as the reference instance models it (a key the patch lacks is kept, a null clears it,
scalars are replaced, maps merge by key): the merged template has the containers of the base,
the restart policy of the overlay when the overlay sets one, and the labels and annotations
merged by key; while the library merge on the patch as converted would clear the containers. -/
theorem StrategicMergeFrom_keeps_containers (L : Lib) (base overlay : PodTemplateSpec)
    (h : overlay.Spec.Containers = []) :
    (∀ (into patch spec : List (String × Value)), L.ToUnstructured base = .ok into →
      L.ToUnstructured overlay = .ok patch → patch.lookup "spec" = some (.map spec) →
      (spec.lookup "containers" = none ∨ spec.lookup "containers" = some .null) →
      ∃ patch1,
        base.StrategicMergeFrom L overlay =
          (match L.StrategicMergeMapPatch into patch1 with
           | .error e => .error e
           | .ok merged => L.FromUnstructured merged) ∧
        patch1.lookup "spec" = some (.map (spec.filter (fun e => e.1 != "containers"))) ∧
        (spec.filter (fun e => e.1 != "containers")).lookup "containers" = none ∧
        (∀ k, k ≠ "containers" →
          (spec.filter (fun e => e.1 != "containers")).lookup k = spec.lookup k) ∧
        (∀ k, k ≠ "spec" → patch1.lookup k = patch.lookup k)) ∧
    (∃ merged, base.StrategicMergeFrom Ref.lib overlay = .ok merged ∧
      merged.Spec.Containers = base.Spec.Containers ∧
      merged.Spec.RestartPolicy =
        (if overlay.Spec.RestartPolicy = "" then base.Spec.RestartPolicy
         else overlay.Spec.RestartPolicy) ∧
      merged.ObjectMeta.Labels =
        Ref.mergeStrings base.ObjectMeta.Labels overlay.ObjectMeta.Labels ∧
      merged.ObjectMeta.Annotations =
        Ref.mergeStrings base.ObjectMeta.Annotations overlay.ObjectMeta.Annotations) ∧
    (Ref.FromUnstructured (Ref.StrategicMergeMapPatch (Ref.ToUnstructured base)
      (Ref.ToUnstructured overlay))).Spec.Containers = [] := by
  refine ⟨?_, ⟨_, Ref.StrategicMergeFrom_empty base overlay h, rfl, rfl, rfl, rfl⟩,
    Ref.StrategicMergeMapPatch_null base overlay h⟩
  intro into patch spec hinto hpatch hspec hnil
  obtain ⟨patch1, hdrop, h1, h2, h3, h4⟩ := dropNilContainers_nil hspec hnil
  refine ⟨patch1, ?_, h1, h2, h3, h4⟩
  unfold PodTemplateSpec.StrategicMergeFrom
  rw [hinto, hpatch]
  simp only [hdrop]

theorem StrategicMergeFrom_keeps_containers_witness :
    exampleBasePod.StrategicMergeFrom Ref.lib RestartPatch =
      .ok { exampleBasePod with
            Spec := { RestartPolicy := corev1.RestartPolicyNever,
                      Containers := [{ Name := "main", Image := "img", Command := [] }] } } ∧
    ∃ merged, exampleBasePod.StrategicMergeFrom Ref.lib RestartPatch = .ok merged ∧
      merged.Spec.Containers = exampleBasePod.Spec.Containers ∧
      merged.Spec.RestartPolicy =
        (if RestartPatch.Spec.RestartPolicy = "" then exampleBasePod.Spec.RestartPolicy
         else RestartPatch.Spec.RestartPolicy) ∧
      merged.ObjectMeta.Labels =
        Ref.mergeStrings exampleBasePod.ObjectMeta.Labels RestartPatch.ObjectMeta.Labels ∧
      merged.ObjectMeta.Annotations =
        Ref.mergeStrings exampleBasePod.ObjectMeta.Annotations
          RestartPatch.ObjectMeta.Annotations :=
  ⟨by decide,
   (StrategicMergeFrom_keeps_containers Ref.lib exampleBasePod RestartPatch (by decide)).2.1⟩

/-! ## Passes that find the jobs stored -/

theorem RevsFrom_refl (st : Store) (impl : Referrer) : RevsFrom st st impl :=
  fun _ hx => Or.inl hx

theorem RevsFrom_of_subset {st st1 st2 : Store} {impl : Referrer} (h : RevsFrom st st1 impl)
    (hsub : ∀ x ∈ st2.Revisions, x ∈ st1.Revisions) : RevsFrom st st2 impl :=
  fun x hx => h x (hsub x hx)

theorem createRevision_revsFrom (st : Store) (rev : Revision) (impl : Referrer)
    (hns : rev.Namespace = impl.GetNamespace) (hlab : rev.Labels = [(LabelKeyName, impl.GetName)]) :
    RevsFrom st (st.createRevision rev).store impl := by
  rcases createRevision_cases st rev with ⟨h, _⟩ | ⟨h, _⟩
  · rw [h]; exact RevsFrom_refl st impl
  · rw [h]
    intro x hx
    simp only [List.mem_append, List.mem_singleton] at hx
    rcases hx with hx | hx
    · exact Or.inl hx
    · right; rw [hx]; exact ⟨hns, hlab⟩

theorem publish_revsFrom (r : Publisher) (st : Store) (impl : Referrer) (template : Template)
    (deps : Dependencies) (rev : Revision) (hns : rev.Namespace = impl.GetNamespace)
    (hlab : rev.Labels = [(LabelKeyName, impl.GetName)]) :
    RevsFrom st (r.publish st impl template deps rev).store impl := by
  unfold Publisher.publish
  have hc := createRevision_revsFrom st rev impl hns hlab
  generalize st.createRevision rev = res at hc
  obtain ⟨v, st1⟩ := res
  simp only at hc
  have key : ∀ (rev1 : Revision),
      RevsFrom st (match copyDependencies template.Namespace rev1 st1 deps with
        | ⟨.error e, st2⟩ => (⟨.error e, st2⟩ : Res Revision)
        | ⟨.ok _, st2⟩ =>
          match r.TrimRevisions st2 impl with
          | ⟨.error e, st3⟩ => ⟨.error e, st3⟩
          | ⟨.ok _, st3⟩ => ⟨.ok rev1, st3⟩).store impl := by
    intro rev1
    have hd := (copyDependencies_revisions template.Namespace rev1 deps st1).1
    generalize copyDependencies template.Namespace rev1 st1 deps = res2 at hd
    obtain ⟨v2, st2⟩ := res2
    simp only at hd
    have h2 : RevsFrom st st2 impl := RevsFrom_of_subset hc (fun x hx => by rw [hd] at hx; exact hx)
    cases v2 with
    | error e => exact h2
    | ok u =>
      simp only
      have ht := TrimRevisions_subset r st2 impl
      generalize r.TrimRevisions st2 impl = res3 at ht
      obtain ⟨v3, st3⟩ := res3
      cases v3 with
      | error e => exact RevsFrom_of_subset h2 (fun x hx => ht x hx)
      | ok u3 => exact RevsFrom_of_subset h2 (fun x hx => ht x hx)
  cases v with
  | ok stored => exact key stored
  | error e =>
    cases e <;> first
      | exact key rev
      | exact hc

/-- Whatever `Create` returns, the revisions it leaves are those stored before and revisions
that bear the name label of the referrer in its namespace. -/
theorem Create_revsFrom (L : Lib) (r : Publisher) (st : Store) (impl : Referrer) :
    RevsFrom st (r.Create L st impl).store impl := by
  unfold Publisher.Create
  cases r.resolve L st impl with
  | error e => exact RevsFrom_refl st impl
  | ok v =>
    obtain ⟨template, spec, deps⟩ := v
    simp only
    cases L.MarshalIndent spec with
    | error e => exact RevsFrom_refl st impl
    | ok data =>
      exact publish_revsFrom r st impl template deps _ (newRevision_fields r impl data).1
        (newRevision_fields r impl data).2.2.1

theorem createJob_revisions (st : Store) (job : batchv1.Job) :
    (st.createJob job).store.Revisions = st.Revisions := by
  unfold Store.createJob
  split <;> rfl

theorem createTask_revsFrom (L : Lib) (execution : Execution) (st : Store) (current : DagTask) :
    RevsFrom st (createTask L execution st current).store
      (NamespacedTask.asReferrer { Namespace := execution.Namespace, DagTask := current }) := by
  unfold createTask
  simp only
  have hc := Create_revsFrom L { patches := taskPatches current } st
    (NamespacedTask.asReferrer { Namespace := execution.Namespace, DagTask := current })
  generalize Publisher.Create L { patches := taskPatches current } st
    (NamespacedTask.asReferrer { Namespace := execution.Namespace, DagTask := current }) = res
    at hc
  obtain ⟨v, st1⟩ := res
  cases v with
  | error e => exact hc
  | ok rev =>
    simp only
    cases L.Unmarshal rev.GetData with
    | error e => exact hc
    | ok spec =>
      simp only
      exact RevsFrom_of_subset hc (fun x hx => by rw [createJob_revisions] at hx; exact hx)

theorem jobName_inj {run a b : String} (h : run ++ "-" ++ a = run ++ "-" ++ b) : a = b := by
  have hd := congrArg String.data h
  simp only [String.data_append] at hd
  exact String.ext (List.append_cancel_left hd)

theorem updateExecutionStatus_rest (st : Store) (e : Execution) :
    (st.updateExecutionStatus e).store.now = st.now ∧
    (st.updateExecutionStatus e).store.Templates = st.Templates ∧
    (st.updateExecutionStatus e).store.PodDefaults = st.PodDefaults ∧
    (st.updateExecutionStatus e).store.Objects = st.Objects := by
  unfold Store.updateExecutionStatus
  split <;> exact ⟨rfl, rfl, rfl, rfl⟩

/-- What holds of the store and the events before `recordTask`, and is kept by a status update
and by the record of an observation, holds after it. -/
theorem recordTask_preserves (P : Store → List Event → Prop) (s : LoopState) (stack : Stack)
    (current : DagTask) (task : batchv1.Job) (st1 : Store) (evs : List Event)
    (hupd : ∀ st evs x, P st evs → P (st.updateExecutionStatus x).store evs)
    (hobs : ∀ st evs name job, P st evs → P st (evs ++ [Event.observedComplete name job]))
    (h : P st1 evs) :
    P (recordTask s stack current task st1 evs).store
      (recordTask s stack current task st1 evs).trace := by
  unfold recordTask
  simp only
  by_cases hz : IsZero task.Status.CompletionTime = true
  · simp only [hz, if_true]
    split
    · exact hupd _ _ _ h
    · exact h
  · have hz1 : IsZero task.Status.CompletionTime = false := by simpa using hz
    simp only [hz1, Bool.false_eq_true, if_false]
    split
    · exact hupd _ _ _ (hobs _ _ _ _ h)
    · exact hobs _ _ _ _ h

/-- What holds of the store and the events at the head of an iteration, and is kept by a status
update, by the record of an observation and by the creation of the job of the popped task when
that task is ready and its job is not found, holds after the iteration. -/
theorem iterate_preserves (L : Lib) (tasks : List (String × DagTask)) (s : LoopState)
    (P : Store → List Event → Prop)
    (hupd : ∀ st evs x, P st evs → P (st.updateExecutionStatus x).store evs)
    (hobs : ∀ st evs name job, P st evs → P st (evs ++ [Event.observedComplete name job]))
    (hcreate : s.ready = true → ∀ err,
      s.store.getJob s.execution.Namespace
        (s.execution.Name ++ "-" ++ (s.stack.Pop).1.Name) = .error err →
      P (createTask L s.execution s.store (s.stack.Pop).1).store
        (match (createTask L s.execution s.store (s.stack.Pop).1).val with
         | .ok task => s.trace ++ [Event.created (s.stack.Pop).1 task]
         | .error _ => s.trace))
    (h : P s.store s.trace) :
    P (iterate L tasks s).store (iterate L tasks s).trace := by
  unfold iterate
  simp only
  split
  · exact h
  · rename_i hready
    have hready1 : s.ready = true := by
      simpa [LoopState.ready] using hready
    cases hg : s.store.getJob s.execution.Namespace
        (s.execution.Name ++ "-" ++ (s.stack.Pop).1.Name) with
    | ok task =>
      simp only
      exact recordTask_preserves P s _ _ task s.store s.trace hupd hobs h
    | error err =>
      simp only
      have hc := hcreate hready1 err hg
      generalize createTask L s.execution s.store (s.stack.Pop).1 = res at hc
      obtain ⟨v, st1⟩ := res
      cases v with
      | error e1 => exact hc
      | ok task => exact recordTask_preserves P s _ _ task st1 _ hupd hobs hc

theorem aggregate_preserves (P : Store → List Event → Prop) (s : LoopState)
    (hupd : ∀ st evs x, P st evs → P (st.updateExecutionStatus x).store evs)
    (h : P s.store s.trace) : P (aggregate s).store (aggregate s).trace := by
  unfold aggregate
  simp only
  split <;> exact hupd _ _ _ h

theorem Steps.head {L : Lib} {tasks : List (String × DagTask)} {s0 s1 s : LoopState}
    (hne : s0.stack.Empty = false) (hit : iterate L tasks s0 = .next s1)
    (h : Steps L tasks s1 s) : Steps L tasks s0 s := by
  induction h with
  | refl => exact Steps.step (Steps.refl s0) hne hit
  | step _ hne2 hit2 ih => exact Steps.step ih hne2 hit2

/-- Where a pass returns from: the aggregation at a state with the stack empty, or an iteration
that returns, at a state the loop reaches. -/
theorem traverse_cases (L : Lib) (tasks : List (String × DagTask)) :
    ∀ (fuel : Nat) (s0 : LoopState) (out : Returned), traverse L tasks fuel s0 = some out →
      ∃ s, Steps L tasks s0 s ∧
        ((s.stack.Empty = true ∧ out = aggregate s) ∨
         (s.stack.Empty = false ∧ iterate L tasks s = .done out))
  | 0, s0, out, ht => by
    unfold traverse at ht
    split at ht
    · rename_i hempty
      exact ⟨s0, Steps.refl s0, Or.inl ⟨hempty, (Option.some.inj ht).symm⟩⟩
    · exact Option.noConfusion ht
  | fuel + 1, s0, out, ht => by
    unfold traverse at ht
    split at ht
    · rename_i hempty
      exact ⟨s0, Steps.refl s0, Or.inl ⟨hempty, (Option.some.inj ht).symm⟩⟩
    · rename_i hne
      have hne1 : s0.stack.Empty = false := by simpa using hne
      cases hit : iterate L tasks s0 with
      | next s1 =>
        rw [hit] at ht
        obtain ⟨s, hs, hcase⟩ := traverse_cases L tasks fuel s1 out ht
        exact ⟨s, Steps.head hne1 hit hs, hcase⟩
      | done r =>
        rw [hit] at ht
        have : r = out := Option.some.inj ht
        exact ⟨s0, Steps.refl s0, Or.inr ⟨hne1, by rw [hit, this]⟩⟩

theorem getJob_congr {st st1 : Store} (h : st1.Jobs = st.Jobs) (ns name : String) :
    st1.getJob ns name = st.getJob ns name := by
  unfold Store.getJob
  rw [h]

theorem getJob_of_mem {st : Store} {ns name : String} {job : batchv1.Job} (hname : name ≠ "")
    (hmem : job ∈ st.Jobs) (hkey : job.hasKey ns name = true) :
    ∃ j, st.getJob ns name = .ok j := by
  cases hg : st.getJob ns name with
  | ok j => exact ⟨j, rfl⟩
  | error err =>
    have := getJob_error hname hg
    have hany : st.Jobs.any (fun j => j.hasKey ns name) = true :=
      List.any_eq_true.2 ⟨job, hmem, hkey⟩
    rw [this] at hany
    cases hany

theorem Untouched_update {st : Store} {e : Execution} {t : String} {store : Store}
    {evs : List Event} (x : Execution) (h : Untouched st e t store evs) :
    Untouched st e t (store.updateExecutionStatus x).store evs := by
  obtain ⟨h1, h2, h3, h4⟩ := h
  refine ⟨?_, ?_, h3, ?_⟩
  · rw [(updateExecutionStatus_frame store x).1]; exact h1
  · rw [(updateExecutionStatus_frame store x).1]; exact h2
  · rw [(updateExecutionStatus_frame store x).2.1]; exact h4

theorem Untouched_observed {st : Store} {e : Execution} {t : String} {store : Store}
    {evs : List Event} (name : String) (job : batchv1.Job) (h : Untouched st e t store evs) :
    Untouched st e t store (evs ++ [Event.observedComplete name job]) := by
  obtain ⟨h1, h2, h3, h4⟩ := h
  refine ⟨h1, h2, ?_, h4⟩
  intro task j hmem
  rcases List.mem_append.1 hmem with hm | hm
  · exact h3 task j hm
  · rw [List.mem_singleton] at hm
    cases hm

/-- An iteration of a pass over a store that holds the job of the task `t` creates nothing for
that task. -/
theorem iterate_untouched (L : Lib) (tasks : List (String × DagTask)) {st : Store}
    {e : Execution} {s : LoopState} {t : String} {job : batchv1.Job}
    (hjob : st.getJob e.Namespace (e.Name ++ "-" ++ t) = .ok job)
    (hname : s.execution.Name = e.Name) (hns : s.execution.Namespace = e.Namespace)
    (h : Untouched st e t s.store s.trace) :
    Untouched st e t (iterate L tasks s).store (iterate L tasks s).trace := by
  apply iterate_preserves L tasks s (Untouched st e t)
    (fun _ _ x hP => Untouched_update x hP) (fun _ _ name j hP => Untouched_observed name j hP)
    ?_ h
  intro _ err hg
  obtain ⟨hmem, hjns, hjname⟩ := getJob_ok hjob
  have hkey : job.hasKey e.Namespace (e.Name ++ "-" ++ t) = true := by
    simp [batchv1.Job.hasKey, hjns, hjname]
  have hne : (s.stack.Pop).1.Name ≠ t := by
    intro heq
    rw [heq, hname, hns] at hg
    obtain ⟨j, hj⟩ := getJob_of_mem (jobName_ne_empty e.Name t) (h.1 job hmem) hkey
    rw [hj] at hg
    cases hg
  obtain ⟨h1, h2, h3, h4⟩ := h
  have hrev := createTask_revsFrom L s.execution s.store (s.stack.Pop).1
  obtain ⟨_, _, hcase⟩ := createTask_cases L s.execution s.store (s.stack.Pop).1
  generalize createTask L s.execution s.store (s.stack.Pop).1 = res at hrev hcase
  obtain ⟨v, st1⟩ := res
  simp only at hrev hcase
  have hrevs : ∀ x ∈ st1.Revisions, x.Namespace = e.Namespace →
      x.Labels.lookup LabelKeyName = some t → x ∈ st.Revisions := by
    intro x hx hxns hxlab
    rcases hrev x hx with hold | ⟨_, hlab⟩
    · exact h4 x hold hxns hxlab
    · rw [hlab] at hxlab
      simp [List.lookup, NamespacedTask.asReferrer] at hxlab
      exact absurd hxlab hne
  rcases hcase with ⟨e1, hv, hJ⟩ | ⟨spec, hv, hJ⟩
  · subst hv
    refine ⟨?_, ?_, h3, hrevs⟩
    · intro j hj; show j ∈ st1.Jobs; rw [hJ]; exact h1 j hj
    · intro j hj; exact h2 j (by rw [← hJ]; exact hj)
  · subst hv
    refine ⟨?_, ?_, ?_, hrevs⟩
    · intro j hj
      show j ∈ st1.Jobs
      rw [hJ]
      exact List.mem_append_left _ (h1 j hj)
    · intro j hj hk
      have hj1 : j ∈ s.store.Jobs ++ [newJob s.execution (s.stack.Pop).1 spec] := by
        rw [← hJ]; exact hj
      rcases List.mem_append.1 hj1 with hm | hm
      · exact h2 j hm hk
      · rw [List.mem_singleton] at hm
        rw [hm] at hk
        have hk2 : s.execution.Namespace = e.Namespace ∧
            s.execution.Name ++ "-" ++ (s.stack.Pop).1.Name = e.Name ++ "-" ++ t := by
          simpa [batchv1.Job.hasKey, newJob] using hk
        have hnm := hk2.2
        rw [hname] at hnm
        exact absurd (jobName_inj hnm) hne
    · intro task j hmemev
      rcases List.mem_append.1 hmemev with hm | hm
      · exact h3 task j hm
      · rw [List.mem_singleton] at hm
        injection hm with htask _
        rw [htask]; exact hne

theorem Unchanged_update {st store : Store} {evs : List Event} (x : Execution)
    (h : Unchanged st store evs) : Unchanged st (store.updateExecutionStatus x).store evs := by
  obtain ⟨h1, h2, h3, h4, h5, h6, h7, h8, h9⟩ := h
  have hf := updateExecutionStatus_frame store x
  have hr := updateExecutionStatus_rest store x
  exact ⟨hr.1.trans h1, hf.2.2.1.trans h2, hr.2.1.trans h3, hr.2.2.1.trans h4,
    hf.2.1.trans h5, hf.1.trans h6, hr.2.2.2.trans h7, hf.2.2.2.trans h8, h9⟩

theorem Unchanged_observed {st store : Store} {evs : List Event} (name : String)
    (job : batchv1.Job) (h : Unchanged st store evs) :
    Unchanged st store (evs ++ [Event.observedComplete name job]) := by
  obtain ⟨h1, h2, h3, h4, h5, h6, h7, h8, h9⟩ := h
  exact ⟨h1, h2, h3, h4, h5, h6, h7, h8, by rw [createdJobs_observed]; exact h9⟩

theorem Unchanged_refl (st : Store) : Unchanged st st [] :=
  ⟨rfl, rfl, rfl, rfl, rfl, rfl, rfl, rfl, rfl⟩

/-- An iteration that finds the job of the popped task stored whenever that task is ready
creates nothing. -/
theorem iterate_unchanged (L : Lib) (tasks : List (String × DagTask)) {st : Store}
    {e : Execution} {s : LoopState}
    (hname : s.execution.Name = e.Name) (hns : s.execution.Namespace = e.Namespace)
    (hpresent : s.ready = true →
      ∃ job, st.getJob e.Namespace (e.Name ++ "-" ++ (s.stack.Pop).1.Name) = .ok job)
    (h : Unchanged st s.store s.trace) :
    Unchanged st (iterate L tasks s).store (iterate L tasks s).trace := by
  apply iterate_preserves L tasks s (Unchanged st)
    (fun _ _ x hP => Unchanged_update x hP) (fun _ _ name j hP => Unchanged_observed name j hP)
    ?_ h
  intro hready err hg
  obtain ⟨job, hjob⟩ := hpresent hready
  rw [getJob_congr h.2.2.2.2.2.1, hname, hns, hjob] at hg
  cases hg

theorem Steps_untouched {L : Lib} {tasks : List (String × DagTask)} {st : Store}
    {e : Execution} {dag : Dag} {t : String} {job : batchv1.Job}
    (hjob : st.getJob e.Namespace (e.Name ++ "-" ++ t) = .ok job) {s : LoopState}
    (h : Steps L tasks (initialState st e dag) s) : Untouched st e t s.store s.trace := by
  induction h with
  | refl =>
    refine ⟨fun _ hj => hj, fun _ hj _ => hj, ?_, fun _ hx _ _ => hx⟩
    intro task j hm
    exact absurd hm (List.not_mem_nil _)
  | step hprev _ hit ih =>
    have hinv := Steps_inv (initialState_inv st e dag) hprev
    have := iterate_untouched L tasks hjob hinv.name hinv.ns ih
    rw [hit] at this
    exact this

theorem Steps_unchanged {L : Lib} {tasks : List (String × DagTask)} {st : Store}
    {e : Execution} {dag : Dag}
    (hpresent : ∀ s, Steps L tasks (initialState st e dag) s → s.stack.Empty = false →
      s.ready = true →
      ∃ job, st.getJob e.Namespace (e.Name ++ "-" ++ (s.stack.Pop).1.Name) = .ok job)
    {s : LoopState} (h : Steps L tasks (initialState st e dag) s) :
    Unchanged st s.store s.trace := by
  induction h with
  | refl => exact Unchanged_refl st
  | step hprev hne hit ih =>
    have hinv := Steps_inv (initialState_inv st e dag) hprev
    have := iterate_unchanged L tasks hinv.name hinv.ns (hpresent _ hprev hne) ih
    rw [hit] at this
    exact this

/-- The states of the pass over the single-task run whose job is stored and not complete. -/
theorem exampleSolo_reach (s : LoopState)
    (h : Steps Ref.lib exampleSingleDag.TaskMap
      (initialState (exampleStoreSolo [exampleSoloPending]) exampleSoloRun exampleSingleDag) s) :
    s = initialState (exampleStoreSolo [exampleSoloPending]) exampleSoloRun exampleSingleDag ∨
      s = exampleSoloDrained := by
  induction h with
  | refl => exact Or.inl rfl
  | step _ hne hit ih =>
    rcases ih with h1 | h1
    · rw [h1] at hit
      have hd : iterate Ref.lib exampleSingleDag.TaskMap
          (initialState (exampleStoreSolo [exampleSoloPending]) exampleSoloRun
            exampleSingleDag) = .next exampleSoloDrained := by decide
      rw [hd] at hit
      injection hit with hit
      exact Or.inr hit.symm
    · rw [h1] at hne
      exact absurd hne (by decide)

/-- C12. Over a store that holds the job named run-task of a task, a pass creates nothing for
that task, at any point and in what it returns: the jobs stored before are still stored, every
job stored under that name was stored before, no job was created for a task of that name, and
every stored revision that bears the name of the task in the namespace of the run was stored
before. And when every task the traversal pops with its dependencies complete has its job
stored, the pass creates no object at all: at any point and in what it returns the store holds
the graphs, templates, overlays, revisions, jobs and dependency objects it held before, the runs
under the same names, and no job was created. -/
theorem Reconcile_never_duplicates (L : Lib) (st : Store) (req : NamespacedName)
    (e : Execution) (dag : Dag) (hget : st.getExecution req = .ok e)
    (hnc : e.Status.Completed = false)
    (hdag : st.getDag { Name := e.Spec.DagRef.Name, Namespace := e.Namespace } = .ok dag) :
    (∀ (t : String) (job : batchv1.Job),
      st.getJob e.Namespace (e.Name ++ "-" ++ t) = .ok job →
      (∀ s, Steps L dag.TaskMap (initialState st e dag) s → Untouched st e t s.store s.trace) ∧
      (∀ fuel out, Reconcile L fuel st req = some out → Untouched st e t out.store out.trace)) ∧
    ((∀ s, Steps L dag.TaskMap (initialState st e dag) s → s.stack.Empty = false →
        s.ready = true →
        ∃ job, st.getJob e.Namespace (e.Name ++ "-" ++ (s.stack.Pop).1.Name) = .ok job) →
      (∀ s, Steps L dag.TaskMap (initialState st e dag) s → Unchanged st s.store s.trace) ∧
      (∀ fuel out, Reconcile L fuel st req = some out → Unchanged st out.store out.trace)) := by
  constructor
  · intro t job hjob
    refine ⟨fun s hs => Steps_untouched hjob hs, ?_⟩
    intro fuel out hout
    rw [Reconcile_eq_traverse L fuel hget hnc hdag] at hout
    obtain ⟨s, hs, hcase⟩ := traverse_cases L dag.TaskMap fuel _ out hout
    have hU := Steps_untouched hjob hs
    have hinv := Steps_inv (initialState_inv st e dag) hs
    rcases hcase with ⟨_, hagg⟩ | ⟨_, hit⟩
    · rw [hagg]
      exact aggregate_preserves (Untouched st e t) s (fun _ _ x hP => Untouched_update x hP) hU
    · have := iterate_untouched L dag.TaskMap hjob hinv.name hinv.ns hU
      rw [hit] at this
      exact this
  · intro hpresent
    refine ⟨fun s hs => Steps_unchanged hpresent hs, ?_⟩
    intro fuel out hout
    rw [Reconcile_eq_traverse L fuel hget hnc hdag] at hout
    obtain ⟨s, hs, hcase⟩ := traverse_cases L dag.TaskMap fuel _ out hout
    have hU := Steps_unchanged hpresent hs
    have hinv := Steps_inv (initialState_inv st e dag) hs
    rcases hcase with ⟨_, hagg⟩ | ⟨hne, hit⟩
    · rw [hagg]
      exact aggregate_preserves (Unchanged st) s (fun _ _ x hP => Unchanged_update x hP) hU
    · have := iterate_unchanged L dag.TaskMap hinv.name hinv.ns (hpresent s hs hne) hU
      rw [hit] at this
      exact this

theorem Reconcile_never_duplicates_witness :
    Reconcile Ref.lib 1 (exampleStoreSolo [exampleSoloPending])
        { Namespace := "ns", Name := "solo" } = some exampleSoloPass ∧
    exampleSoloPass.store.Jobs = [exampleSoloPending] ∧
    exampleSoloPass.store.Revisions = [] ∧
    Untouched (exampleStoreSolo [exampleSoloPending]) exampleSoloRun "t2"
      exampleSoloPass.store exampleSoloPass.trace ∧
    Unchanged (exampleStoreSolo [exampleSoloPending]) exampleSoloPass.store
      exampleSoloPass.trace :=
  ⟨by decide, by decide, by decide,
   ((Reconcile_never_duplicates Ref.lib (exampleStoreSolo [exampleSoloPending])
      { Namespace := "ns", Name := "solo" } exampleSoloRun exampleSingleDag
      (by decide) (by decide) (by decide)).1 "t2" exampleSoloPending (by decide)).2 1
      exampleSoloPass (by decide),
   ((Reconcile_never_duplicates Ref.lib (exampleStoreSolo [exampleSoloPending])
      { Namespace := "ns", Name := "solo" } exampleSoloRun exampleSingleDag
      (by decide) (by decide) (by decide)).2
      (fun s hs hne _ => by
        rcases exampleSolo_reach s hs with h1 | h1
        · rw [h1]; exact ⟨exampleSoloPending, by decide⟩
        · rw [h1] at hne; exact absurd hne (by decide))).2 1 exampleSoloPass (by decide)⟩

/-! ## Listing, the latest revision, and the re-push of a popped task -/

/-- C21, counterexample. The store lists the revisions of `nb` created at the times 2, 1 and 3
in that order; `List` returns them in that order, which is not the order of creation, neither
oldest first nor newest first. -/
theorem List_not_ordered_by_creation :
    (({ patches := [] } : Publisher).List exampleStoreShuffled
        (exampleReferrer 1 UpdatePolicyIgnore)).map (fun x => x.CreationTimestamp) = [2, 1, 3] ∧
    ¬ (({ patches := [] } : Publisher).List exampleStoreShuffled
        (exampleReferrer 1 UpdatePolicyIgnore)).Sorted
          (fun a b => a.CreationTimestamp ≤ b.CreationTimestamp) ∧
    ¬ (({ patches := [] } : Publisher).List exampleStoreShuffled
        (exampleReferrer 1 UpdatePolicyIgnore)).Sorted
          (fun a b => b.CreationTimestamp ≤ a.CreationTimestamp) := by
  decide

/-- C21, amended. `List` returns exactly the stored revisions that are in the namespace of the
referrer and carry its name under the name label, each as often as it is stored and in the order
in which the store lists them; no ordering by creation time is applied. -/
theorem List_returns_labelled_revisions (r : Publisher) (st : Store) (impl : Referrer) :
    r.List st impl =
      st.Revisions.filter (fun x =>
        x.Namespace == impl.GetNamespace &&
          x.Labels.lookup LabelKeyName == some impl.GetName) ∧
    (∀ x, x ∈ r.List st impl ↔
      x ∈ st.Revisions ∧ x.Namespace = impl.GetNamespace ∧
        x.Labels.lookup LabelKeyName = some impl.GetName) ∧
    (r.List st impl).Sublist st.Revisions := by
  refine ⟨?_, mem_List r st impl, List_sublist r st impl⟩
  unfold Publisher.List Store.listRevisions Publisher.revisionLabelSet
  apply List.filter_congr
  intro x _
  simp [matchesLabels]

/-- C22. `Latest` returns none when `List` selects no revision of the referrer, and otherwise
one of the revisions `List` selects whose creation time is not earlier than that of any of
them. -/
theorem Latest_is_most_recent (r : Publisher) (st : Store) (impl : Referrer) :
    (r.List st impl = [] → r.Latest st impl = none) ∧
    (r.List st impl ≠ [] → ∃ l, r.Latest st impl = some l ∧ l ∈ r.List st impl ∧
      ∀ x ∈ r.List st impl, x.CreationTimestamp ≤ l.CreationTimestamp) := by
  unfold Publisher.Latest
  constructor
  · intro h
    rw [h]; rfl
  · intro h
    have hs := sortReverse_sorted (r.List st impl)
    have hperm := sortReverse_perm (r.List st impl)
    cases hl : sortReverse (r.List st impl) with
    | nil =>
      rw [hl] at hperm
      exact absurd hperm.symm.eq_nil h
    | cons l rest =>
      refine ⟨l, rfl, mem_sortReverse.1 (by rw [hl]; exact List.mem_cons_self _ _), ?_⟩
      intro x hx
      have hx1 : x ∈ l :: rest := by rw [← hl]; exact mem_sortReverse.2 hx
      rw [hl] at hs
      rcases List.mem_cons.1 hx1 with rfl | hx2
      · exact le_refl _
      · exact List.rel_of_sorted_cons hs x hx2

theorem Latest_is_most_recent_witness :
    ∃ l, ({ patches := [] } : Publisher).Latest exampleStoreShuffled
        (exampleReferrer 1 UpdatePolicyIgnore) = some l ∧
      l ∈ ({ patches := [] } : Publisher).List exampleStoreShuffled
        (exampleReferrer 1 UpdatePolicyIgnore) ∧
      ∀ x ∈ ({ patches := [] } : Publisher).List exampleStoreShuffled
        (exampleReferrer 1 UpdatePolicyIgnore), x.CreationTimestamp ≤ l.CreationTimestamp :=
  (Latest_is_most_recent { patches := [] } exampleStoreShuffled
    (exampleReferrer 1 UpdatePolicyIgnore)).2 (by decide)

theorem Pop_Push_of_within {s : Stack} (hcap : s.WithinCapacity) (hne : s.tasks ≠ [])
    (x : DagTask) :
    s.Pop.1 = s.tasks.getLast hne ∧
    s.Pop.2 = { s with tasks := s.tasks.dropLast } ∧
    s.Pop.2.Push x = { s with tasks := s.tasks.dropLast ++ [x] } := by
  have hlast : s.tasks.getLast? = some (s.tasks.getLast hne) := List.getLast?_eq_getLast _ hne
  have hpop : s.Pop = (s.tasks.getLast hne, { s with tasks := s.tasks.dropLast }) := by
    unfold Stack.Pop
    rw [hlast]
  refine ⟨by rw [hpop], by rw [hpop], ?_⟩
  rw [hpop]
  unfold Stack.Push
  have hlen : 0 < s.tasks.length := List.length_pos.2 hne
  have hcap1 : (s.tasks.length : Int) ≤ max s.maxSize 0 := hcap
  rw [if_pos]
  simp only [List.length_dropLast]
  rcases le_max_iff.1 hcap1 with h | h
  · omega
  · omega

theorem Push_extends (s : Stack) (x : DagTask) : s.tasks <+: (s.Push x).tasks := by
  unfold Stack.Push
  split
  · exact List.prefix_append _ _
  · exact List.prefix_refl _

theorem Push_within {s : Stack} (h : s.WithinCapacity) (x : DagTask) :
    (s.Push x).WithinCapacity := by
  unfold Stack.WithinCapacity
  rw [(Push_length s x).1]
  exact (Push_length s x).2 h

theorem Pop_within {s : Stack} (h : s.WithinCapacity) : s.Pop.2.WithinCapacity := by
  unfold Stack.WithinCapacity at *
  rw [(Pop_length s).1]
  have := (Pop_length s).2
  omega

theorem foldl_Push_spec (tasks : List (String × DagTask)) (completed : List String)
    (deps : List String) :
    ∀ stack : Stack, stack.WithinCapacity →
      (deps.foldl (fun stack dep =>
        if !completed.contains dep then stack.Push (taskAt tasks dep) else stack)
        stack).WithinCapacity ∧
      stack.tasks <+: (deps.foldl (fun stack dep =>
        if !completed.contains dep then stack.Push (taskAt tasks dep) else stack)
        stack).tasks := by
  induction deps with
  | nil => intro stack h; exact ⟨h, List.prefix_refl _⟩
  | cons dep rest ih =>
    intro stack h
    rw [List.foldl_cons]
    by_cases hc : (!completed.contains dep) = true
    · rw [if_pos hc]
      have := ih (stack.Push (taskAt tasks dep)) (Push_within h _)
      exact ⟨this.1, (Push_extends stack _).trans this.2⟩
    · rw [if_neg hc]
      exact ih stack h

theorem recordTask_next_stack {s s1 : LoopState} {stack : Stack} {current : DagTask}
    {task : batchv1.Job} {st : Store} {evs : List Event}
    (h : recordTask s stack current task st evs = .next s1) : s1.stack = stack := by
  unfold recordTask at h
  simp only at h
  split at h
  · cases h
  · injection h with h
    rw [← h]

/-- The stack stays within its capacity over an iteration of the loop. -/
theorem iterate_within (L : Lib) (tasks : List (String × DagTask)) {s s1 : LoopState}
    (hcap : s.stack.WithinCapacity) (h : iterate L tasks s = .next s1) :
    s1.stack.WithinCapacity := by
  unfold iterate at h
  simp only at h
  split at h
  · injection h with h
    rw [← h]
    exact (foldl_Push_spec tasks s.completed _ _ (Push_within (Pop_within hcap) _)).1
  · cases hg : s.store.getJob s.execution.Namespace
        (s.execution.Name ++ "-" ++ (s.stack.Pop).1.Name) with
    | ok task =>
      rw [hg] at h
      simp only at h
      rw [recordTask_next_stack h]
      exact Pop_within hcap
    | error err =>
      rw [hg] at h
      simp only at h
      generalize createTask L s.execution s.store (s.stack.Pop).1 = res at h
      obtain ⟨v, st1⟩ := res
      cases v with
      | error e1 => cases h
      | ok task =>
        simp only at h
        rw [recordTask_next_stack h]
        exact Pop_within hcap

theorem initialState_within (st : Store) (e : Execution) (dag : Dag) :
    (initialState st e dag).stack.WithinCapacity := by
  apply Push_within
  simp [Stack.WithinCapacity, NewStack]

theorem Steps_within {L : Lib} {tasks : List (String × DagTask)} {st : Store} {e : Execution}
    {dag : Dag} {s : LoopState} (h : Steps L tasks (initialState st e dag) s) :
    s.stack.WithinCapacity := by
  induction h with
  | refl => exact initialState_within st e dag
  | step _ _ hit ih => exact iterate_within L tasks ih hit

/-- C30. On a stack made by `NewStack c` and any sequence of `Push` and `Pop` that holds at
least one task, `Pop` followed by `Push x` leaves the tasks below the top unchanged and `x` on
top. In the traversal, at every state the loop reaches with a task on the stack whose popped
task has a dependency that is not complete, the iteration goes on with a stack that begins with
the whole stack as it was: the popped task is back in its place, below the dependencies
pushed. -/
theorem Push_after_Pop_is_never_dropped (c : Int) (ops : List StackOp) (x : DagTask)
    (hne : ((NewStack c).run ops).tasks ≠ []) :
    (((NewStack c).run ops).Pop.2.Push x).tasks = ((NewStack c).run ops).tasks.dropLast ++ [x] ∧
    (((NewStack c).run ops).Pop.2.Push x).maxSize = c ∧
    (∀ (L : Lib) (st : Store) (e : Execution) (dag : Dag) (s : LoopState),
      Steps L dag.TaskMap (initialState st e dag) s → s.stack.Empty = false →
      s.ready = false →
      ∃ s1, iterate L dag.TaskMap s = .next s1 ∧ s.stack.tasks <+: s1.stack.tasks ∧
        (s.stack.Pop).1 ∈ s1.stack.tasks ∧ s1.store = s.store) := by
  have hb := run_bounded ops (NewStack c) (by simp [NewStack])
  have hcap : ((NewStack c).run ops).WithinCapacity := by
    unfold Stack.WithinCapacity
    rw [hb.1]; exact hb.2
  have hpp := (Pop_Push_of_within hcap hne x).2.2
  refine ⟨by rw [hpp], by rw [hpp]; exact hb.1, ?_⟩
  intro L st e dag s hs hnempty hready
  have hcap1 := Steps_within hs
  have hne1 : s.stack.tasks ≠ [] := by
    intro h0
    simp [Stack.Empty, h0] at hnempty
  obtain ⟨hp1, hp2, hp3⟩ := Pop_Push_of_within hcap1 hne1 (s.stack.Pop).1
  have hnr : (!((s.stack.Pop).1.Dependencies.all (fun dep => s.completed.contains dep))) = true := by
    have : (s.stack.Pop).1.Dependencies.all (fun dep => s.completed.contains dep) = false := hready
    rw [this]; rfl
  have hfold := foldl_Push_spec dag.TaskMap s.completed (s.stack.Pop).1.Dependencies
    ((s.stack.Pop).2.Push (s.stack.Pop).1) (Push_within (Pop_within hcap1) _)
  have hsame : ((s.stack.Pop).2.Push (s.stack.Pop).1).tasks = s.stack.tasks := by
    rw [hp3]
    simp only
    rw [hp1]
    exact List.dropLast_append_getLast hne1
  obtain ⟨s1, hs1⟩ : ∃ s1 : LoopState, s1 =
      { s with stack := (List.foldl (fun stack dep =>
            if !s.completed.contains dep then stack.Push (taskAt dag.TaskMap dep) else stack)
          ((s.stack.Pop).2.Push (s.stack.Pop).1) (s.stack.Pop).1.Dependencies) } := ⟨_, rfl⟩
  refine ⟨s1, ?_, ?_, ?_, ?_⟩
  · unfold iterate
    simp only
    rw [if_pos hnr, hs1]
  · rw [hs1]
    simp only
    rw [← hsame]
    exact hfold.2
  · rw [hs1]
    simp only
    apply hfold.2.subset
    rw [hsame, hp1]
    exact List.getLast_mem hne1
  · rw [hs1]

theorem Push_after_Pop_is_never_dropped_witness :
    (((NewStack 1).run [.push exampleT1]).Pop.2.Push exampleT2).tasks =
      ((NewStack 1).run [.push exampleT1]).tasks.dropLast ++ [exampleT2] ∧
    (((NewStack 1).run [.push exampleT1]).Pop.2.Push exampleT2).maxSize = 1 :=
  ⟨(Push_after_Pop_is_never_dropped 1 [.push exampleT1] exampleT2 (by decide)).1,
   (Push_after_Pop_is_never_dropped 1 [.push exampleT1] exampleT2 (by decide)).2.1⟩

/-! ## Notebooks as referrers -/

theorem foldl_append_singleton {α β : Type} (f : α → β) (items : List α) :
    ∀ init : List β, items.foldl (fun opts item => opts ++ [f item]) init =
      init ++ items.map f := by
  induction items with
  | nil => intro init; simp
  | cons a rest ih =>
    intro init
    rw [List.foldl_cons, ih, List.map_cons, List.append_assoc]
    rfl

theorem ElectedOptions_eq (nb : Notebook) :
    nb.ElectedOptions =
      List.replicate nb.Spec.Options.length ({ Name := "" } : corev1.LocalObjectReference) ++
        nb.Spec.Options.map (fun item => ({ Name := item } : corev1.LocalObjectReference)) := by
  unfold Notebook.ElectedOptions
  exact foldl_append_singleton _ _ _

/-- C26, the divergence. `TemplateRef()` returns the name declared in the template reference of
the notebook with the namespace of the notebook itself, whatever namespace the reference
declares. For the notebook `nb` of the namespace `user` that refers to `ns/tmpl`, which the
controller running in `ns` admits, it returns `user/tmpl`; the template is stored under
`ns/tmpl`, and `Create` for the notebook fails with the not-found error of the store. -/
theorem Notebook_TemplateRef_returns_own_namespace (nb : Notebook) :
    nb.TemplateRef = { Name := nb.Spec.TemplateRef.Name, Namespace := nb.Namespace } ∧
    templateRefAdmitted "ns" (exampleNotebook "user" []) = true ∧
    (exampleNotebook "user" []).Spec.TemplateRef.Namespace = "ns" ∧
    (exampleNotebook "user" []).TemplateRef = { Name := "tmpl", Namespace := "user" } ∧
    exampleStoreReverted.getTemplate { Name := "tmpl", Namespace := "ns" } = .ok exampleTemplate ∧
    ({ patches := [] } : Publisher).Create Ref.lib exampleStoreReverted
        (exampleNotebook "user" []).asReferrer = ⟨.error .notFound, exampleStoreReverted⟩ :=
  ⟨rfl, by decide, by decide, by decide, by decide, by decide⟩

/-- C28, the divergence. `ElectedOptions()` returns twice as many references as the notebook
selects options: as many references with the empty name, then one reference for each selected
option, in order. For a notebook that selects the option `e`, which its template offers,
`Create` fails with the error that the option of the empty name was not found. -/
theorem Notebook_ElectedOptions_doubles (nb : Notebook) :
    nb.ElectedOptions =
      List.replicate nb.Spec.Options.length ({ Name := "" } : corev1.LocalObjectReference) ++
        nb.Spec.Options.map (fun item => ({ Name := item } : corev1.LocalObjectReference)) ∧
    nb.ElectedOptions.length = 2 * nb.Spec.Options.length ∧
    (exampleNotebook "ns" ["e"]).ElectedOptions = [{ Name := "" }, { Name := "e" }] ∧
    (exampleNotebook "ns" []).ElectedOptions = [] ∧
    ({ patches := [] } : Publisher).Create Ref.lib exampleStoreOverlays
        (exampleNotebook "ns" ["e"]).asReferrer =
      ⟨.error (.errorf (ErrReferencedOptionNotFound ++ ": " ++ "")), exampleStoreOverlays⟩ := by
  refine ⟨ElectedOptions_eq nb, ?_, by decide, by decide, by decide⟩
  rw [ElectedOptions_eq]
  simp only [List.length_append, List.length_replicate, List.length_map]
  omega

/-! ## What Create persists -/

theorem createRevision_rest (st : Store) (rev : Revision) :
    (st.createRevision rev).store.Objects = st.Objects := by
  unfold Store.createRevision
  split <;> rfl

/-- The copy loop reads every dependency by the empty name, so with a dependency to copy it
fails on the first, and it never stores anything. -/
theorem copyDependencies_store (ns : String) (rev : Revision) (st : Store)
    (deps : Dependencies) :
    (copyDependencies ns rev st deps).store = st ∧
    (deps ≠ [] → (copyDependencies ns rev st deps).val = .error .notFound) ∧
    (deps = [] → (copyDependencies ns rev st deps).val = .ok ()) := by
  cases deps with
  | nil => exact ⟨rfl, fun h => absurd rfl h, fun _ => rfl⟩
  | cons dep rest =>
    unfold copyDependencies
    rw [getObject_empty]
    exact ⟨rfl, fun _ => rfl, fun h => by cases h⟩

theorem TrimRevisions_objects (r : Publisher) (st : Store) (impl : Referrer) :
    (r.TrimRevisions st impl).store.Objects = st.Objects := by
  unfold Publisher.TrimRevisions
  simp only
  split
  · rfl
  · rw [trimLoop_frame]

/-- What holds between the store before and the store after each step of the second part of
`Create`, and composes, holds between the store before and the store after that part. -/
theorem publish_preserves (R : Store → Store → Prop)
    (htrans : ∀ a b c, R a b → R b c → R a c)
    (r : Publisher) (impl : Referrer)
    (hcreate : ∀ st rev, R st (st.createRevision rev).store)
    (htrim : ∀ st, R st (r.TrimRevisions st impl).store)
    (st : Store) (template : Template) (deps : Dependencies) (rev : Revision) :
    R st (r.publish st impl template deps rev).store := by
  unfold Publisher.publish
  have hc := hcreate st rev
  generalize st.createRevision rev = res at hc
  obtain ⟨v, st1⟩ := res
  simp only at hc
  have key : ∀ (rev1 : Revision),
      R st (match copyDependencies template.Namespace rev1 st1 deps with
        | ⟨.error e, st2⟩ => (⟨.error e, st2⟩ : Res Revision)
        | ⟨.ok _, st2⟩ =>
          match r.TrimRevisions st2 impl with
          | ⟨.error e, st3⟩ => ⟨.error e, st3⟩
          | ⟨.ok _, st3⟩ => ⟨.ok rev1, st3⟩).store := by
    intro rev1
    have hd := (copyDependencies_store template.Namespace rev1 st1 deps).1
    generalize copyDependencies template.Namespace rev1 st1 deps = res2 at hd
    obtain ⟨v2, st2⟩ := res2
    simp only at hd
    subst hd
    cases v2 with
    | error e => exact hc
    | ok u =>
      simp only
      have ht := htrim st2
      generalize r.TrimRevisions st2 impl = res3 at ht
      obtain ⟨v3, st3⟩ := res3
      cases v3 with
      | error e => exact htrans _ _ _ hc ht
      | ok u3 => exact htrans _ _ _ hc ht
  cases v with
  | ok stored => exact key stored
  | error e =>
    cases e <;> first
      | exact key rev
      | exact hc

theorem Create_cases (L : Lib) (r : Publisher) (st : Store) (impl : Referrer) :
    (∃ e, r.Create L st impl = ⟨.error e, st⟩) ∨
    ∃ (template : Template) (spec : PodTemplateSpec) (deps : Dependencies) (data : Bytes),
      r.resolve L st impl = .ok (template, spec, deps) ∧ L.MarshalIndent spec = .ok data ∧
      r.Create L st impl = r.publish st impl template deps (r.newRevision impl data) := by
  unfold Publisher.Create
  cases hres : r.resolve L st impl with
  | error e => exact Or.inl ⟨e, rfl⟩
  | ok v =>
    obtain ⟨template, spec, deps⟩ := v
    simp only
    cases hm : L.MarshalIndent spec with
    | error e => exact Or.inl ⟨e, rfl⟩
    | ok data => exact Or.inr ⟨template, spec, deps, data, rfl, hm, rfl⟩

/-- `Create` never stores a dependency object. -/
theorem Create_objects (L : Lib) (r : Publisher) (st : Store) (impl : Referrer) :
    (r.Create L st impl).store.Objects = st.Objects := by
  rcases Create_cases L r st impl with ⟨e, h⟩ | ⟨template, spec, deps, data, _, _, h⟩
  · rw [h]
  · rw [h]
    exact publish_preserves (fun a b => b.Objects = a.Objects)
      (fun _ _ _ h1 h2 => h2.trans h1) r impl (fun st rev => createRevision_rest st rev)
      (fun st => TrimRevisions_objects r st impl) st template deps _

/-- A successful `Create` had no dependency to copy. -/
theorem Create_ok_no_dependencies {L : Lib} {r : Publisher} {st st2 : Store} {impl : Referrer}
    {out : Revision} (h : r.Create L st impl = ⟨.ok out, st2⟩) :
    ∃ (template : Template) (spec : PodTemplateSpec),
      r.resolve L st impl = .ok (template, spec, []) := by
  obtain ⟨template, spec, deps, data, hres, _, hpub⟩ := Create_ok h
  refine ⟨template, spec, ?_⟩
  cases deps with
  | nil => exact hres
  | cons dep rest =>
    exfalso
    unfold Publisher.publish at hpub
    generalize st.createRevision (r.newRevision impl data) = res at hpub
    obtain ⟨v, st1⟩ := res
    have key : ∀ (rev1 : Revision),
        (match copyDependencies template.Namespace rev1 st1 (dep :: rest) with
          | ⟨.error e, st2⟩ => (⟨.error e, st2⟩ : Res Revision)
          | ⟨.ok _, st2⟩ =>
            match r.TrimRevisions st2 impl with
            | ⟨.error e, st3⟩ => ⟨.error e, st3⟩
            | ⟨.ok _, st3⟩ => ⟨.ok rev1, st3⟩) ≠ ⟨.ok out, st2⟩ := by
      intro rev1 hk
      have hd := (copyDependencies_store template.Namespace rev1 st1 (dep :: rest)).2.1
        (List.cons_ne_nil _ _)
      generalize copyDependencies template.Namespace rev1 st1 (dep :: rest) = res2 at hd hk
      obtain ⟨v2, st2a⟩ := res2
      simp only at hd
      subst hd
      simp at hk
    cases v with
    | ok stored => exact key stored hpub
    | error e =>
      cases e
      case alreadyExists => exact key (r.newRevision impl data) hpub
      all_goals simp at hpub

/-- The revisions `Create` leaves, whatever it returns, are those stored before and at most
the revision it built, stamped with the time of the store. -/
theorem Create_added (L : Lib) (r : Publisher) (st : Store) (impl : Referrer) :
    ∀ x ∈ (r.Create L st impl).store.Revisions, x ∈ st.Revisions ∨
      ∃ data, x = { r.newRevision impl data with CreationTimestamp := st.now } ∧
        ∀ z ∈ st.Revisions, z.key ≠ x.key := by
  rcases Create_cases L r st impl with ⟨e, h⟩ | ⟨template, spec, deps, data, _, _, h⟩
  · rw [h]; exact fun x hx => Or.inl hx
  · rw [h]
    unfold Publisher.publish
    have hc : ∀ x ∈ (st.createRevision (r.newRevision impl data)).store.Revisions,
        x ∈ st.Revisions ∨
          ∃ data, x = { r.newRevision impl data with CreationTimestamp := st.now } ∧
            ∀ z ∈ st.Revisions, z.key ≠ x.key := by
      rcases createRevision_cases st (r.newRevision impl data) with ⟨hcr, _⟩ | ⟨hcr, hfresh⟩
      · rw [hcr]; exact fun x hx => Or.inl hx
      · rw [hcr]
        intro x hx
        simp only [List.mem_append, List.mem_singleton] at hx
        rcases hx with hx | hx
        · exact Or.inl hx
        · exact Or.inr ⟨data, hx, fun z hz => by rw [hx]; exact hfresh z hz⟩
    generalize st.createRevision (r.newRevision impl data) = res at hc
    obtain ⟨v, st1⟩ := res
    simp only at hc
    have key : ∀ (rev1 : Revision),
        ∀ x ∈ (match copyDependencies template.Namespace rev1 st1 deps with
          | ⟨.error e, st2⟩ => (⟨.error e, st2⟩ : Res Revision)
          | ⟨.ok _, st2⟩ =>
            match r.TrimRevisions st2 impl with
            | ⟨.error e, st3⟩ => ⟨.error e, st3⟩
            | ⟨.ok _, st3⟩ => ⟨.ok rev1, st3⟩).store.Revisions,
          x ∈ st.Revisions ∨ ∃ data, x = { r.newRevision impl data with
            CreationTimestamp := st.now } ∧ ∀ z ∈ st.Revisions, z.key ≠ x.key := by
      intro rev1
      have hd := (copyDependencies_store template.Namespace rev1 st1 deps).1
      generalize copyDependencies template.Namespace rev1 st1 deps = res2 at hd
      obtain ⟨v2, st2⟩ := res2
      simp only at hd
      subst hd
      cases v2 with
      | error e => exact hc
      | ok u =>
        simp only
        have ht := TrimRevisions_subset r st2 impl
        generalize r.TrimRevisions st2 impl = res3 at ht
        obtain ⟨v3, st3⟩ := res3
        cases v3 with
        | error e => exact fun x hx => hc x (ht x hx)
        | ok u3 => exact fun x hx => hc x (ht x hx)
    cases v with
    | ok stored => exact key stored
    | error e =>
      cases e <;> first
        | exact key _
        | exact hc

/-- C23, the divergence. Every revision `Create` stores has an empty list of owner references:
the revision is built from the zero value with its data, labels, annotations, name and
namespace set, and nothing else. -/
theorem Create_sets_no_owner (L : Lib) (r : Publisher) (st : Store) (impl : Referrer)
    (x : Revision) (hx : x ∈ (r.Create L st impl).store.Revisions) (hnew : x ∉ st.Revisions) :
    x.OwnerReferences = [] ∧ x.UID = "" ∧ x.Namespace = impl.GetNamespace ∧
      x.Labels = [(LabelKeyName, impl.GetName)] := by
  rcases Create_added L r st impl x hx with h | ⟨data, h, _⟩
  · exact absurd h hnew
  · rw [h]
    exact ⟨rfl, rfl, rfl, rfl⟩

theorem Create_sets_no_owner_witness :
    (exampleSnapshot 10).OwnerReferences = [] ∧ (exampleSnapshot 10).UID = "" ∧
      (exampleSnapshot 10).Namespace = (exampleReferrer 3 UpdatePolicyIgnore).GetNamespace ∧
      (exampleSnapshot 10).Labels =
        [(LabelKeyName, (exampleReferrer 3 UpdatePolicyIgnore).GetName)] :=
  Create_sets_no_owner Ref.lib { patches := [] } exampleStoreFresh
    (exampleReferrer 3 UpdatePolicyIgnore) (exampleSnapshot 10) (by decide) (by decide)

/-- C24, the divergence. `Create` never stores a dependency object, and when it succeeds it had
no dependency to copy: the dependencies of the template itself are not collected, and the copy
loop reads each collected dependency by the empty name, which fails. -/
theorem Create_copies_no_dependency (L : Lib) (r : Publisher) (st : Store) (impl : Referrer) :
    (r.Create L st impl).store.Objects = st.Objects ∧
    (∀ (out : Revision) (st2 : Store), r.Create L st impl = ⟨.ok out, st2⟩ →
      ∃ (template : Template) (spec : PodTemplateSpec),
        r.resolve L st impl = .ok (template, spec, [])) :=
  ⟨Create_objects L r st impl, fun _ _ h => Create_ok_no_dependencies h⟩

theorem Create_copies_no_dependency_witness :
    exampleDependentTemplate.Dependencies = [exampleDependency] ∧
    exampleStoreDependent.getObject "v1" "ConfigMap" "ns" "cfg" = .ok exampleConfigMap ∧
    (Publisher.Create Ref.lib { patches := [] } exampleStoreDependent exampleVisitor).val =
      .ok { exampleSnapshot 10 with Namespace := "user" } ∧
    (Publisher.Create Ref.lib { patches := [] } exampleStoreDependent exampleVisitor).store.Objects
      = exampleStoreDependent.Objects ∧
    (∃ (template : Template) (spec : PodTemplateSpec),
      Publisher.resolve Ref.lib { patches := [] } exampleStoreDependent exampleVisitor =
        .ok (template, spec, [])) ∧
    Publisher.Create Ref.lib { patches := [] } exampleStoreDependentOverlay exampleVisitor =
      ⟨.error .notFound,
       { exampleStoreDependentOverlay with
         Revisions := [{ exampleOverlaidVisit with CreationTimestamp := 10 }] }⟩ :=
  ⟨by decide, by decide, by decide,
   (Create_copies_no_dependency Ref.lib { patches := [] } exampleStoreDependent
      exampleVisitor).1,
   (Create_copies_no_dependency Ref.lib { patches := [] } exampleStoreDependent
      exampleVisitor).2 { exampleSnapshot 10 with Namespace := "user" }
      (Publisher.Create Ref.lib { patches := [] } exampleStoreDependent exampleVisitor).store
      (by decide),
   by decide⟩

/-- C27, counterexample. The template carried the label value `azunw` when the revision of
`nb` was stored, and carries `a2wba` now. The two contents differ and have the same FNV-1 sum,
so `Create` derives the name of the stored revision, takes the collision for success and
returns a revision of the new content, while the store still holds the old content under that
name. -/
theorem Create_collides_on_distinct_content :
    Publisher.Create Ref.lib { patches := [] }
        { exampleStoreFresh with Templates := [exampleLabelled "azunw"] }
        (exampleReferrer 3 UpdatePolicyIgnore) =
      ⟨.ok (exampleLabelledSnapshot "azunw" 10),
       { exampleStoreFresh with Templates := [exampleLabelled "azunw"],
                                Revisions := [exampleLabelledSnapshot "azunw" 10] }⟩ ∧
    Publisher.Create Ref.lib { patches := [] } exampleStoreRelabelled
        (exampleReferrer 3 UpdatePolicyIgnore) =
      ⟨.ok (exampleLabelledSnapshot "a2wba" 0), exampleStoreRelabelled⟩ ∧
    (exampleLabelledSnapshot "azunw" 10).Name = (exampleLabelledSnapshot "a2wba" 0).Name ∧
    (exampleLabelledSnapshot "azunw" 10).GetData ≠ (exampleLabelledSnapshot "a2wba" 0).GetData ∧
    exampleStoreRelabelled.Revisions = [exampleLabelledSnapshot "azunw" 10] := by
  decide

/-- C27, amended. Two revisions that `Create` returns for the same referrer carry the same name
exactly when the sums of their contents (`Sum()`, the 32-bit FNV-1 hash in hexadecimal) are
equal; identical contents give the same name, and the name is the name of the referrer, a dash
and that sum. -/
theorem Create_same_name_iff_same_sum (L1 L2 : Lib) (r1 r2 : Publisher)
    (st1 st2 out1 out2 : Store) (impl : Referrer) (rev1 rev2 : Revision)
    (h1 : r1.Create L1 st1 impl = ⟨.ok rev1, out1⟩)
    (h2 : r2.Create L2 st2 impl = ⟨.ok rev2, out2⟩) :
    (rev1.Name = rev2.Name ↔ rev1.Sum = rev2.Sum) ∧
    (rev1.GetData = rev2.GetData → rev1.Name = rev2.Name) ∧
    rev1.Name = impl.GetName ++ "-" ++ rev1.Sum ∧ rev2.Name = impl.GetName ++ "-" ++ rev2.Sum := by
  have hn1 := (Create_ok_fields h1).2.1
  have hn2 := (Create_ok_fields h2).2.1
  have hiff : rev1.Name = rev2.Name ↔ rev1.Sum = rev2.Sum := by
    rw [hn1, hn2]
    constructor
    · intro h; exact jobName_inj h
    · intro h; rw [h]
  refine ⟨hiff, fun hd => hiff.2 (Sum_congr hd), hn1, hn2⟩

theorem Create_same_name_iff_same_sum_witness :
    ((exampleLabelledSnapshot "azunw" 10).Name = (exampleLabelledSnapshot "a2wba" 0).Name ↔
      (exampleLabelledSnapshot "azunw" 10).Sum = (exampleLabelledSnapshot "a2wba" 0).Sum) ∧
    (exampleLabelledSnapshot "azunw" 10).Sum = "3b4874c9" :=
  ⟨(Create_same_name_iff_same_sum Ref.lib Ref.lib { patches := [] } { patches := [] }
      { exampleStoreFresh with Templates := [exampleLabelled "azunw"] } exampleStoreRelabelled
      { exampleStoreFresh with Templates := [exampleLabelled "azunw"],
                               Revisions := [exampleLabelledSnapshot "azunw" 10] }
      exampleStoreRelabelled (exampleReferrer 3 UpdatePolicyIgnore)
      (exampleLabelledSnapshot "azunw" 10) (exampleLabelledSnapshot "a2wba" 0)
      (by decide) (by decide)).1,
   by decide⟩

/-- C29, on the failing input. The referrer has the history limit 1; the store holds the
revision of the current content of the template, created at time 1, and a revision of another
content created at time 2. `Create` succeeds and returns the revision of the current content;
its trimming has deleted the stored revision of that name, so what `Create` returned is not
among the revisions `List` returns, and no revision of its name is stored. -/
theorem Create_returns_trimmed_revision :
    (exampleReferrer 1 UpdatePolicyIgnore).HistoryLimit = 1 ∧
    exampleSnapshot 1 ∈ exampleStoreReverted.Revisions ∧
    (Publisher.Create Ref.lib { patches := [] } exampleStoreReverted
        (exampleReferrer 1 UpdatePolicyIgnore)).val = .ok (exampleSnapshot 0) ∧
    Publisher.List { patches := [] }
        (Publisher.Create Ref.lib { patches := [] } exampleStoreReverted
          (exampleReferrer 1 UpdatePolicyIgnore)).store
        (exampleReferrer 1 UpdatePolicyIgnore) = [exampleRevision "nb-y" 2 false] ∧
    (∀ x ∈ (Publisher.Create Ref.lib { patches := [] } exampleStoreReverted
          (exampleReferrer 1 UpdatePolicyIgnore)).store.Revisions,
      x.Name ≠ (exampleSnapshot 0).Name) := by
  decide

/-! ## Election and trimming keep the content of revisions -/

theorem SameContent_refl (x : Revision) : SameContent x x := rfl

theorem SameContent_trans {x y z : Revision} (h1 : SameContent x y) (h2 : SameContent y z) :
    SameContent x z := by
  unfold SameContent at *
  rw [h2, h1]

theorem SameContent_key {x y : Revision} (h : SameContent x y) : x.key = y.key := by
  unfold SameContent at h
  rw [h]
  rfl

theorem SameContent_data {x y : Revision} (h : SameContent x y) :
    y.Spec.Data = x.Spec.Data := by
  unfold SameContent at h
  rw [h]

theorem Shrinks_refl (st : Store) : Shrinks st st :=
  fun y hy => ⟨y, hy, SameContent_refl y⟩

theorem Shrinks_of_subset {st st1 : Store} (h : ∀ y ∈ st1.Revisions, y ∈ st.Revisions) :
    Shrinks st st1 :=
  fun y hy => ⟨y, h y hy, SameContent_refl y⟩

theorem Shrinks_trans {a b c : Store} (h1 : Shrinks a b) (h2 : Shrinks b c) : Shrinks a c := by
  intro z hz
  obtain ⟨y, hy, hyz⟩ := h2 z hz
  obtain ⟨x, hx, hxy⟩ := h1 y hy
  exact ⟨x, hx, SameContent_trans hxy hyz⟩

theorem KeepsContent_then_shrinks {a b c : Store} (h1 : KeepsContent a b) (h2 : Shrinks b c) :
    KeepsContent a c := by
  intro z hz
  obtain ⟨y, hy, hyz⟩ := h2 z hz
  rcases h1 y hy with ⟨x, hx, hxy⟩ | hfresh
  · exact Or.inl ⟨x, hx, SameContent_trans hxy hyz⟩
  · exact Or.inr fun x hx => by rw [← SameContent_key hyz]; exact hfresh x hx

theorem KeepsContent_of_shrinks {a b : Store} (h : Shrinks a b) : KeepsContent a b :=
  fun y hy => Or.inl (h y hy)

/-- In a store with one revision for each namespace and name, the revision stored afterwards
under the name of a revision stored before is that revision up to the elected flag. -/
theorem KeepsContent_same_key {st st1 : Store} (hwf : st.WellFormed) (h : KeepsContent st st1)
    {x y : Revision} (hx : x ∈ st.Revisions) (hy : y ∈ st1.Revisions) (hk : x.key = y.key) :
    SameContent x y := by
  rcases h y hy with ⟨x1, hx1, hc⟩ | hfresh
  · have : x1 = x :=
      List.inj_on_of_nodup_map hwf hx1 hx ((SameContent_key hc).trans hk.symm)
    rw [← this]
    exact hc
  · exact absurd hk (hfresh x hx)

theorem applyMergeFrom_sameContent (orig modified x : Revision)
    (hd : orig.Spec.Data = modified.Spec.Data)
    (hs : orig.Spec.Stopped = modified.Spec.Stopped) :
    SameContent x (applyMergeFrom orig modified x) := by
  unfold SameContent applyMergeFrom
  simp only [hd, hs, if_true]

/-- A patch between two snapshots that agree on the content and on the stopped flag changes at
most the elected flag of stored revisions, whatever its outcome. -/
theorem patchRevision_shrinks (st : Store) (orig modified : Revision)
    (hd : orig.Spec.Data = modified.Spec.Data)
    (hs : orig.Spec.Stopped = modified.Spec.Stopped) :
    Shrinks st (st.patchRevision orig modified).store := by
  unfold Store.patchRevision
  cases st.Revisions.find? (fun r => r.hasKey modified.Namespace modified.Name) with
  | none => exact Shrinks_refl st
  | some stored =>
    intro y hy
    simp only [List.mem_map] at hy
    obtain ⟨x, hx, hxy⟩ := hy
    refine ⟨x, hx, ?_⟩
    rw [← hxy]
    split
    · exact applyMergeFrom_sameContent orig modified x hd hs
    · exact SameContent_refl x

theorem TrimRevisions_shrinks (r : Publisher) (st : Store) (impl : Referrer) :
    Shrinks st (r.TrimRevisions st impl).store :=
  Shrinks_of_subset (TrimRevisions_subset r st impl)

theorem Create_keepsContent (L : Lib) (r : Publisher) (st : Store) (impl : Referrer) :
    KeepsContent st (r.Create L st impl).store := by
  intro y hy
  rcases Create_added L r st impl y hy with h | ⟨_, _, hfresh⟩
  · exact Or.inl ⟨y, h, SameContent_refl y⟩
  · exact Or.inr hfresh

theorem electionTarget_keepsContent (L : Lib) (r : Publisher) (st : Store) (impl : Referrer) :
    KeepsContent st (r.electionTarget L st impl).store := by
  unfold Publisher.electionTarget
  by_cases hauto : impl.UpdatePolicy = UpdatePolicyAuto
  · simp only [if_pos hauto]
    have hc := Create_keepsContent L r st impl
    generalize r.Create L st impl = res at hc
    obtain ⟨v, st1⟩ := res
    cases v with
    | error e => exact hc
    | ok rev => exact hc
  · simp only [if_neg hauto]
    cases r.Latest st impl with
    | none => exact Create_keepsContent L r st impl
    | some latest => exact KeepsContent_of_shrinks (Shrinks_refl st)

theorem ElectRevision_keepsContent (L : Lib) (r : Publisher) (st : Store) (impl : Referrer) :
    KeepsContent st (r.ElectRevision L st impl).store := by
  unfold Publisher.ElectRevision
  simp only
  split
  · have ht := electionTarget_keepsContent L r st impl
    generalize r.electionTarget L st impl = res at ht
    obtain ⟨v, st1⟩ := res
    cases v with
    | error e => exact ht
    | ok latest =>
      simp only
      cases r.Elected st impl with
      | none =>
        exact KeepsContent_then_shrinks ht (patchRevision_shrinks st1 latest latest.Elect rfl rfl)
      | some el =>
        simp only
        have hp := patchRevision_shrinks st1 el el.Recall rfl rfl
        generalize st1.patchRevision el el.Recall = res2 at hp
        obtain ⟨v2, st2⟩ := res2
        cases v2 with
        | error e => exact KeepsContent_then_shrinks ht hp
        | ok u =>
          exact KeepsContent_then_shrinks (KeepsContent_then_shrinks ht hp)
            (patchRevision_shrinks st2 latest latest.Elect rfl rfl)
  · cases r.Elected st impl with
    | none => exact KeepsContent_of_shrinks (Shrinks_refl st)
    | some el => exact KeepsContent_of_shrinks (Shrinks_refl st)

/-- C25. In a store with one revision for each namespace and name, `ElectRevision` and
`TrimRevisions` never change the serialized content of a stored revision, whatever their
outcome: the revision stored after `ElectRevision` under the namespace and name of a revision
stored before has the same data, byte for byte, and is that revision up to the elected flag;
and a revision stored after `TrimRevisions` is a revision stored before, unchanged. -/
theorem ElectRevision_and_TrimRevisions_keep_content (L : Lib) (r : Publisher) (st : Store)
    (impl : Referrer) (hwf : st.WellFormed) :
    (∀ x ∈ st.Revisions, ∀ y ∈ (r.ElectRevision L st impl).store.Revisions,
      x.key = y.key →
        y.Spec.Data = x.Spec.Data ∧
        y = { x with Spec := { x.Spec with Elected := y.Spec.Elected } }) ∧
    (∀ x ∈ st.Revisions, ∀ y ∈ (r.TrimRevisions st impl).store.Revisions,
      x.key = y.key → y = x) := by
  constructor
  · intro x hx y hy hk
    have h := KeepsContent_same_key hwf (ElectRevision_keepsContent L r st impl) hx hy hk
    exact ⟨SameContent_data h, h⟩
  · intro x hx y hy hk
    exact List.inj_on_of_nodup_map hwf (TrimRevisions_subset r st impl y hy) hx hk.symm

/-- C25 at a store of three revisions of the referrer, none elected: `ElectRevision` elects
the latest one, `nb-c`, which keeps its data, and `TrimRevisions` with the history limit 1
keeps that one unchanged. -/
theorem ElectRevision_and_TrimRevisions_keep_content_witness :
    exampleStoreShuffled.WellFormed ∧
    exampleRevision "nb-c" 3 true ∈
      (({ patches := [] } : Publisher).ElectRevision Ref.lib exampleStoreShuffled
        (exampleReferrer 1 UpdatePolicyIgnore)).store.Revisions ∧
    ((∀ x ∈ exampleStoreShuffled.Revisions,
      ∀ y ∈ (({ patches := [] } : Publisher).ElectRevision Ref.lib exampleStoreShuffled
          (exampleReferrer 1 UpdatePolicyIgnore)).store.Revisions,
      x.key = y.key →
        y.Spec.Data = x.Spec.Data ∧
        y = { x with Spec := { x.Spec with Elected := y.Spec.Elected } }) ∧
    (∀ x ∈ exampleStoreShuffled.Revisions,
      ∀ y ∈ (({ patches := [] } : Publisher).TrimRevisions exampleStoreShuffled
          (exampleReferrer 1 UpdatePolicyIgnore)).store.Revisions,
      x.key = y.key → y = x)) :=
  ⟨by unfold Store.WellFormed; decide, by decide,
    ElectRevision_and_TrimRevisions_keep_content Ref.lib { patches := [] } exampleStoreShuffled
      (exampleReferrer 1 UpdatePolicyIgnore) (by unfold Store.WellFormed; decide)⟩

end NotebookController
